import Mathlib

/-!
# CPU scheduling simulator (`scheduler.cpp`): FCFS, SJF (non-preemptive), Round Robin

A shallow embedding of the three simulation functions of `scheduler.cpp` and
proofs of the properties its specification states about them.

Modelling conventions.

* `int` is the 32-bit two's-complement integer.  A value of type `int` is an
  `Int`, and every addition and subtraction of the source that can leave the
  range `[-2^31, 2^31)` on some input is followed by `wrap`, the reduction
  into that range: the clock updates `time += ...` and the metrics
  `ct - at`, `tat - bt`.  (Signed overflow is undefined behaviour in C++; `wrap`
  is what the usual targets compute.)  The subtraction `remaining -= exec` of
  `simulate_rr` is exact: with `exec = min(remaining, quantum)` and
  `quantum >= 0` its result lies between 0 and `remaining`.
* `vector<T>` is `List T`; `push_back` appends at the end; `v[i] = x` is
  `List.set`.  Sizes and indices are natural numbers.
* The `for` loops over a vector are structural recursions over the list.  The
  two `while` loops whose termination is not syntactic (the main loops of
  `simulate_sjf` and `simulate_rr`) are run by `whileLoop` with an explicit
  fuel: `none` means that the fuel ran out before the loop condition became
  false.
* `std::sort` guarantees a permutation of its input that is ordered by the
  comparator, and leaves the order of equivalent elements open (`SortedCopy`).
  The comparator of FCFS and Round Robin (arrival, then pid) is a strict total
  order on processes with distinct pids, so there the sorted vector is unique
  and `sortProcs`, an insertion sort, computes it.  The comparator of SJF
  (arrival, then burst) has ties: the main loop of SJF is `simulate_sjf_from`,
  which takes the sorted copy, and the general statements about SJF hold for
  every `SortedCopy`; `simulate_sjf` runs it on the copy that `sortProcs`
  computes.
* `idx = -1` of the SJF scan is `none`.
* A simulator returns, besides the Gantt chart it returns in the source, the
  table `result` that it hands to `print_table` and `print_averages`.
* For the proofs, `fcfsLoopZ`, `sjfStepZ` and `rrStepZ` are the same loop
  bodies computed without `wrap`.  They agree with the loop bodies of the
  source as long as the clock stays below `INT_MAX` (`NoOverflow`).
-/

namespace Scheduler

/-! ## Data model -/

/-- Segment of the Gantt chart, `struct Segment`: `pid` is 0 for IDLE. -/
structure Segment where
  pid : Int
  start : Int
  end_ : Int
  deriving DecidableEq, Repr

/-- Process record, `struct Process`; `at_` is the field `at` of the source. -/
structure Process where
  pid : Int
  at_ : Int
  bt : Int
  ct : Int
  tat : Int
  wt : Int
  remaining : Int
  done : Bool
  deriving DecidableEq, Repr

/-- Value-initialised `Process`, as the elements of `vector<Process> ordered(n+1)`. -/
def Process.zero : Process := ⟨0, 0, 0, 0, 0, 0, 0, false⟩

instance : Inhabited Process := ⟨Process.zero⟩

/-- Process as `main` builds it: `procs[i] = {pid, at, bt}; procs[i].remaining = bt`. -/
def mkProcess (pid at_ bt : Int) : Process := ⟨pid, at_, bt, 0, 0, 0, bt, false⟩

/-- The constant `INT_MAX` of a 32-bit `int`. -/
def INT_MAX : Int := 2147483647

/-- The value that a 32-bit `int` holds after a computation whose exact result
is `x`: the representative of `x` modulo `2^32` in `[-2^31, 2^31)`. -/
def wrap (x : Int) : Int := (x + 2147483648) % 4294967296 - 2147483648

/-- What a simulator computes: the table in pid order and the Gantt chart. -/
structure SimResult where
  result : List Process
  gantt : List Segment
  deriving DecidableEq, Repr

/-! ## Shared pieces -/

/-- Comparator of the `std::sort` calls of `simulate_fcfs` and `simulate_rr`:
arrival time, then pid. -/
def fcfsLess (a b : Process) : Bool :=
  if a.at_ ≠ b.at_ then decide (a.at_ < b.at_) else decide (a.pid < b.pid)

/-- Comparator of the `std::sort` call of `simulate_sjf`: arrival time, then
burst time. -/
def sjfLess (a b : Process) : Bool :=
  if a.at_ ≠ b.at_ then decide (a.at_ < b.at_) else decide (a.bt < b.bt)

/-- Insertion of `a` into a sorted list, before the first element that `a`
is not greater than. -/
def sortInsert (less : Process → Process → Bool) (a : Process) : List Process → List Process
  | [] => [a]
  | b :: l => if less b a then b :: sortInsert less a l else a :: b :: l

/-- An implementation of `std::sort(v.begin(), v.end(), less)`: insertion
sort, which keeps equivalent elements in input order. -/
def sortProcs (less : Process → Process → Bool) : List Process → List Process
  | [] => []
  | a :: l => sortInsert less a (sortProcs less l)

/-- What `std::sort(v.begin(), v.end(), less)` guarantees of the vector
`sorted` it leaves from `procs`: a permutation in which no element is less
than an earlier one.  The order of equivalent elements is not specified. -/
def SortedCopy (less : Process → Process → Bool) (procs sorted : List Process) : Prop :=
  sorted.Perm procs ∧ sorted.Pairwise (fun a b => less b a = false)

instance (less : Process → Process → Bool) (procs sorted : List Process) :
    Decidable (SortedCopy less procs sorted) :=
  inferInstanceAs (Decidable (sorted.Perm procs ∧ sorted.Pairwise (fun a b => less b a = false)))

/-- The loop `for (auto &p : procs) ordered[p.pid] = p;`. -/
def fillOrdered : List Process → List Process → List Process
  | [], ordered => ordered
  | p :: rest, ordered => fillOrdered rest (ordered.set p.pid.toNat p)

/-- The loop `for (int id = 1; id <= n; ++id) result.push_back(ordered[id]);`,
counting `k = id - 1` from 0. -/
def collectResult (ordered : List Process) : Nat → Nat → List Process
  | 0, _ => []
  | m + 1, k => ordered.getD (k + 1) Process.zero :: collectResult ordered m (k + 1)

/-- The table in pid order: `ordered(n+1)` filled from the processes, read
at indices `1..n`. -/
def orderByPid (procs : List Process) : List Process :=
  collectResult (fillOrdered procs (List.replicate (procs.length + 1) Process.zero))
    procs.length 0

/-- A `while (cond) step` loop run with fuel: `none` when the fuel is used up
while the condition still holds. -/
def whileLoop {σ : Type} (cond : σ → Bool) (step : σ → σ) : Nat → σ → Option σ
  | 0, s => if cond s then none else some s
  | fuel + 1, s => if cond s then whileLoop cond step fuel (step s) else some s

/-! ## FCFS -/

/-- The body of the `for (auto &p : procs)` loop of `simulate_fcfs`, over the
sorted processes, with the clock `time` and the Gantt chart so far; returns
the updated processes and the final chart. -/
def fcfsLoop : List Process → Int → List Segment → List Process × List Segment
  | [], _, gantt => ([], gantt)
  | p :: rest, time, gantt =>
    let gantt1 := if time < p.at_ then gantt ++ [⟨0, time, p.at_⟩] else gantt
    let time1 := if time < p.at_ then p.at_ else time
    let start := time1
    let time2 := wrap (time1 + p.bt)
    let tat := wrap (time2 - p.at_)
    let wt := wrap (tat - p.bt)
    let p1 := { p with ct := time2, tat := tat, wt := wt }
    let r := fcfsLoop rest time2 (gantt1 ++ [⟨p.pid, start, time2⟩])
    (p1 :: r.1, r.2)

/-- Model of `simulate_fcfs`. -/
def simulate_fcfs (procs : List Process) : SimResult :=
  let r := fcfsLoop (sortProcs fcfsLess procs) 0 []
  ⟨orderByPid r.1, r.2⟩

/-! ## SJF (non-preemptive) -/

/-- State of the main loop of `simulate_sjf`. -/
structure SjfState where
  procs : List Process
  gantt : List Segment
  time : Int
  completed : Nat
  deriving DecidableEq, Repr

/-- The selection scan `for (int i = 0; i < n; ++i)` of `simulate_sjf`, from
index `i` on, with the current `idx` (`none` for `-1`) and `bestBT`. -/
def sjfScan (time : Int) : List Process → Nat → Option Nat → Int → Option Nat
  | [], _, idx, _ => idx
  | p :: rest, i, idx, bestBT =>
    if !p.done && decide (p.at_ ≤ time) then
      if p.bt < bestBT then sjfScan time rest (i + 1) (some i) p.bt
      else sjfScan time rest (i + 1) idx bestBT
    else sjfScan time rest (i + 1) idx bestBT

/-- The scan for the next arrival:
`for (...) if (!procs[i].done) nextAT = min(nextAT, procs[i].at);`. -/
def sjfNextAT : List Process → Int → Int
  | [], nextAT => nextAT
  | p :: rest, nextAT => if !p.done then sjfNextAT rest (min nextAT p.at_) else sjfNextAT rest nextAT

/-- One iteration of `while (completed < n)` in `simulate_sjf`. -/
def sjfStep (s : SjfState) : SjfState :=
  match sjfScan s.time s.procs 0 none INT_MAX with
  | none =>
    let nextAT := sjfNextAT s.procs INT_MAX
    if s.time < nextAT then
      { s with gantt := s.gantt ++ [⟨0, s.time, nextAT⟩], time := nextAT }
    else s
  | some idx =>
    let p := s.procs.getD idx Process.zero
    let start := s.time
    let time := wrap (s.time + p.bt)
    let tat := wrap (time - p.at_)
    let wt := wrap (tat - p.bt)
    let p1 := { p with ct := time, tat := tat, wt := wt, done := true }
    { procs := s.procs.set idx p1
      gantt := s.gantt ++ [⟨p.pid, start, time⟩]
      time := time
      completed := s.completed + 1 }

/-- The state of `simulate_sjf` before its main loop, when `std::sort` has left
the vector `sorted`: nothing done, clock 0, empty chart. -/
def sjfInit (sorted : List Process) : SjfState :=
  { procs := sorted.map (fun p => { p with done := false })
    gantt := []
    time := 0
    completed := 0 }

/-- Model of `simulate_sjf` from the point where `std::sort` has left the vector
`sorted`: the main loop run with `fuel`, then the table in pid order. -/
def simulate_sjf_from (fuel : Nat) (sorted : List Process) : Option SimResult :=
  (whileLoop (fun s => decide (s.completed < sorted.length)) sjfStep fuel (sjfInit sorted)).map
    (fun s => ⟨orderByPid s.procs, s.gantt⟩)

/-- Model of `simulate_sjf`, with `sortProcs` for `std::sort`. -/
def simulate_sjf (fuel : Nat) (procs : List Process) : Option SimResult :=
  simulate_sjf_from fuel (sortProcs sjfLess procs)

/-! ## Round Robin -/

/-- State of `simulate_rr`: `q` holds indices into `sorted`, `i` is the next
process to arrive. -/
structure RrState where
  sorted : List Process
  gantt : List Segment
  q : List Nat
  time : Int
  i : Nat
  finished : Nat
  deriving DecidableEq, Repr

/-- The loop `while (i < n && sorted[i].at <= time) { q.push(i); i++; }`, over
the processes from index `i` on; returns the new `i` and queue. -/
def rrEnqueue (time : Int) : List Process → Nat → List Nat → Nat × List Nat
  | [], i, q => (i, q)
  | p :: rest, i, q => if p.at_ ≤ time then rrEnqueue time rest (i + 1) (q ++ [i]) else (i, q)

/-- The idle jump used before and inside the main loop of `simulate_rr`:
`gantt.push_back({0, time, sorted[i].at}); time = sorted[i].at;` followed by
the enqueue loop. -/
def rrIdle (s : RrState) : RrState :=
  let a := (s.sorted.getD s.i Process.zero).at_
  let r := rrEnqueue a (s.sorted.drop s.i) s.i s.q
  { s with gantt := s.gantt ++ [⟨0, s.time, a⟩], time := a, i := r.1, q := r.2 }

/-- One iteration of `while (finished < n)` in `simulate_rr`. -/
def rrStep (quantum : Int) (s : RrState) : RrState :=
  match s.q with
  | [] => if s.i < s.sorted.length then rrIdle s else s
  | idx :: qrest =>
    let p := s.sorted.getD idx Process.zero
    let exec := min p.remaining quantum
    let start := s.time
    let time := wrap (s.time + exec)
    let p1 := { p with remaining := p.remaining - exec }
    let sorted1 := s.sorted.set idx p1
    let r := rrEnqueue time (sorted1.drop s.i) s.i qrest
    if p1.remaining > 0 then
      { sorted := sorted1
        gantt := s.gantt ++ [⟨p1.pid, start, time⟩]
        q := r.2 ++ [idx]
        time := time
        i := r.1
        finished := s.finished }
    else
      let tat := wrap (time - p1.at_)
      let p2 := { p1 with ct := time, tat := tat, wt := wrap (tat - p1.bt) }
      { sorted := sorted1.set idx p2
        gantt := s.gantt ++ [⟨p2.pid, start, time⟩]
        q := r.2
        time := time
        i := r.1
        finished := s.finished + 1 }

/-- The working copy of `simulate_rr`: sorted by arrival then pid, with
`remaining = bt`. -/
def rrSorted (procs : List Process) : List Process :=
  (sortProcs fcfsLess procs).map (fun p => { p with remaining := p.bt })

/-- The state of `simulate_rr` before its main loop. -/
def rrInit (procs : List Process) : RrState :=
  let sorted := rrSorted procs
  let r := rrEnqueue 0 sorted 0 []
  let s0 : RrState := { sorted := sorted, gantt := [], q := r.2, time := 0, i := r.1, finished := 0 }
  if s0.q.isEmpty && decide (s0.i < sorted.length) then rrIdle s0 else s0

/-- Model of `simulate_rr`, the main loop run with `fuel`. -/
def simulate_rr (fuel : Nat) (procs : List Process) (quantum : Int) : Option SimResult :=
  (whileLoop (fun s => decide (s.finished < procs.length)) (rrStep quantum) fuel (rrInit procs)).map
    (fun s => ⟨orderByPid s.sorted, s.gantt⟩)

/-- The sample input of `main`: pids 1,2,3 with AT = 0,1,2 and BT = 5,3,8. -/
def sampleProcs : List Process := [mkProcess 1 0 5, mkProcess 2 1 3, mkProcess 3 2 8]

/-! ## The loop bodies without overflow -/

/-- The loop of `fcfsLoop` computed over the integers, without `wrap`. -/
def fcfsLoopZ : List Process → Int → List Segment → List Process × List Segment
  | [], _, gantt => ([], gantt)
  | p :: rest, time, gantt =>
    let gantt1 := if time < p.at_ then gantt ++ [⟨0, time, p.at_⟩] else gantt
    let time1 := if time < p.at_ then p.at_ else time
    let start := time1
    let time2 := time1 + p.bt
    let p1 := { p with ct := time2, tat := time2 - p.at_, wt := time2 - p.at_ - p.bt }
    let r := fcfsLoopZ rest time2 (gantt1 ++ [⟨p.pid, start, time2⟩])
    (p1 :: r.1, r.2)

/-- The step `sjfStep` computed over the integers, without `wrap`. -/
def sjfStepZ (s : SjfState) : SjfState :=
  match sjfScan s.time s.procs 0 none INT_MAX with
  | none =>
    let nextAT := sjfNextAT s.procs INT_MAX
    if s.time < nextAT then
      { s with gantt := s.gantt ++ [⟨0, s.time, nextAT⟩], time := nextAT }
    else s
  | some idx =>
    let p := s.procs.getD idx Process.zero
    let start := s.time
    let time := s.time + p.bt
    let p1 := { p with ct := time, tat := time - p.at_, wt := time - p.at_ - p.bt, done := true }
    { procs := s.procs.set idx p1
      gantt := s.gantt ++ [⟨p.pid, start, time⟩]
      time := time
      completed := s.completed + 1 }

/-- The step `rrStep` computed over the integers, without `wrap`. -/
def rrStepZ (quantum : Int) (s : RrState) : RrState :=
  match s.q with
  | [] => if s.i < s.sorted.length then rrIdle s else s
  | idx :: qrest =>
    let p := s.sorted.getD idx Process.zero
    let exec := min p.remaining quantum
    let start := s.time
    let time := s.time + exec
    let p1 := { p with remaining := p.remaining - exec }
    let sorted1 := s.sorted.set idx p1
    let r := rrEnqueue time (sorted1.drop s.i) s.i qrest
    if p1.remaining > 0 then
      { sorted := sorted1
        gantt := s.gantt ++ [⟨p1.pid, start, time⟩]
        q := r.2 ++ [idx]
        time := time
        i := r.1
        finished := s.finished }
    else
      let p2 := { p1 with ct := time, tat := time - p1.at_, wt := time - p1.at_ - p1.bt }
      { sorted := sorted1.set idx p2
        gantt := s.gantt ++ [⟨p2.pid, start, time⟩]
        q := r.2
        time := time
        i := r.1
        finished := s.finished + 1 }

/-! ## Notions used by the statements -/

/-- The fields of a process that no simulator changes: pid, arrival, burst. -/
def Process.key (p : Process) : Int × Int × Int := (p.pid, p.at_, p.bt)

/-- The pids `1, 2, ..., n`. -/
def pidList (n : Nat) : List Int := (List.range n).map (fun (k : Nat) => (k : Int) + 1)

/-- The pids of the list are `1..N` in some order. -/
def PidsOk (l : List Process) : Prop := (l.map Process.pid).Perm (pidList l.length)

/-- Valid input: a non-empty process list with pids `1..N` in input order,
arrival times `>= 0` and burst times `> 0`. -/
def ValidInput (procs : List Process) : Prop :=
  procs ≠ [] ∧ procs.map Process.pid = pidList procs.length ∧
    ∀ p ∈ procs, 0 ≤ p.at_ ∧ 0 < p.bt

instance (procs : List Process) : Decidable (ValidInput procs) :=
  inferInstanceAs (Decidable (procs ≠ [] ∧ procs.map Process.pid = pidList procs.length ∧
    ∀ p ∈ procs, 0 ≤ p.at_ ∧ 0 < p.bt))

/-- The input does not collide with the `INT_MAX` sentinels of the scans of
`simulate_sjf`: every arrival time is at most `INT_MAX`, as every `int` is, and
every burst time is strictly below `INT_MAX`, the start value of `bestBT`. -/
def SentinelOk (procs : List Process) : Prop :=
  ∀ p ∈ procs, p.at_ ≤ INT_MAX ∧ p.bt < INT_MAX

instance (procs : List Process) : Decidable (SentinelOk procs) :=
  inferInstanceAs (Decidable (∀ p ∈ procs, p.at_ ≤ INT_MAX ∧ p.bt < INT_MAX))

/-- The clock cannot overflow on this input: every arrival time plus the sum
of all burst times, so the latest arrival plus the total work, is below
`INT_MAX`. -/
def NoOverflow (procs : List Process) : Prop :=
  ∀ p ∈ procs, p.at_ + (procs.map Process.bt).sum < INT_MAX

instance (procs : List Process) : Decidable (NoOverflow procs) :=
  inferInstanceAs (Decidable (∀ p ∈ procs, p.at_ + (procs.map Process.bt).sum < INT_MAX))

/-- The metric identities `TAT = CT - AT` and `WT = TAT - BT`. -/
def MetricsOk (p : Process) : Prop := p.tat = p.ct - p.at_ ∧ p.wt = p.tat - p.bt

/-- The chart is a contiguous partition of `[0, end of last segment)`: it has a
first segment, which starts at 0; every segment starts where the previous
one ends; every segment has `start < end`. -/
def Contiguous (g : List Segment) : Prop :=
  (∃ s, g.head? = some s ∧ s.start = 0) ∧
    g.Chain' (fun a b => b.start = a.end_) ∧ ∀ s ∈ g, s.start < s.end_

/-- Total length of the segments of the chart tagged with `pid`. -/
def segTime (pid : Int) (g : List Segment) : Int :=
  ((g.filter (fun s => decide (s.pid = pid))).map (fun s => s.end_ - s.start)).sum

/-- Number of segments of the chart tagged with `pid`. -/
def segCount (pid : Int) (g : List Segment) : Nat :=
  (g.filter (fun s => decide (s.pid = pid))).length

/-- The value `avgTAT = sumTAT / procs.size()` of `print_averages` for a
non-empty table, as an exact rational (the source computes it in `double`).
For the empty table the source divides `0.0` by `0`, which is not a number;
the value of this definition there, 0, has no meaning. -/
def averageTAT (procs : List Process) : ℚ :=
  ((procs.map Process.tat).sum : ℚ) / (procs.length : ℚ)

/-- The value `avgWT = sumWT / procs.size()` of `print_averages` for a
non-empty table, as an exact rational; without meaning for the empty table,
as `averageTAT`. -/
def averageWT (procs : List Process) : ℚ :=
  ((procs.map Process.wt).sum : ℚ) / (procs.length : ℚ)

/-- Rounding of an exact rational to two decimals, half up.  The source prints
the `double` with `fixed << setprecision(2)`, which agrees with this value
unless `100 * x` is within the rounding error of a `double` of a half-integer. -/
def roundTwo (x : ℚ) : ℚ := (round (x * 100) : ℚ) / 100

/-- Invariant of a chart under construction: contiguous from 0, all segments
non-empty, ending at the clock `t`. -/
def Timeline (g : List Segment) (t : Int) : Prop :=
  g.Chain' (fun a b => b.start = a.end_) ∧ (∀ s ∈ g, s.start < s.end_) ∧
    (∀ s, g.head? = some s → s.start = 0) ∧ (g.getLast?.map Segment.end_).getD 0 = t

/-- The invariant facts of a sorted working copy: pids `1..N` in some order,
arrival times `>= 0`, burst times `> 0`. -/
def StaticOk (l0 : List Process) : Prop :=
  PidsOk l0 ∧ ∀ p ∈ l0, 0 ≤ p.at_ ∧ 0 < p.bt

/-- A process that the SJF scan may select at clock `t`: not done, arrived. -/
def Ready (t : Int) (p : Process) : Prop := p.done = false ∧ p.at_ ≤ t

/-- Invariant of the main loop of `simulate_sjf` over the sorted copy `l0`. -/
structure SjfInv (l0 : List Process) (s : SjfState) : Prop where
  keys : s.procs.map Process.key = l0.map Process.key
  count : s.completed = s.procs.countP (fun p => p.done)
  timeline : Timeline s.gantt s.time
  doneP : ∀ (k : Nat) (p : Process), s.procs[k]? = some p → p.done = true →
    MetricsOk p ∧ segTime p.pid s.gantt = p.bt ∧ segCount p.pid s.gantt = 1 ∧
      p.ct ≤ s.time ∧ p.at_ + p.bt ≤ p.ct
  undone : ∀ (k : Nat) (p : Process), s.procs[k]? = some p → p.done = false → ∀ seg ∈ s.gantt, seg.pid ≠ p.pid
  segs : ∀ seg ∈ s.gantt, seg.pid ≠ 0 → ∃ (k : Nat) (p : Process), s.procs[k]? = some p ∧ p.done = true ∧
    p.pid = seg.pid ∧ p.at_ ≤ seg.start ∧ seg.end_ = seg.start + p.bt ∧ p.ct = seg.end_ ∧
      ∀ (j : Nat) (r : Process), s.procs[j]? = some r → r.at_ ≤ seg.start →
        (r.done = true ∧ r.ct ≤ seg.start) ∨ p.bt ≤ r.bt

/-- Termination measure of the main loop of `simulate_sjf`: two per process
still to run, plus one when the next iteration has nothing to select. -/
def sjfMeasure (n : Nat) (s : SjfState) : Nat :=
  2 * (n - s.completed) + (if sjfScan s.time s.procs 0 none INT_MAX = none then 1 else 0)

/-- Invariant of `simulate_rr` over the sorted copy `l0`, the part that also
holds before the first enqueue loop has run. -/
structure RrCore (l0 : List Process) (quantum : Int) (s : RrState) : Prop where
  keys : s.sorted.map Process.key = l0.map Process.key
  timeline : Timeline s.gantt s.time
  i_le : s.i ≤ s.sorted.length
  q_nodup : s.q.Nodup
  q_lt : ∀ k ∈ s.q, k < s.i
  fin : s.finished + s.q.length = s.i
  per : ∀ (k : Nat) (p : Process), s.sorted[k]? = some p →
    0 ≤ p.remaining ∧ segTime p.pid s.gantt + p.remaining = p.bt ∧
    (segCount p.pid s.gantt : Int) + ⌈(p.remaining : ℚ) / (quantum : ℚ)⌉ =
      ⌈(p.bt : ℚ) / (quantum : ℚ)⌉ ∧
    (k ∈ s.q → 0 < p.remaining ∧ p.at_ ≤ s.time ∧ p.at_ + (p.bt - p.remaining) ≤ s.time) ∧
    (s.i ≤ k → p.remaining = p.bt) ∧
    (k < s.i → k ∉ s.q →
      p.remaining = 0 ∧ MetricsOk p ∧ p.ct ≤ s.time ∧ p.at_ + p.bt ≤ p.ct)
  segs : ∀ seg ∈ s.gantt, seg.pid ≠ 0 →
    ∃ p ∈ l0, p.pid = seg.pid ∧ p.at_ ≤ seg.start ∧ seg.end_ - seg.start ≤ quantum

/-- Invariant of the main loop of `simulate_rr`: `RrCore`, and the next
process to arrive has not arrived yet. -/
structure RrInv (l0 : List Process) (quantum : Int) (s : RrState)
    extends RrCore l0 quantum s : Prop where
  next_gt : ∀ (p : Process), s.sorted[s.i]? = some p → s.time < p.at_

/-- Termination measure of the main loop of `simulate_rr`: twice the total
remaining work, plus one when the queue is empty. -/
def rrMeasure (s : RrState) : Nat :=
  2 * ((s.sorted.map Process.remaining).sum).toNat + (if s.q = [] then 1 else 0)

/-- What the properties shared by the three simulators need of a finished
run: `final` is the working copy after the run and `gantt` the chart. -/
structure Outcome (procs final : List Process) (gantt : List Segment) : Prop where
  keys : (final.map Process.key).Perm (procs.map Process.key)
  metrics : ∀ p ∈ final, MetricsOk p
  contiguous : Contiguous gantt
  segTime : ∀ p ∈ final, segTime p.pid gantt = p.bt
  arrived : ∀ seg ∈ gantt, seg.pid ≠ 0 → ∃ p ∈ final, p.pid = seg.pid ∧ p.at_ ≤ seg.start

/-- Every idle segment of the chart is immediately followed by a non-idle
segment: no two idle segments in a row, none at the end. -/
def IdleFollowed (g : List Segment) : Prop :=
  ∀ (i : Nat) (a : Segment), g[i]? = some a → a.pid = 0 →
    ∃ b, g[i + 1]? = some b ∧ b.pid ≠ 0

/-- Number of non-idle segments of the chart. -/
def nonIdleCount (g : List Segment) : Nat :=
  (g.filter (fun s => decide (s.pid ≠ 0))).length

/-- End of the last segment of the chart tagged with `pid`, if there is one. -/
def lastEnd (pid : Int) (g : List Segment) : Option Int :=
  ((g.filter (fun s => decide (s.pid = pid))).getLast?).map Segment.end_

/-- Further invariant of the main loop of `simulate_sjf`, about idle segments
and about the position of the selected process in the working copy. -/
structure SjfExt (s : SjfState) : Prop where
  idle_chain : s.gantt.Chain' (fun a b => a.pid = 0 → b.pid ≠ 0)
  idle_last : ∀ seg, s.gantt.getLast? = some seg → seg.pid = 0 →
    s.completed < s.procs.length ∧ s.time = sjfNextAT s.procs INT_MAX
  count : nonIdleCount s.gantt = s.completed
  tie : ∀ seg ∈ s.gantt, seg.pid ≠ 0 → ∃ (k : Nat) (p : Process), s.procs[k]? = some p ∧
    p.done = true ∧ p.pid = seg.pid ∧
      ∀ (j : Nat) (r : Process), s.procs[j]? = some r → r.at_ ≤ seg.start →
        (r.done = true ∧ r.ct ≤ seg.start) ∨ p.bt < r.bt ∨ k ≤ j
  idle_wc : ∀ seg ∈ s.gantt, seg.pid = 0 →
    ∀ (j : Nat) (r : Process), s.procs[j]? = some r →
      (r.done = true ∧ r.ct ≤ seg.start) ∨ seg.end_ ≤ r.at_

/-- What the properties about idle time and completion shared by the three
simulators need of a finished run: `final` is the working copy after the run
and `gantt` the chart. -/
structure Outcome2 (final : List Process) (gantt : List Segment) : Prop where
  idle : IdleFollowed gantt
  causal : ∀ p ∈ final, p.at_ + p.bt ≤ p.ct
  lastEnd : ∀ p ∈ final, lastEnd p.pid gantt = some p.ct
  ct_le : ∀ seg, gantt.getLast? = some seg → ∀ p ∈ final, p.ct ≤ seg.end_
  work : ∀ seg ∈ gantt, seg.pid = 0 → ∀ p ∈ final, p.ct ≤ seg.start ∨ seg.end_ ≤ p.at_

/-- The effect of the idle jump `rrIdle` from `s` to `s'`: the queue was empty,
the clock moves to the arrival of the next process `a`, and the `m >= 1`
processes that have arrived by then are enqueued. -/
structure RrJump (s s' : RrState) (a : Process) (m : Nat) : Prop where
  hq : s.q = []
  hget : s.sorted[s.i]? = some a
  lt : s.time < a.at_
  m_pos : 1 ≤ m
  bound : s.i + m ≤ s.sorted.length
  sorted : s'.sorted = s.sorted
  gantt : s'.gantt = s.gantt ++ [⟨0, s.time, a.at_⟩]
  q : s'.q = List.range' s.i m
  time : s'.time = a.at_
  i : s'.i = s.i + m
  finished : s'.finished = s.finished
  hin : ∀ (k : Nat) (r : Process), s.i ≤ k → k < s.i + m → s.sorted[k]? = some r →
    r.at_ ≤ a.at_
  hstop : ∀ r : Process, s.sorted[s.i + m]? = some r → a.at_ < r.at_

/-- The effect of an iteration of the main loop of `simulate_rr` that runs a
slice, from `s` to `s'`: the head `idx` of the queue, process `p`, runs for
`min p.remaining quantum`, the `m` processes that have arrived by the end of
the slice are enqueued, and then `idx` is requeued or finished; `p'` is the
updated record. -/
structure RrRun (quantum : Int) (s s' : RrState) (idx : Nat) (qrest : List Nat)
    (p p' : Process) (m : Nat) : Prop where
  hq : s.q = idx :: qrest
  hget : s.sorted[idx]? = some p
  pos : 0 < p.remaining
  key : p'.key = p.key
  rem : p'.remaining = p.remaining - min p.remaining quantum
  bound : s.i + m ≤ s.sorted.length
  sorted : s'.sorted = s.sorted.set idx p'
  gantt : s'.gantt = s.gantt ++ [⟨p.pid, s.time, s.time + min p.remaining quantum⟩]
  time : s'.time = s.time + min p.remaining quantum
  i : s'.i = s.i + m
  hin : ∀ (k : Nat) (r : Process), s.i ≤ k → k < s.i + m → s.sorted[k]? = some r →
    r.at_ ≤ s.time + min p.remaining quantum
  hstop : ∀ r : Process, s.sorted[s.i + m]? = some r →
    s.time + min p.remaining quantum < r.at_
  cases : (0 < p'.remaining ∧ s'.q = qrest ++ List.range' s.i m ++ [idx] ∧
      s'.finished = s.finished) ∨
    (p'.remaining = 0 ∧ s'.q = qrest ++ List.range' s.i m ∧
      s'.finished = s.finished + 1 ∧ p'.ct = s.time + min p.remaining quantum ∧
      p'.tat = p'.ct - p.at_ ∧ p'.wt = p'.tat - p.bt)

/-- Further invariant of `simulate_rr` over the sorted copy `l0`, about idle
segments, the number of slices, arrivals and last segments. -/
structure RrExt (l0 : List Process) (s : RrState) : Prop where
  idle_chain : s.gantt.Chain' (fun a b => a.pid = 0 → b.pid ≠ 0)
  idle_last : ∀ seg, s.gantt.getLast? = some seg → seg.pid = 0 → s.q ≠ []
  count : (nonIdleCount s.gantt : Int) + (s.sorted.map Process.remaining).sum ≤
    (l0.map Process.bt).sum
  arrived : ∀ (k : Nat) (p : Process), s.sorted[k]? = some p → k < s.i → p.at_ ≤ s.time
  started : ∀ seg ∈ s.gantt, seg.pid ≠ 0 →
    ∀ (k : Nat) (p : Process), s.sorted[k]? = some p → p.pid = seg.pid → k < s.i
  last_end : ∀ (k : Nat) (p : Process), s.sorted[k]? = some p → k < s.i → k ∉ s.q →
    lastEnd p.pid s.gantt = some p.ct
  idle_wc : ∀ seg ∈ s.gantt, seg.pid = 0 → ∀ (k : Nat) (r : Process), s.sorted[k]? = some r →
    (r.remaining = 0 ∧ r.ct ≤ seg.start) ∨ seg.end_ ≤ r.at_

/-- The states of the main loop of `simulate_rr`: the state before the loop,
and the state after an iteration from a state in which the loop condition
`finished < n` holds. -/
inductive RrReach (procs : List Process) (quantum : Int) : RrState → Prop where
  | init : RrReach procs quantum (rrInit procs)
  | step {s : RrState} : RrReach procs quantum s → s.finished < procs.length →
      RrReach procs quantum (rrStep quantum s)

/-- The total remaining work of a state of `simulate_rr`. -/
def totalRemaining (s : RrState) : Int := (s.sorted.map Process.remaining).sum

/-- The tie-break by input order: whenever the process `p` selected for a
segment ties in burst time with another process `q` that has arrived and is
not complete at the start of the segment, `p` comes first in the input. -/
def TieBreakByInputOrder (procs : List Process) (r : SimResult) : Prop :=
  ∀ seg ∈ r.gantt, seg.pid ≠ 0 →
    ∀ (i j : Nat) (p q : Process), procs[i]? = some p → procs[j]? = some q →
      p.pid = seg.pid → q.bt = p.bt → q.at_ ≤ seg.start →
      (∀ c ∈ r.result, c.pid = q.pid → seg.start < c.ct) → i ≤ j

/-- An input with a tie in burst time between P1 (arrival 5) and P2
(arrival 1) at clock 10, when P3 (arrival 0, burst 10) has finished. -/
def tieProcs : List Process := [mkProcess 1 5 3, mkProcess 2 1 3, mkProcess 3 0 10]

/-- The columns of a process that `print_table` shows: pid, arrival, burst,
completion, turnaround and waiting time. -/
def Process.columns (p : Process) : Int × Int × Int × Int × Int × Int :=
  (p.pid, p.at_, p.bt, p.ct, p.tat, p.wt)

/-- Invariant of the main loop of `simulate_rr` over the sorted copy `l0`
when no slice is cut by the quantum: the queue holds the arrived, unfinished
indices in order, the processes from `finished` on are untouched, and running
the loop of `simulate_fcfs` (computed without overflow) over them from the
current clock and chart gives the chart and the table columns of that loop run
over all of `l0`. -/
structure RrFcfs (l0 : List Process) (s : RrState) : Prop where
  q : s.q = List.range' s.finished (s.i - s.finished)
  rest : ∀ k, s.finished ≤ k → s.sorted[k]? = l0[k]?
  chart : (fcfsLoopZ (l0.drop s.finished) s.time s.gantt).2 = (fcfsLoopZ l0 0 []).2
  table : (s.sorted.take s.finished).map Process.columns ++
      (fcfsLoopZ (l0.drop s.finished) s.time s.gantt).1.map Process.columns =
    (fcfsLoopZ l0 0 []).1.map Process.columns

/-- The work that a state of `simulate_sjf` still has to do: the total burst
time of the processes that are not done. -/
def undoneWork (l : List Process) : Int :=
  (l.map (fun p => if p.done then 0 else p.bt)).sum

/-- The process `p` marked done. -/
def Process.set_done (p : Process) : Process := { p with done := true }

/-- The effect of the idle jump of `simulate_rr` from `s` to `s'`, whatever the
clock: the queue was empty, the clock moves to the arrival of the next
process `a`, and the `m >= 1` processes that have arrived by then are
enqueued. -/
structure RrJumpW (s s' : RrState) (a : Process) (m : Nat) : Prop where
  hq : s.q = []
  hget : s.sorted[s.i]? = some a
  m_pos : 1 ≤ m
  bound : s.i + m ≤ s.sorted.length
  sorted : s'.sorted = s.sorted
  gantt : s'.gantt = s.gantt ++ [⟨0, s.time, a.at_⟩]
  q : s'.q = List.range' s.i m
  time : s'.time = a.at_
  i : s'.i = s.i + m
  finished : s'.finished = s.finished

/-- The effect of an iteration of the main loop of `simulate_rr` that runs a
slice, from `s` to `s'`, whatever the clock: the head `idx` of the queue,
process `p`, runs for `min p.remaining quantum`, the clock becomes
`wrap (s.time + min p.remaining quantum)`, the `m` processes that have arrived
by that clock value are enqueued, and then `idx` is requeued or finished; `p'`
is the updated record. -/
structure RrRunW (quantum : Int) (s s' : RrState) (idx : Nat) (qrest : List Nat)
    (p p' : Process) (m : Nat) : Prop where
  hq : s.q = idx :: qrest
  hget : s.sorted[idx]? = some p
  key : p'.key = p.key
  rem : p'.remaining = p.remaining - min p.remaining quantum
  bound : s.i + m ≤ s.sorted.length
  sorted : s'.sorted = s.sorted.set idx p'
  gantt : s'.gantt = s.gantt ++ [⟨p.pid, s.time, s'.time⟩]
  time : s'.time = wrap (s.time + min p.remaining quantum)
  i : s'.i = s.i + m
  hstop : ∀ r : Process, s.sorted[s.i + m]? = some r → s'.time < r.at_
  cases : (0 < p'.remaining ∧ s'.q = qrest ++ List.range' s.i m ++ [idx] ∧
      s'.finished = s.finished) ∨
    (¬ 0 < p'.remaining ∧ s'.q = qrest ++ List.range' s.i m ∧
      s'.finished = s.finished + 1 ∧ p'.ct = s'.time)

/-- Invariant of `simulate_rr` over the sorted copy `l0` that holds whatever
the clock does: the bookkeeping of the queue, the remaining times, the
number of slices, and the position of the idle segments. -/
structure RrW (l0 : List Process) (quantum : Int) (s : RrState) : Prop where
  keys : s.sorted.map Process.key = l0.map Process.key
  time_ge : -2147483648 ≤ s.time
  i_le : s.i ≤ s.sorted.length
  q_nodup : s.q.Nodup
  q_lt : ∀ k ∈ s.q, k < s.i
  fin : s.finished + s.q.length = s.i
  per : ∀ (k : Nat) (p : Process), s.sorted[k]? = some p →
    0 ≤ p.remaining ∧
    (segCount p.pid s.gantt : Int) + ⌈(p.remaining : ℚ) / (quantum : ℚ)⌉ =
      ⌈(p.bt : ℚ) / (quantum : ℚ)⌉ ∧
    (k ∈ s.q → 0 < p.remaining) ∧
    (s.i ≤ k → p.remaining = p.bt) ∧
    (k < s.i → k ∉ s.q → p.remaining = 0)
  segs : ∀ seg ∈ s.gantt, seg.pid ≠ 0 →
    (∃ p ∈ l0, p.pid = seg.pid) ∧ seg.end_ - seg.start ≤ quantum
  idle_chain : s.gantt.Chain' (fun a b => a.pid = 0 → b.pid ≠ 0)
  idle_last : ∀ seg, s.gantt.getLast? = some seg → seg.pid = 0 → s.q ≠ []
  count : (nonIdleCount s.gantt : Int) + (s.sorted.map Process.remaining).sum ≤
    (l0.map Process.bt).sum

/-- Invariant of `simulate_rr` about a slice `a` (at index `i` of the chart,
of the process at index `kp`) and another process (at index `kr`) whose
arrival time lies in `(a.start, a.end]`: either that process has a segment
`c` such that no segment of the owner of `a` lies after `a` up to `c`, or
the owner of `a` has had no later segment and, while it waits in the queue,
the other process is ahead of it. -/
structure RrPairW (s : RrState) : Prop where
  pair : ∀ (i : Nat) (a : Segment), s.gantt[i]? = some a → a.pid ≠ 0 →
    ∀ (kp : Nat) (p : Process) (kr : Nat) (r : Process),
      s.sorted[kp]? = some p → p.pid = a.pid → s.sorted[kr]? = some r → kr ≠ kp →
      a.start < r.at_ → r.at_ ≤ a.end_ →
      (∃ (k : Nat) (c : Segment), s.gantt[k]? = some c ∧ c.pid = r.pid ∧
          ∀ (k' : Nat) (c' : Segment), i < k' → k' ≤ k → s.gantt[k']? = some c' →
            c'.pid ≠ a.pid) ∨
      ((∀ (k' : Nat) (c' : Segment), i < k' → s.gantt[k']? = some c' → c'.pid ≠ a.pid) ∧
        (kp ∈ s.q → [kr, kp].Sublist s.q))

/-- Invariant of the main loop of `simulate_sjf` over the sorted copy `l0`
that holds whatever the clock does: the bookkeeping of the done flags and the
position of the idle segments. -/
structure SjfW (l0 : List Process) (s : SjfState) : Prop where
  keys : s.procs.map Process.key = l0.map Process.key
  count : s.completed = s.procs.countP (fun p => p.done)
  idle_chain : s.gantt.Chain' (fun a b => a.pid = 0 → b.pid ≠ 0)
  idle_last : ∀ seg, s.gantt.getLast? = some seg → seg.pid = 0 →
    s.completed < s.procs.length ∧ s.time = sjfNextAT s.procs INT_MAX

/-- The states of the main loop of `simulate_sjf` when `std::sort` has left the
vector `sorted`: the state before the loop, and the state after an iteration
from a state in which the loop condition `completed < n` holds. -/
inductive SjfReach (sorted : List Process) : SjfState → Prop where
  | init : SjfReach sorted (sjfInit sorted)
  | step {s : SjfState} : SjfReach sorted s → s.completed < sorted.length →
      SjfReach sorted (sjfStep s)

/-- An input whose schedules have idle time: P1 arrives at 1 (burst 2), P2
arrives at 5 (burst 1). -/
def gapProcs : List Process := [mkProcess 1 1 2, mkProcess 2 5 1]

/-- An input on which the 32-bit clock overflows: P1 (arrival 0, burst
`INT_MAX`) and P2 (arrival 0, burst 1). -/
def overflowProcs : List Process := [mkProcess 1 0 2147483647, mkProcess 2 0 1]

/-- An input on which the 32-bit clock of `simulate_sjf` overflows; the three
processes have distinct (arrival, burst) pairs, so the sorted copy is
unique. -/
def overflowSjfProcs : List Process :=
  [mkProcess 1 0 2147483645, mkProcess 2 0 2147483646, mkProcess 3 1 2147483646]

/-- An input on which the 32-bit clock of `simulate_rr` overflows before the
last process runs. -/
def overflowRrProcs : List Process :=
  [mkProcess 1 0 2147483647, mkProcess 2 0 10, mkProcess 3 5 5]

/-- An input on which the 32-bit clock overflows before the last arrival. -/
def overflowLateProcs : List Process :=
  [mkProcess 1 0 2147483647, mkProcess 2 1 5, mkProcess 3 2 5]

/-- The vector that `std::sort` leaves from `tieProcs` in `simulate_sjf`. -/
def tieSorted : List Process := [mkProcess 3 0 10, mkProcess 2 1 3, mkProcess 1 5 3]

/-! ## Loops and sorting -/

theorem whileLoop_inv {σ : Type} (cond : σ → Bool) (step : σ → σ) (Inv : σ → Prop)
    (hstep : ∀ s, Inv s → cond s = true → Inv (step s)) :
    ∀ (fuel : Nat) (s s' : σ), Inv s → whileLoop cond step fuel s = some s' →
      Inv s' ∧ cond s' = false := by
  intro fuel
  induction fuel with
  | zero =>
    intro s s' hs h
    by_cases hc : cond s = true
    · simp [whileLoop, hc] at h
    · simp [whileLoop, hc] at h
      subst h
      exact ⟨hs, by simpa using hc⟩
  | succ f ih =>
    intro s s' hs h
    by_cases hc : cond s = true
    · simp only [whileLoop, hc, if_true] at h
      exact ih _ _ (hstep s hs hc) h
    · simp [whileLoop, hc] at h
      subst h
      exact ⟨hs, by simpa using hc⟩

theorem whileLoop_terminates {σ : Type} (cond : σ → Bool) (step : σ → σ) (Inv : σ → Prop)
    (μ : σ → Nat) (hstep : ∀ s, Inv s → cond s = true → Inv (step s))
    (hdec : ∀ s, Inv s → cond s = true → μ (step s) < μ s) :
    ∀ (fuel : Nat) (s : σ), Inv s → μ s ≤ fuel → ∃ s', whileLoop cond step fuel s = some s' := by
  intro fuel
  induction fuel with
  | zero =>
    intro s hs hle
    by_cases hc : cond s = true
    · have := hdec s hs hc
      omega
    · exact ⟨s, by simp [whileLoop, hc]⟩
  | succ f ih =>
    intro s hs hle
    by_cases hc : cond s = true
    · have hd := hdec s hs hc
      obtain ⟨s', h'⟩ := ih (step s) (hstep s hs hc) (by omega)
      exact ⟨s', by simp only [whileLoop, hc, if_true]; exact h'⟩
    · exact ⟨s, by simp [whileLoop, hc]⟩

theorem whileLoop_total {σ : Type} (cond : σ → Bool) (step : σ → σ) (Inv : σ → Prop)
    (μ : σ → Nat) (hstep : ∀ s, Inv s → cond s = true → Inv (step s))
    (hdec : ∀ s, Inv s → cond s = true → μ (step s) < μ s) (s : σ) (hs : Inv s) :
    ∃ s', whileLoop cond step (μ s) s = some s' ∧ Inv s' ∧ cond s' = false := by
  obtain ⟨s', h⟩ := whileLoop_terminates cond step Inv μ hstep hdec (μ s) s hs (le_refl _)
  exact ⟨s', h, whileLoop_inv cond step Inv hstep _ _ _ hs h⟩

theorem whileLoop_mono {σ : Type} (cond : σ → Bool) (step : σ → σ) :
    ∀ (fuel : Nat) (s s' : σ), whileLoop cond step fuel s = some s' →
      ∀ fuel', fuel ≤ fuel' → whileLoop cond step fuel' s = some s' := by
  intro fuel
  induction fuel with
  | zero =>
    intro s s' h fuel' _
    by_cases hc : cond s = true
    · simp [whileLoop, hc] at h
    · cases fuel' <;> simpa [whileLoop, hc] using h
  | succ f ih =>
    intro s s' h fuel' hle
    by_cases hc : cond s = true
    · cases fuel' with
      | zero => omega
      | succ f' =>
        simp only [whileLoop, hc, if_true] at h ⊢
        exact ih _ _ h f' (by omega)
    · cases fuel' <;> simpa [whileLoop, hc] using h

theorem sortInsert_perm (less : Process → Process → Bool) (a : Process) (l : List Process) :
    (sortInsert less a l).Perm (a :: l) := by
  induction l with
  | nil => simp [sortInsert]
  | cons b l ih =>
    by_cases h : less b a = true
    · simp only [sortInsert, h, if_true]
      exact (List.Perm.cons b ih).trans (List.Perm.swap a b l)
    · simp [sortInsert, h]

theorem sortProcs_perm (less : Process → Process → Bool) (l : List Process) :
    (sortProcs less l).Perm l := by
  induction l with
  | nil => simp [sortProcs]
  | cons a l ih =>
    simp only [sortProcs]
    exact (sortInsert_perm less a _).trans (List.Perm.cons a ih)

/-! ## The table in pid order -/

theorem fillOrdered_length (l : List Process) :
    ∀ acc : List Process, (fillOrdered l acc).length = acc.length := by
  induction l with
  | nil => intro acc; rfl
  | cons p rest ih => intro acc; simp [fillOrdered, ih]

theorem fillOrdered_getD_other (l : List Process) (j : Nat) :
    ∀ acc : List Process, (∀ q ∈ l, q.pid.toNat ≠ j) →
      (fillOrdered l acc).getD j Process.zero = acc.getD j Process.zero := by
  induction l with
  | nil => intro acc _; rfl
  | cons p rest ih =>
    intro acc h
    have hp : p.pid.toNat ≠ j := h p (List.mem_cons_self _ _)
    rw [fillOrdered, ih _ (fun q hq => h q (List.mem_cons_of_mem _ hq))]
    simp [List.getD_eq_getElem?_getD, List.getElem?_set_ne hp]

theorem fillOrdered_getD_mem (l : List Process) :
    ∀ acc : List Process, (l.map (fun p => p.pid.toNat)).Nodup →
      (∀ q ∈ l, q.pid.toNat < acc.length) → ∀ p ∈ l,
      (fillOrdered l acc).getD p.pid.toNat Process.zero = p := by
  induction l with
  | nil => intro acc _ _ p hp; cases hp
  | cons a rest ih =>
    intro acc hnd hlt p hp
    rw [List.map_cons, List.nodup_cons] at hnd
    rw [fillOrdered]
    rcases List.mem_cons.1 hp with rfl | hp'
    · rw [fillOrdered_getD_other]
      · have := hlt p (List.mem_cons_self _ _)
        simp [List.getD_eq_getElem?_getD, this]
      · intro q hq hqe
        exact hnd.1 (List.mem_map.2 ⟨q, hq, hqe⟩)
    · exact ih _ hnd.2 (fun q hq => by simpa using hlt q (List.mem_cons_of_mem _ hq)) p hp'

theorem collectResult_eq (ordered : List Process) :
    ∀ m k : Nat, collectResult ordered m k =
      (List.range m).map (fun t => ordered.getD (k + t + 1) Process.zero) := by
  intro m
  induction m with
  | zero => intro k; rfl
  | succ m ih =>
    intro k
    rw [collectResult, ih, List.range_succ_eq_map, List.map_cons, List.map_map]
    refine congrArg₂ _ rfl (List.map_congr_left ?_)
    intro t _
    simp only [Function.comp, Nat.succ_eq_add_one]
    congr 1
    omega

theorem mem_pidList (n : Nat) (x : Int) : x ∈ pidList n ↔ 1 ≤ x ∧ x ≤ n := by
  unfold pidList
  simp only [List.mem_map, List.mem_range]
  constructor
  · rintro ⟨k, hk, rfl⟩
    omega
  · rintro ⟨h1, h2⟩
    exact ⟨(x - 1).toNat, by omega, by omega⟩

theorem pidList_nodup (n : Nat) : (pidList n).Nodup := by
  unfold pidList
  refine (List.nodup_range n).map ?_
  intro a b h
  simpa using h

theorem PidsOk.range {l : List Process} (h : PidsOk l) {p : Process} (hp : p ∈ l) :
    1 ≤ p.pid ∧ p.pid ≤ l.length :=
  (mem_pidList _ _).1 (h.subset (List.mem_map.2 ⟨p, hp, rfl⟩))

theorem PidsOk.nodup {l : List Process} (h : PidsOk l) : (l.map Process.pid).Nodup :=
  h.nodup_iff.2 (pidList_nodup _)

theorem PidsOk.inj {l : List Process} (h : PidsOk l) {p r : Process} (hp : p ∈ l) (hr : r ∈ l)
    (he : p.pid = r.pid) : p = r :=
  List.inj_on_of_nodup_map h.nodup hp hr he

theorem PidsOk.exists {l : List Process} (h : PidsOk l) {x : Int} (h1 : 1 ≤ x)
    (h2 : x ≤ l.length) : ∃ p ∈ l, p.pid = x := by
  have : x ∈ l.map Process.pid := h.symm.subset ((mem_pidList _ _).2 ⟨h1, h2⟩)
  obtain ⟨p, hp, he⟩ := List.mem_map.1 this
  exact ⟨p, hp, he⟩

theorem PidsOk.toNat_nodup {l : List Process} (h : PidsOk l) :
    (l.map (fun p => p.pid.toNat)).Nodup := by
  have : l.map (fun p => p.pid.toNat) = (l.map Process.pid).map Int.toNat := by
    rw [List.map_map]; rfl
  rw [this]
  refine List.Nodup.map_on ?_ h.nodup
  intro x hx y hy hxy
  obtain ⟨p, hp, rfl⟩ := List.mem_map.1 hx
  obtain ⟨r, hr, rfl⟩ := List.mem_map.1 hy
  have := h.range hp
  have := h.range hr
  omega

theorem orderByPid_eq {l : List Process} (h : PidsOk l) :
    ∀ t, t < l.length → ∀ p ∈ l, p.pid = (t : Int) + 1 →
      (orderByPid l).get? t = some p := by
  intro t ht p hp hpid
  unfold orderByPid
  rw [collectResult_eq]
  have hn : p.pid.toNat = t + 1 := by omega
  have := fillOrdered_getD_mem l (List.replicate (l.length + 1) Process.zero) h.toNat_nodup
    (fun q hq => by have := h.range hq; simp; omega) p hp
  rw [hn] at this
  simp [ht, ← List.getD_eq_getElem?_getD, this]

theorem orderByPid_mem {l : List Process} (h : PidsOk l) (p : Process) :
    p ∈ orderByPid l ↔ p ∈ l := by
  constructor
  · intro hp
    unfold orderByPid at hp
    rw [collectResult_eq] at hp
    obtain ⟨t, ht, he⟩ := List.mem_map.1 hp
    rw [List.mem_range] at ht
    obtain ⟨r, hr, hrp⟩ := h.exists (x := (t : Int) + 1) (by omega) (by omega)
    have := orderByPid_eq h t ht r hr hrp
    unfold orderByPid at this
    rw [collectResult_eq] at this
    simp [ht] at this
    simp at he
    rw [← he, this]
    exact hr
  · intro hp
    have hr := h.range hp
    have := orderByPid_eq h (p.pid - 1).toNat (by omega) p hp (by omega)
    exact List.get?_mem this

theorem orderByPid_pids {l : List Process} (h : PidsOk l) :
    (orderByPid l).map Process.pid = pidList l.length := by
  apply List.ext_get?
  intro t
  have hlen : (orderByPid l).length = l.length := by
    unfold orderByPid; rw [collectResult_eq]; simp
  by_cases ht : t < l.length
  · obtain ⟨r, hr, hrp⟩ := h.exists (x := (t : Int) + 1) (by omega) (by omega)
    have := orderByPid_eq h t ht r hr hrp
    simp [List.get?_eq_getElem?] at this
    simp [pidList, this, ht, hrp]
  · have h1 : (orderByPid l)[t]? = none := List.getElem?_eq_none (by omega)
    have h2 : (List.range l.length)[t]? = none := List.getElem?_eq_none (by simp; omega)
    simp [pidList, h1, h2]

/-! ## Charts -/

theorem Timeline.nil : Timeline [] 0 := by
  simp [Timeline]

theorem Timeline.snoc {g : List Segment} {t : Int} (h : Timeline g t) (pid : Int) {t' : Int}
    (hlt : t < t') : Timeline (g ++ [⟨pid, t, t'⟩]) t' := by
  obtain ⟨hc, hpos, hhd, hlast⟩ := h
  refine ⟨?_, ?_, ?_, ?_⟩
  · refine List.Chain'.append hc (List.chain'_singleton _) ?_
    intro x hx y hy
    simp only [List.head?_cons, Option.mem_def, Option.some.injEq] at hy
    rw [Option.mem_def] at hx
    subst hy
    simp [hx] at hlast
    simp [hlast]
  · intro s hs
    rcases List.mem_append.1 hs with hs | hs
    · exact hpos s hs
    · simp only [List.mem_singleton] at hs
      subst hs
      exact hlt
  · intro s hs
    cases g with
    | nil =>
      simp at hs hlast
      subst hs
      simp [hlast]
    | cons a g => exact hhd s (by simpa using hs)
  · simp

theorem Timeline.contiguous {g : List Segment} {t : Int} (h : Timeline g t) (hne : g ≠ []) :
    Contiguous g := by
  obtain ⟨hc, hpos, hhd, _⟩ := h
  refine ⟨?_, hc, hpos⟩
  cases g with
  | nil => exact absurd rfl hne
  | cons a g => exact ⟨a, rfl, hhd a rfl⟩

theorem segTime_snoc (pid : Int) (g : List Segment) (s : Segment) :
    segTime pid (g ++ [s]) = segTime pid g + (if s.pid = pid then s.end_ - s.start else 0) := by
  unfold segTime
  by_cases h : s.pid = pid <;> simp [List.filter_append, List.filter_cons, h]

theorem segCount_snoc (pid : Int) (g : List Segment) (s : Segment) :
    segCount pid (g ++ [s]) = segCount pid g + (if s.pid = pid then 1 else 0) := by
  unfold segCount
  by_cases h : s.pid = pid <;> simp [List.filter_append, List.filter_cons, h]

/-! ## FCFS without overflow -/

theorem fcfsLoopZ_keys (l : List Process) :
    ∀ (t : Int) (g : List Segment), (fcfsLoopZ l t g).1.map Process.key = l.map Process.key := by
  induction l with
  | nil => intro t g; rfl
  | cons p rest ih =>
    intro t g
    simp only [fcfsLoopZ, List.map_cons, ih]
    rfl

theorem fcfsLoopZ_metrics (l : List Process) :
    ∀ (t : Int) (g : List Segment), ∀ p ∈ (fcfsLoopZ l t g).1, MetricsOk p := by
  induction l with
  | nil => intro t g p hp; simp [fcfsLoopZ] at hp
  | cons a rest ih =>
    intro t g p hp
    simp only [fcfsLoopZ, List.mem_cons] at hp
    rcases hp with rfl | hp
    · exact ⟨rfl, rfl⟩
    · exact ih _ _ p hp

theorem fcfsLoopZ_length (l : List Process) :
    ∀ (t : Int) (g : List Segment), g.length + l.length ≤ (fcfsLoopZ l t g).2.length := by
  induction l with
  | nil => intro t g; simp [fcfsLoopZ]
  | cons p rest ih =>
    intro t g
    simp only [fcfsLoopZ]
    refine le_trans ?_ (ih _ _)
    simp only [List.length_append, List.length_cons, List.length_nil]
    split <;> simp <;> omega

theorem fcfsLoopZ_timeline (l : List Process) :
    ∀ (t : Int) (g : List Segment), (∀ p ∈ l, 0 < p.bt) → Timeline g t →
      ∃ t', t ≤ t' ∧ Timeline (fcfsLoopZ l t g).2 t' := by
  induction l with
  | nil => intro t g _ h; exact ⟨t, le_refl _, h⟩
  | cons p rest ih =>
    intro t g hbt h
    have hp := hbt p (List.mem_cons_self _ _)
    have hrest : ∀ q ∈ rest, 0 < q.bt := fun q hq => hbt q (List.mem_cons_of_mem _ hq)
    simp only [fcfsLoopZ]
    by_cases hlt : t < p.at_
    · simp only [hlt, if_true]
      obtain ⟨t', hle, ht'⟩ := ih (p.at_ + p.bt) _ hrest
        (((h.snoc 0 hlt)).snoc p.pid (by omega))
      exact ⟨t', by omega, ht'⟩
    · simp only [hlt, if_false]
      obtain ⟨t', hle, ht'⟩ := ih (t + p.bt) _ hrest (h.snoc p.pid (by omega))
      exact ⟨t', by omega, ht'⟩

/-! ## Working copies -/

theorem keys_get {l l0 : List Process} (h : l.map Process.key = l0.map Process.key) {k : Nat}
    {p : Process} (hk : l[k]? = some p) :
    ∃ p0, l0[k]? = some p0 ∧ p0 ∈ l0 ∧ p0.pid = p.pid ∧ p0.at_ = p.at_ ∧ p0.bt = p.bt := by
  have h1 : (l.map Process.key)[k]? = some p.key := by simp [hk]
  rw [h, List.getElem?_map] at h1
  cases h0 : l0[k]? with
  | none => simp [h0] at h1
  | some p0 =>
    simp only [h0, Option.map_some', Option.some.injEq, Process.key, Prod.mk.injEq] at h1
    exact ⟨p0, rfl, List.mem_iff_getElem?.2 ⟨k, h0⟩, h1.1, h1.2.1, h1.2.2⟩

theorem keys_length {l l0 : List Process} (h : l.map Process.key = l0.map Process.key) :
    l.length = l0.length := by
  simpa using congrArg List.length h

theorem keys_static {l l0 : List Process} (h : l.map Process.key = l0.map Process.key)
    (hs : StaticOk l0) {k : Nat} {p : Process} (hk : l[k]? = some p) :
    1 ≤ p.pid ∧ 0 ≤ p.at_ ∧ 0 < p.bt := by
  obtain ⟨p0, _, hm, h1, h2, h3⟩ := keys_get h hk
  have := hs.1.range hm
  have := hs.2 p0 hm
  omega

theorem keys_pid_inj {l l0 : List Process} (h : l.map Process.key = l0.map Process.key)
    (hs : StaticOk l0) {j k : Nat} {a b : Process} (hj : l[j]? = some a) (hk : l[k]? = some b)
    (he : a.pid = b.pid) : j = k := by
  have hpid : l.map Process.pid = l0.map Process.pid := by
    have := congrArg (List.map Prod.fst) h
    simpa [List.map_map, Function.comp, Process.key] using this
  have hnd : (l.map Process.pid).Nodup := hpid ▸ hs.1.nodup
  obtain ⟨hj', rfl⟩ := List.getElem?_eq_some_iff.1 hj
  obtain ⟨hk', rfl⟩ := List.getElem?_eq_some_iff.1 hk
  have hj2 : j < (l.map Process.pid).length := by simpa using hj'
  have hk2 : k < (l.map Process.pid).length := by simpa using hk'
  have : (l.map Process.pid)[j] = (l.map Process.pid)[k] := by simpa using he
  exact (hnd.getElem_inj_iff).1 this

theorem set_keys {l : List Process} {k : Nat} {p p' : Process} (hk : l[k]? = some p)
    (he : p'.key = p.key) : (l.set k p').map Process.key = l.map Process.key := by
  rw [List.map_set]
  apply List.ext_getElem?
  intro j
  rw [List.getElem?_set]
  by_cases hjk : k = j
  · subst hjk
    obtain ⟨hlt, hp⟩ := List.getElem?_eq_some_iff.1 hk
    simp [hlt, hp, he]
  · simp [hjk]

/-! ## SJF without overflow -/

theorem sjfScan_spec (t : Int) (l : List Process) :
    ∀ (i : Nat) (idx : Option Nat) (best : Int),
      (sjfScan t l i idx best = none →
        idx = none ∧ ∀ p ∈ l, Ready t p → best ≤ p.bt) ∧
      (∀ j, sjfScan t l i idx best = some j →
        (idx = some j ∧ ∀ p ∈ l, Ready t p → best ≤ p.bt) ∨
        (∃ p, i ≤ j ∧ l[j - i]? = some p ∧ Ready t p ∧ p.bt < best ∧
          (∀ r ∈ l, Ready t r → p.bt ≤ r.bt) ∧
          ∀ k r, k < j - i → l[k]? = some r → Ready t r → p.bt < r.bt)) := by
  induction l with
  | nil =>
    intro i idx best
    simp [sjfScan]
  | cons a rest ih =>
    intro i idx best
    by_cases hr : Ready t a
    · have hc : (!a.done && decide (a.at_ ≤ t)) = true := by
        simp [hr.1, hr.2]
      by_cases hb : a.bt < best
      · simp only [sjfScan, hc, hb, if_true]
        obtain ⟨ihn, ihs⟩ := ih (i + 1) (some i) a.bt
        refine ⟨fun h => ?_, fun j h => ?_⟩
        · have := (ihn h).1
          simp at this
        · right
          rcases ihs j h with ⟨hij, hall⟩ | ⟨p, hle, hget, hrp, hlt, hall, hfirst⟩
          · simp only [Option.some.injEq] at hij
            subst hij
            refine ⟨a, le_refl _, by simp, hr, hb, ?_, ?_⟩
            · intro r hrm hrr
              rcases List.mem_cons.1 hrm with rfl | hrm
              · exact le_refl _
              · exact hall r hrm hrr
            · intro k r hk
              omega
          · refine ⟨p, by omega, ?_, hrp, by omega, ?_, ?_⟩
            · have : j - i = (j - (i + 1)) + 1 := by omega
              rw [this, List.getElem?_cons_succ]
              exact hget
            · intro r hrm hrr
              rcases List.mem_cons.1 hrm with rfl | hrm
              · omega
              · exact hall r hrm hrr
            · intro k r hk hkr hrr
              cases k with
              | zero =>
                simp only [List.getElem?_cons_zero, Option.some.injEq] at hkr
                subst hkr
                exact hlt
              | succ k =>
                rw [List.getElem?_cons_succ] at hkr
                exact hfirst k r (by omega) hkr hrr
      · simp only [sjfScan, hc, hb, if_true, if_false]
        obtain ⟨ihn, ihs⟩ := ih (i + 1) idx best
        refine ⟨fun h => ?_, fun j h => ?_⟩
        · refine ⟨(ihn h).1, ?_⟩
          intro r hrm hrr
          rcases List.mem_cons.1 hrm with rfl | hrm
          · omega
          · exact (ihn h).2 r hrm hrr
        · rcases ihs j h with ⟨hij, hall⟩ | ⟨p, hle, hget, hrp, hlt, hall, hfirst⟩
          · left
            refine ⟨hij, ?_⟩
            intro r hrm hrr
            rcases List.mem_cons.1 hrm with rfl | hrm
            · omega
            · exact hall r hrm hrr
          · right
            refine ⟨p, by omega, ?_, hrp, hlt, ?_, ?_⟩
            · have : j - i = (j - (i + 1)) + 1 := by omega
              rw [this, List.getElem?_cons_succ]
              exact hget
            · intro r hrm hrr
              rcases List.mem_cons.1 hrm with rfl | hrm
              · omega
              · exact hall r hrm hrr
            · intro k r hk hkr hrr
              cases k with
              | zero =>
                simp only [List.getElem?_cons_zero, Option.some.injEq] at hkr
                subst hkr
                omega
              | succ k =>
                rw [List.getElem?_cons_succ] at hkr
                exact hfirst k r (by omega) hkr hrr
    · have hc : (!a.done && decide (a.at_ ≤ t)) = false := by
        unfold Ready at hr
        cases hd : a.done <;> simp [hd] at hr ⊢
        exact hr
      simp only [sjfScan, hc, Bool.false_eq_true, if_false]
      obtain ⟨ihn, ihs⟩ := ih (i + 1) idx best
      refine ⟨fun h => ?_, fun j h => ?_⟩
      · refine ⟨(ihn h).1, ?_⟩
        intro r hrm hrr
        rcases List.mem_cons.1 hrm with rfl | hrm
        · exact absurd hrr hr
        · exact (ihn h).2 r hrm hrr
      · rcases ihs j h with ⟨hij, hall⟩ | ⟨p, hle, hget, hrp, hlt, hall, hfirst⟩
        · left
          refine ⟨hij, ?_⟩
          intro r hrm hrr
          rcases List.mem_cons.1 hrm with rfl | hrm
          · exact absurd hrr hr
          · exact hall r hrm hrr
        · right
          refine ⟨p, by omega, ?_, hrp, hlt, ?_, ?_⟩
          · have : j - i = (j - (i + 1)) + 1 := by omega
            rw [this, List.getElem?_cons_succ]
            exact hget
          · intro r hrm hrr
            rcases List.mem_cons.1 hrm with rfl | hrm
            · exact absurd hrr hr
            · exact hall r hrm hrr
          · intro k r hk hkr hrr
            cases k with
            | zero =>
              simp only [List.getElem?_cons_zero, Option.some.injEq] at hkr
              subst hkr
              exact absurd hrr hr
            | succ k =>
              rw [List.getElem?_cons_succ] at hkr
              exact hfirst k r (by omega) hkr hrr

theorem sjfScan_some {t : Int} {l : List Process} {j : Nat}
    (h : sjfScan t l 0 none INT_MAX = some j) :
    ∃ p, l[j]? = some p ∧ Ready t p ∧ p.bt < INT_MAX ∧ (∀ r ∈ l, Ready t r → p.bt ≤ r.bt) ∧
      ∀ k r, k < j → l[k]? = some r → Ready t r → p.bt < r.bt := by
  rcases (sjfScan_spec t l 0 none INT_MAX).2 j h with ⟨h0, _⟩ | ⟨p, _, hget, hr, hlt, hall, hfirst⟩
  · simp at h0
  · exact ⟨p, by simpa using hget, hr, hlt, hall, by simpa using hfirst⟩

theorem sjfScan_none {t : Int} {l : List Process} (h : sjfScan t l 0 none INT_MAX = none) :
    ∀ p ∈ l, Ready t p → INT_MAX ≤ p.bt :=
  ((sjfScan_spec t l 0 none INT_MAX).1 h).2

theorem sjfNextAT_spec (l : List Process) :
    ∀ m : Int, (∀ p ∈ l, p.done = false → sjfNextAT l m ≤ p.at_) ∧ sjfNextAT l m ≤ m ∧
      (sjfNextAT l m = m ∨ ∃ p ∈ l, p.done = false ∧ p.at_ = sjfNextAT l m) := by
  induction l with
  | nil => intro m; simp [sjfNextAT]
  | cons a rest ih =>
    intro m
    cases hd : a.done with
    | true =>
      simp only [sjfNextAT, hd, Bool.not_true, Bool.false_eq_true, if_false]
      obtain ⟨h1, h2, h3⟩ := ih m
      refine ⟨?_, h2, ?_⟩
      · intro p hp hpd
        rcases List.mem_cons.1 hp with rfl | hp
        · simp [hd] at hpd
        · exact h1 p hp hpd
      · rcases h3 with h3 | ⟨p, hp, hpd, he⟩
        · exact Or.inl h3
        · exact Or.inr ⟨p, List.mem_cons_of_mem _ hp, hpd, he⟩
    | false =>
      simp only [sjfNextAT, hd, Bool.not_false, if_true]
      obtain ⟨h1, h2, h3⟩ := ih (min m a.at_)
      refine ⟨?_, ?_, ?_⟩
      · intro p hp hpd
        rcases List.mem_cons.1 hp with rfl | hp
        · exact le_trans h2 (min_le_right _ _)
        · exact h1 p hp hpd
      · exact le_trans h2 (min_le_left _ _)
      · rcases h3 with h3 | ⟨p, hp, hpd, he⟩
        · rcases min_choice m a.at_ with hm | hm
          · exact Or.inl (by rw [h3, hm])
          · exact Or.inr ⟨a, List.mem_cons_self _ _, hd, by rw [h3, hm]⟩
        · exact Or.inr ⟨p, List.mem_cons_of_mem _ hp, hpd, he⟩

theorem seg_none {pid : Int} {g : List Segment} (h : ∀ seg ∈ g, seg.pid ≠ pid) :
    segTime pid g = 0 ∧ segCount pid g = 0 := by
  have : g.filter (fun s => decide (s.pid = pid)) = [] := by
    rw [List.filter_eq_nil_iff]
    intro a ha
    simpa using h a ha
  simp [segTime, segCount, this]

theorem sjfStepZ_run {s : SjfState} {idx : Nat} {p : Process}
    (hscan : sjfScan s.time s.procs 0 none INT_MAX = some idx) (hget : s.procs[idx]? = some p) :
    sjfStepZ s =
      { procs := s.procs.set idx { p with ct := s.time + p.bt, tat := s.time + p.bt - p.at_,
                                          wt := s.time + p.bt - p.at_ - p.bt, done := true }
        gantt := s.gantt ++ [⟨p.pid, s.time, s.time + p.bt⟩]
        time := s.time + p.bt
        completed := s.completed + 1 } := by
  simp [sjfStepZ, hscan, List.getD_eq_getElem?_getD, hget]

theorem sjfStepZ_idle {s : SjfState} (hscan : sjfScan s.time s.procs 0 none INT_MAX = none)
    (hlt : s.time < sjfNextAT s.procs INT_MAX) :
    sjfStepZ s = { s with gantt := s.gantt ++ [⟨0, s.time, sjfNextAT s.procs INT_MAX⟩],
                          time := sjfNextAT s.procs INT_MAX } := by
  simp [sjfStepZ, hscan, hlt]

theorem sjfStepZ_stuck {s : SjfState} (hscan : sjfScan s.time s.procs 0 none INT_MAX = none)
    (hlt : ¬ s.time < sjfNextAT s.procs INT_MAX) : sjfStepZ s = s := by
  simp [sjfStepZ, hscan, hlt]

theorem sjfInv_idle {l0 : List Process} (hs : StaticOk l0) {s : SjfState} (h : SjfInv l0 s)
    {t' : Int} (hlt : s.time < t') :
    SjfInv l0 { s with gantt := s.gantt ++ [⟨0, s.time, t'⟩], time := t' } := by
  refine ⟨h.keys, h.count, h.timeline.snoc 0 hlt, ?_, ?_, ?_⟩
  · intro k p hk hd
    obtain ⟨h1, h2, h3, h4, h5⟩ := h.doneP k p hk hd
    have hp := keys_static h.keys hs hk
    have hne : ¬ (0 : Int) = p.pid := by omega
    refine ⟨h1, ?_, ?_, ?_, h5⟩
    · simp only [segTime_snoc, hne, if_false]; omega
    · simp only [segCount_snoc, hne, if_false]; omega
    · show p.ct ≤ t'
      omega
  · intro k p hk hd seg hseg
    rcases List.mem_append.1 hseg with hseg | hseg
    · exact h.undone k p hk hd seg hseg
    · simp only [List.mem_singleton] at hseg
      subst hseg
      have hp := keys_static h.keys hs hk
      show (0 : Int) ≠ p.pid
      omega
  · intro seg hseg hne
    rcases List.mem_append.1 hseg with hseg | hseg
    · exact h.segs seg hseg hne
    · simp only [List.mem_singleton] at hseg
      subst hseg
      exact absurd rfl hne

theorem sjfInv_run {l0 : List Process} (hs : StaticOk l0) {s : SjfState} (h : SjfInv l0 s)
    {idx : Nat} {p : Process} (hget : s.procs[idx]? = some p) (hr : Ready s.time p)
    (hall : ∀ r ∈ s.procs, Ready s.time r → p.bt ≤ r.bt) (p1 : Process)
    (hp1 : p1 = { p with ct := s.time + p.bt, tat := s.time + p.bt - p.at_,
                         wt := s.time + p.bt - p.at_ - p.bt, done := true }) :
    SjfInv l0
      { procs := s.procs.set idx p1
        gantt := s.gantt ++ [⟨p.pid, s.time, s.time + p.bt⟩]
        time := s.time + p.bt
        completed := s.completed + 1 } := by
  have hp := keys_static h.keys hs hget
  obtain ⟨hlt, hpe⟩ := List.getElem?_eq_some_iff.1 hget
  have hno := seg_none (h.undone idx p hget hr.1)
  have e1 : p1.pid = p.pid := by rw [hp1]
  have e2 : p1.at_ = p.at_ := by rw [hp1]
  have e3 : p1.bt = p.bt := by rw [hp1]
  have e4 : p1.ct = s.time + p.bt := by rw [hp1]
  have e5 : p1.done = true := by rw [hp1]
  have e6 : MetricsOk p1 := by rw [hp1]; exact ⟨rfl, rfl⟩
  have e7 : p1.key = p.key := by rw [hp1]; rfl
  have hat := hr.2
  have hset : ∀ (k : Nat) (r : Process), (s.procs.set idx p1)[k]? = some r →
      (k = idx ∧ r = p1) ∨ (k ≠ idx ∧ s.procs[k]? = some r) := by
    intro k r hk
    rw [List.getElem?_set] at hk
    by_cases hik : idx = k
    · subst hik
      simp only [hlt, if_true, Option.some.injEq] at hk
      exact Or.inl ⟨rfl, hk.symm⟩
    · simp only [hik, if_false] at hk
      exact Or.inr ⟨fun he => hik he.symm, hk⟩
  refine ⟨?_, ?_, h.timeline.snoc p.pid (by omega), ?_, ?_, ?_⟩
  · exact (set_keys hget e7).trans h.keys
  · show s.completed + 1 = _
    rw [List.countP_set _ _ _ _ hlt, hpe, h.count]
    simp [hr.1, e5]
  · intro k r hk hd
    rcases hset k r hk with ⟨_, rfl⟩ | ⟨hik, hk⟩
    · refine ⟨e6, ?_, ?_, ?_, ?_⟩
      · simp only [segTime_snoc, e1, if_true]
        have := hno.1
        omega
      · simp only [segCount_snoc, e1, if_true]
        have := hno.2
        omega
      · show r.ct ≤ s.time + p.bt
        omega
      · omega
    · obtain ⟨h1, h2, h3, h4, h5⟩ := h.doneP k r hk hd
      have hne : ¬ p.pid = r.pid := fun he => hik (keys_pid_inj h.keys hs hk hget he.symm)
      refine ⟨h1, ?_, ?_, ?_, h5⟩
      · simp only [segTime_snoc, hne, if_false]; omega
      · simp only [segCount_snoc, hne, if_false]; omega
      · show r.ct ≤ s.time + p.bt
        omega
  · intro k r hk hd seg hseg
    rcases hset k r hk with ⟨_, rfl⟩ | ⟨hik, hk⟩
    · rw [e5] at hd
      exact absurd hd (by simp)
    · rcases List.mem_append.1 hseg with hseg | hseg
      · exact h.undone k r hk hd seg hseg
      · simp only [List.mem_singleton] at hseg
        subst hseg
        exact fun he => hik (keys_pid_inj h.keys hs hk hget he.symm)
  · intro seg hseg hne
    rcases List.mem_append.1 hseg with hseg | hseg
    · obtain ⟨k0, p0, hk0, hd0, hpid0, hat0, hend0, hct0, hmin0⟩ := h.segs seg hseg hne
      have hk0i : idx ≠ k0 := by
        intro he
        subst he
        rw [hget] at hk0
        simp only [Option.some.injEq] at hk0
        subst hk0
        rw [hr.1] at hd0
        exact Bool.false_ne_true hd0
      refine ⟨k0, p0, by simp [List.getElem?_set, hk0i, hk0], hd0, hpid0, hat0, hend0, hct0, ?_⟩
      intro j r hj hrat
      rcases hset j r hj with ⟨rfl, rfl⟩ | ⟨hij, hj⟩
      · rcases hmin0 j p hget (by omega) with ⟨hd, _⟩ | hb
        · rw [hr.1] at hd
          exact absurd hd Bool.false_ne_true
        · exact Or.inr (by omega)
      · exact hmin0 j r hj hrat
    · simp only [List.mem_singleton] at hseg
      subst hseg
      refine ⟨idx, p1, by simp [List.getElem?_set, hlt], e5, e1, by simpa [e2] using hat,
        by simp [e3], e4, ?_⟩
      intro j r hj hrat
      rcases hset j r hj with ⟨rfl, rfl⟩ | ⟨hij, hj⟩
      · exact Or.inr (le_refl _)
      · cases hd : r.done with
        | true => exact Or.inl ⟨rfl, (h.doneP j r hj hd).2.2.2.1⟩
        | false =>
          exact Or.inr (by
            have := hall r (List.mem_iff_getElem?.2 ⟨j, hj⟩) ⟨hd, hrat⟩
            omega)

theorem sjfStepZ_inv {l0 : List Process} (hs : StaticOk l0) (s : SjfState) (h : SjfInv l0 s) :
    SjfInv l0 (sjfStepZ s) := by
  cases hscan : sjfScan s.time s.procs 0 none INT_MAX with
  | none =>
    by_cases hlt : s.time < sjfNextAT s.procs INT_MAX
    · rw [sjfStepZ_idle hscan hlt]
      exact sjfInv_idle hs h hlt
    · rw [sjfStepZ_stuck hscan hlt]
      exact h
  | some idx =>
    obtain ⟨p, hget, hr, _, hall, _⟩ := sjfScan_some hscan
    rw [sjfStepZ_run hscan hget]
    exact sjfInv_run hs h hget hr hall _ rfl

theorem exists_undone {l : List Process} (h : l.countP (fun p => p.done) < l.length) :
    ∃ p ∈ l, p.done = false := by
  by_contra hno
  have : ∀ a ∈ l, (fun p : Process => p.done) a = true := by
    intro a ha
    by_contra hd
    exact hno ⟨a, ha, by simpa using hd⟩
  have := List.countP_eq_length.2 this
  omega

theorem sjfStepZ_measure {l0 : List Process} (hb : SentinelOk l0)
    (s : SjfState) (h : SjfInv l0 s) (hc : s.completed < l0.length) :
    sjfMeasure l0.length (sjfStepZ s) < sjfMeasure l0.length s := by
  have hbound : ∀ r ∈ s.procs, r.at_ ≤ INT_MAX ∧ r.bt < INT_MAX := by
    intro r hr
    obtain ⟨k, hk⟩ := List.mem_iff_getElem?.1 hr
    obtain ⟨r0, _, hm, _, h2, h3⟩ := keys_get h.keys hk
    have := hb r0 hm
    omega
  cases hscan : sjfScan s.time s.procs 0 none INT_MAX with
  | some idx =>
    obtain ⟨p, hget, _⟩ := sjfScan_some hscan
    rw [sjfStepZ_run hscan hget]
    simp only [sjfMeasure, hscan]
    split <;> simp <;> omega
  | none =>
    have hnr : ∀ r ∈ s.procs, r.done = false → s.time < r.at_ := by
      intro r hr hd
      by_contra hle
      have := sjfScan_none hscan r hr ⟨hd, by omega⟩
      have := (hbound r hr).2
      omega
    obtain ⟨p, hp, hpd⟩ := exists_undone (by rw [← h.count, keys_length h.keys]; exact hc)
    obtain ⟨n1, n2, n3⟩ := sjfNextAT_spec s.procs INT_MAX
    have hex : ∃ r ∈ s.procs, r.done = false ∧ r.at_ = sjfNextAT s.procs INT_MAX := by
      rcases n3 with n3 | n3
      · have := n1 p hp hpd
        have := (hbound p hp).1
        exact ⟨p, hp, hpd, by omega⟩
      · exact n3
    obtain ⟨r, hr, hrd, hra⟩ := hex
    have hlt : s.time < sjfNextAT s.procs INT_MAX := by
      have := hnr r hr hrd
      omega
    rw [sjfStepZ_idle hscan hlt]
    have hnew : sjfScan (sjfNextAT s.procs INT_MAX) s.procs 0 none INT_MAX ≠ none := by
      intro hn
      have := sjfScan_none hn r hr ⟨hrd, by omega⟩
      have := (hbound r hr).2
      omega
    simp only [sjfMeasure, hscan, hnew, if_true, if_false]
    omega

theorem sortProcs_keys (less : Process → Process → Bool) (procs : List Process)
    (f : Process → Process) (hf : ∀ p, (f p).key = p.key) :
    (((sortProcs less procs).map f).map Process.key).Perm (procs.map Process.key) := by
  have : ((sortProcs less procs).map f).map Process.key =
      (sortProcs less procs).map Process.key := by
    rw [List.map_map]
    exact List.map_congr_left (fun p _ => hf p)
  rw [this]
  exact (sortProcs_perm less procs).map _

theorem keys_perm_mem {l procs : List Process}
    (h : (l.map Process.key).Perm (procs.map Process.key)) {p : Process} (hp : p ∈ l) :
    ∃ p0 ∈ procs, p0.pid = p.pid ∧ p0.at_ = p.at_ ∧ p0.bt = p.bt := by
  have : p.key ∈ procs.map Process.key := h.subset (List.mem_map.2 ⟨p, hp, rfl⟩)
  obtain ⟨p0, hp0, he⟩ := List.mem_map.1 this
  simp only [Process.key, Prod.mk.injEq] at he
  exact ⟨p0, hp0, he.1, he.2.1, he.2.2⟩

theorem keys_perm_pidsOk {l procs : List Process}
    (h : (l.map Process.key).Perm (procs.map Process.key))
    (hp : procs.map Process.pid = pidList procs.length) : PidsOk l := by
  have h1 := h.map Prod.fst
  have hl : l.length = procs.length := by simpa using h.length_eq
  simp only [List.map_map] at h1
  unfold PidsOk
  rw [hl, ← hp]
  exact h1

theorem staticOk_of_valid {l procs : List Process}
    (h : (l.map Process.key).Perm (procs.map Process.key)) (hv : ValidInput procs) :
    StaticOk l := by
  refine ⟨keys_perm_pidsOk h hv.2.1, ?_⟩
  intro p hp
  obtain ⟨p0, hp0, _, h2, h3⟩ := keys_perm_mem h hp
  have := hv.2.2 p0 hp0
  omega

theorem sentinelOk_of_keys {l procs : List Process}
    (h : (l.map Process.key).Perm (procs.map Process.key)) (hb : SentinelOk procs) :
    SentinelOk l := by
  intro p hp
  obtain ⟨p0, hp0, _, h2, h3⟩ := keys_perm_mem h hp
  have := hb p0 hp0
  omega

theorem sjfInit_inv (sorted : List Process) :
    SjfInv (sjfInit sorted).procs (sjfInit sorted) := by
  have hall : ∀ p ∈ (sjfInit sorted).procs, p.done = false := by
    intro p hp
    simp only [sjfInit, List.mem_map] at hp
    obtain ⟨a, _, rfl⟩ := hp
    rfl
  refine ⟨rfl, ?_, Timeline.nil, ?_, ?_, ?_⟩
  · show 0 = _
    symm
    rw [List.countP_eq_zero]
    intro a ha
    simp [hall a ha]
  · intro k p hk hd
    have := hall p (List.mem_iff_getElem?.2 ⟨k, hk⟩)
    rw [this] at hd
    exact absurd hd Bool.false_ne_true
  · intro k p _ _ seg hseg
    simp [sjfInit] at hseg
  · intro seg hseg
    simp [sjfInit] at hseg

theorem sjfInit_keys0 (sorted : List Process) :
    (sjfInit sorted).procs.map Process.key = sorted.map Process.key := by
  simp only [sjfInit, List.map_map]
  exact List.map_congr_left (fun _ _ => rfl)

theorem sjfInit_keys {procs sorted : List Process} (hp : sorted.Perm procs) :
    ((sjfInit sorted).procs.map Process.key).Perm (procs.map Process.key) := by
  rw [sjfInit_keys0]
  exact hp.map _

theorem sjf_outcome {procs sorted : List Process} (hv : ValidInput procs)
    (hp : sorted.Perm procs) {s : SjfState}
    (hinv : SjfInv (sjfInit sorted).procs s) (hdone : ∀ p ∈ s.procs, p.done = true) :
    Outcome procs s.procs s.gantt := by
  have hk : (s.procs.map Process.key).Perm (procs.map Process.key) := by
    rw [hinv.keys]; exact sjfInit_keys hp
  have hne : s.gantt ≠ [] := by
    intro hnil
    have hlen : s.procs.length = procs.length := by simpa using hk.length_eq
    have hpos : 0 < s.procs.length := by
      rw [hlen]; exact List.length_pos.2 hv.1
    obtain ⟨p, hp⟩ := List.exists_mem_of_length_pos hpos
    obtain ⟨k, hk'⟩ := List.mem_iff_getElem?.1 hp
    have := (hinv.doneP k p hk' (hdone p hp)).2.2.1
    simp [hnil, segCount] at this
  refine ⟨hk, ?_, hinv.timeline.contiguous hne, ?_, ?_⟩
  · intro p hp
    obtain ⟨k, hk'⟩ := List.mem_iff_getElem?.1 hp
    exact (hinv.doneP k p hk' (hdone p hp)).1
  · intro p hp
    obtain ⟨k, hk'⟩ := List.mem_iff_getElem?.1 hp
    exact (hinv.doneP k p hk' (hdone p hp)).2.1
  · intro seg hseg hne
    obtain ⟨k, p, hk', _, hpid, hat, _⟩ := hinv.segs seg hseg hne
    exact ⟨p, List.mem_iff_getElem?.2 ⟨k, hk'⟩, hpid, hat⟩

/-! ## FCFS without overflow, continued -/

theorem fcfsLoopZ_segs (l : List Process) :
    ∀ (t : Int) (g : List Segment), ∀ seg ∈ (fcfsLoopZ l t g).2,
      seg ∈ g ∨ seg.pid = 0 ∨ ∃ p ∈ l, p.pid = seg.pid ∧ p.at_ ≤ seg.start := by
  induction l with
  | nil => intro t g seg hseg; exact Or.inl hseg
  | cons a rest ih =>
    intro t g seg hseg
    simp only [fcfsLoopZ] at hseg
    rcases ih _ _ seg hseg with h | h | ⟨p, hp, h1, h2⟩
    · rcases List.mem_append.1 h with h | h
      · by_cases hlt : t < a.at_
        · simp only [hlt, if_true] at h
          rcases List.mem_append.1 h with h | h
          · exact Or.inl h
          · simp only [List.mem_singleton] at h
            exact Or.inr (Or.inl (by rw [h]))
        · simp only [hlt, if_false] at h
          exact Or.inl h
      · simp only [List.mem_singleton] at h
        refine Or.inr (Or.inr ⟨a, List.mem_cons_self _ _, by rw [h], ?_⟩)
        rw [h]
        show a.at_ ≤ if t < a.at_ then a.at_ else t
        split <;> omega
    · exact Or.inr (Or.inl h)
    · exact Or.inr (Or.inr ⟨p, List.mem_cons_of_mem _ hp, h1, h2⟩)

theorem fcfsLoopZ_segTime (l : List Process) :
    ∀ (t : Int) (g : List Segment), (l.map Process.pid).Nodup → (∀ q ∈ l, q.pid ≠ 0) →
      (∀ p ∈ l, segTime p.pid (fcfsLoopZ l t g).2 = segTime p.pid g + p.bt ∧
        segCount p.pid (fcfsLoopZ l t g).2 = segCount p.pid g + 1) ∧
      (∀ pid, pid ≠ 0 → (∀ q ∈ l, q.pid ≠ pid) →
        segTime pid (fcfsLoopZ l t g).2 = segTime pid g ∧
        segCount pid (fcfsLoopZ l t g).2 = segCount pid g) := by
  induction l with
  | nil =>
    intro t g _ _
    exact ⟨fun p hp => (by cases hp), fun pid _ _ => ⟨rfl, rfl⟩⟩
  | cons a rest ih =>
    intro t g hnd hnz
    rw [List.map_cons, List.nodup_cons] at hnd
    have ha0 : a.pid ≠ 0 := hnz a (List.mem_cons_self _ _)
    have hrest0 : ∀ q ∈ rest, q.pid ≠ 0 := fun q hq => hnz q (List.mem_cons_of_mem _ hq)
    have hidle : ∀ pid, pid ≠ 0 →
        segTime pid (if t < a.at_ then g ++ [⟨0, t, a.at_⟩] else g) = segTime pid g ∧
        segCount pid (if t < a.at_ then g ++ [⟨0, t, a.at_⟩] else g) = segCount pid g := by
      intro pid hpid
      have hne : ¬ (0 : Int) = pid := fun h => hpid h.symm
      split
      · simp [segTime_snoc, segCount_snoc, hne]
      · exact ⟨rfl, rfl⟩
    obtain ⟨ih1, ih2⟩ := ih ((if t < a.at_ then a.at_ else t) + a.bt)
      ((if t < a.at_ then g ++ [⟨0, t, a.at_⟩] else g) ++
        [⟨a.pid, if t < a.at_ then a.at_ else t, (if t < a.at_ then a.at_ else t) + a.bt⟩])
      hnd.2 hrest0
    refine ⟨?_, ?_⟩
    · intro p hp
      simp only [fcfsLoopZ]
      rcases List.mem_cons.1 hp with rfl | hp
      · have hnot : ∀ q ∈ rest, q.pid ≠ p.pid := by
          intro q hq he
          exact hnd.1 (List.mem_map.2 ⟨q, hq, he⟩)
        obtain ⟨h1, h2⟩ := ih2 p.pid ha0 hnot
        rw [h1, h2, segTime_snoc, segCount_snoc, (hidle p.pid ha0).1, (hidle p.pid ha0).2]
        simp
      · have hne : ¬ a.pid = p.pid := by
          intro he
          exact hnd.1 (List.mem_map.2 ⟨p, hp, he.symm⟩)
        have hp0 := hrest0 p hp
        obtain ⟨h1, h2⟩ := ih1 p hp
        rw [h1, h2, segTime_snoc, segCount_snoc, (hidle p.pid hp0).1, (hidle p.pid hp0).2]
        simp [hne]
    · intro pid hpid hnot
      simp only [fcfsLoopZ]
      have hne : ¬ a.pid = pid := hnot a (List.mem_cons_self _ _)
      obtain ⟨h1, h2⟩ := ih2 pid hpid (fun q hq => hnot q (List.mem_cons_of_mem _ hq))
      rw [h1, h2, segTime_snoc, segCount_snoc, (hidle pid hpid).1, (hidle pid hpid).2]
      simp [hne]

theorem fcfs_keys (procs : List Process) (t : Int) (g : List Segment) :
    ((fcfsLoopZ (sortProcs fcfsLess procs) t g).1.map Process.key).Perm
      (procs.map Process.key) := by
  rw [fcfsLoopZ_keys]
  exact (sortProcs_perm fcfsLess procs).map _

theorem fcfs_outcome (procs : List Process) (hv : ValidInput procs) :
    Outcome procs (fcfsLoopZ (sortProcs fcfsLess procs) 0 []).1
      (fcfsLoopZ (sortProcs fcfsLess procs) 0 []).2 := by
  have hperm := sortProcs_perm fcfsLess procs
  have hkeys0 : ((sortProcs fcfsLess procs).map Process.key).Perm (procs.map Process.key) :=
    hperm.map _
  have hs : StaticOk (sortProcs fcfsLess procs) := staticOk_of_valid hkeys0 hv
  have hne : (fcfsLoopZ (sortProcs fcfsLess procs) 0 []).2 ≠ [] := by
    intro hnil
    have h1 := fcfsLoopZ_length (sortProcs fcfsLess procs) 0 []
    have h2 : 0 < procs.length := List.length_pos.2 hv.1
    rw [hnil, hperm.length_eq] at h1
    simp only [List.length_nil, zero_add] at h1
    omega
  obtain ⟨t', _, htl⟩ := fcfsLoopZ_timeline (sortProcs fcfsLess procs) 0 []
    (fun p hp => (hs.2 p hp).2) Timeline.nil
  have hst := (fcfsLoopZ_segTime (sortProcs fcfsLess procs) 0 [] hs.1.nodup
    (fun q hq => by have := hs.1.range hq; omega)).1
  have hback : ∀ p ∈ (fcfsLoopZ (sortProcs fcfsLess procs) 0 []).1,
      ∃ p0 ∈ sortProcs fcfsLess procs, p0.pid = p.pid ∧ p0.at_ = p.at_ ∧ p0.bt = p.bt := by
    intro p hp
    refine keys_perm_mem ?_ hp
    rw [fcfsLoopZ_keys]
  have hfwd : ∀ p0 ∈ sortProcs fcfsLess procs,
      ∃ p ∈ (fcfsLoopZ (sortProcs fcfsLess procs) 0 []).1,
        p.pid = p0.pid ∧ p.at_ = p0.at_ ∧ p.bt = p0.bt := by
    intro p0 hp0
    refine keys_perm_mem ?_ hp0
    rw [fcfsLoopZ_keys]
  refine ⟨fcfs_keys procs 0 [], fcfsLoopZ_metrics _ _ _, htl.contiguous hne, ?_, ?_⟩
  · intro p hp
    obtain ⟨p0, hp0, h1, _, h3⟩ := hback p hp
    have := (hst p0 hp0).1
    rw [← h1, ← h3, this]
    simp [segTime]
  · intro seg hseg hnz
    rcases fcfsLoopZ_segs _ _ _ seg hseg with h | h | ⟨p0, hp0, h1, h2⟩
    · cases h
    · exact absurd h hnz
    · obtain ⟨p, hp, e1, e2, _⟩ := hfwd p0 hp0
      exact ⟨p, hp, by omega, by omega⟩

/-! ## Round Robin without overflow -/

theorem rrEnqueue_spec (t : Int) (l : List Process) :
    ∀ (i : Nat) (q : List Nat), ∃ m, m ≤ l.length ∧ (rrEnqueue t l i q).1 = i + m ∧
      (rrEnqueue t l i q).2 = q ++ List.range' i m ∧
      (∀ (k : Nat) (p : Process), k < m → l[k]? = some p → p.at_ ≤ t) ∧
      (∀ p : Process, l[m]? = some p → t < p.at_) := by
  induction l with
  | nil =>
    intro i q
    exact ⟨0, le_refl _, rfl, by simp [rrEnqueue], fun k p hk => by omega, fun p hp => by simp at hp⟩
  | cons a rest ih =>
    intro i q
    by_cases ha : a.at_ ≤ t
    · obtain ⟨m, hm, h1, h2, h3, h4⟩ := ih (i + 1) (q ++ [i])
      refine ⟨m + 1, by simp; omega, ?_, ?_, ?_, ?_⟩
      · simp only [rrEnqueue, ha, if_true, h1]; omega
      · simp only [rrEnqueue, ha, if_true, h2, List.range'_succ, List.append_assoc,
          List.singleton_append]
      · intro k p hk hget
        cases k with
        | zero =>
          simp only [List.getElem?_cons_zero, Option.some.injEq] at hget
          subst hget
          exact ha
        | succ k =>
          rw [List.getElem?_cons_succ] at hget
          exact h3 k p (by omega) hget
      · intro p hget
        rw [List.getElem?_cons_succ] at hget
        exact h4 p hget
    · refine ⟨0, by simp, ?_, ?_, fun k p hk => by omega, ?_⟩
      · simp [rrEnqueue, ha]
      · simp [rrEnqueue, ha]
      · intro p hget
        simp only [List.getElem?_cons_zero, Option.some.injEq] at hget
        subst hget
        omega

theorem rrEnqueue_at (t : Int) (sorted : List Process) (i : Nat) (q : List Nat) :
    ∃ m, i + m ≤ max i sorted.length ∧ (rrEnqueue t (sorted.drop i) i q).1 = i + m ∧
      (rrEnqueue t (sorted.drop i) i q).2 = q ++ List.range' i m ∧
      (∀ (k : Nat) (p : Process), i ≤ k → k < i + m → sorted[k]? = some p → p.at_ ≤ t) ∧
      (∀ p : Process, sorted[i + m]? = some p → t < p.at_) := by
  obtain ⟨m, hm, h1, h2, h3, h4⟩ := rrEnqueue_spec t (sorted.drop i) i q
  refine ⟨m, ?_, h1, h2, ?_, ?_⟩
  · simp only [List.length_drop] at hm
    omega
  · intro k p hik hk hget
    refine h3 (k - i) p (by omega) ?_
    rw [List.getElem?_drop]
    have : i + (k - i) = k := by omega
    rw [this]
    exact hget
  · intro p hget
    refine h4 p ?_
    rw [List.getElem?_drop]
    exact hget

theorem rr_jump {l0 : List Process} {quantum : Int} (hs : StaticOk l0) {s : RrState}
    (h : RrCore l0 quantum s) (hq : s.q = []) {g' : List Segment} {t' : Int} {m : Nat}
    (htl : Timeline g' t') (hle : s.time ≤ t')
    (hg1 : ∀ pid, pid ≠ 0 → segTime pid g' = segTime pid s.gantt ∧
      segCount pid g' = segCount pid s.gantt)
    (hg2 : ∀ seg ∈ g', seg ∈ s.gantt ∨ seg.pid = 0)
    (hm : s.i + m ≤ s.sorted.length)
    (hin : ∀ (k : Nat) (p : Process), s.i ≤ k → k < s.i + m → s.sorted[k]? = some p →
      p.at_ ≤ t')
    (hstop : ∀ p : Process, s.sorted[s.i + m]? = some p → t' < p.at_) :
    RrInv l0 quantum
      { sorted := s.sorted, gantt := g', q := List.range' s.i m, time := t', i := s.i + m,
        finished := s.finished } := by
  have hfin := h.fin
  rw [hq] at hfin
  simp only [List.length_nil, add_zero] at hfin
  refine ⟨⟨h.keys, htl, hm, List.nodup_range' _ _, ?_, ?_, ?_, ?_⟩, hstop⟩
  · intro k hk
    simp only [List.mem_range'_1] at hk
    exact hk.2
  · simp only [List.length_range']
    omega
  · intro k p hget
    obtain ⟨h1, h2, h3, h4, h5, h6⟩ := h.per k p hget
    have hp := keys_static h.keys hs hget
    have hp0 : p.pid ≠ 0 := by omega
    refine ⟨h1, ?_, ?_, ?_, ?_, ?_⟩
    · rw [(hg1 p.pid hp0).1]; exact h2
    · rw [(hg1 p.pid hp0).2]; exact h3
    · intro hk
      simp only [List.mem_range'_1] at hk
      have hrem := h5 hk.1
      have := hin k p hk.1 hk.2 hget
      refine ⟨by omega, this, ?_⟩
      show p.at_ + (p.bt - p.remaining) ≤ t'
      omega
    · intro hk
      exact h5 (by show s.i ≤ k; have : s.i + m ≤ k := hk; omega)
    · intro hk hnot
      simp only [List.mem_range'_1, not_and, not_lt] at hnot
      have hk' : k < s.i + m := hk
      have hlt : k < s.i := by
        by_contra hge
        have := hnot (by omega)
        omega
      obtain ⟨a, b, c, d⟩ := h6 hlt (by rw [hq]; simp)
      exact ⟨a, b, le_trans c hle, d⟩
  · intro seg hseg hne
    rcases hg2 seg hseg with hseg | hseg
    · exact h.segs seg hseg hne
    · exact absurd hseg hne

theorem ceil_step (rem q : Int) (hr : 0 < rem) (hq : 1 ≤ q) :
    ⌈((rem - min rem q : Int) : ℚ) / (q : ℚ)⌉ + 1 = ⌈(rem : ℚ) / (q : ℚ)⌉ := by
  have hq0 : (0 : ℚ) < (q : ℚ) := by exact_mod_cast (by omega : 0 < q)
  by_cases hle : rem ≤ q
  · rw [min_eq_left hle, sub_self]
    have h1 : ⌈(rem : ℚ) / (q : ℚ)⌉ = 1 := by
      rw [Int.ceil_eq_iff]
      constructor
      · have : (0 : ℚ) < (rem : ℚ) := by exact_mod_cast hr
        have := div_pos this hq0
        simpa using this
      · have h1 : (rem : ℚ) ≤ (q : ℚ) := by exact_mod_cast hle
        have := (div_le_one hq0).2 h1
        simpa using this
    rw [h1]
    simp
  · rw [min_eq_right (by omega)]
    have : ((rem - q : Int) : ℚ) / (q : ℚ) = (rem : ℚ) / (q : ℚ) - 1 := by
      push_cast
      field_simp
    rw [this, Int.ceil_sub_one]
    omega

theorem rr_run {l0 : List Process} {quantum : Int} (hs : StaticOk l0) (hq1 : 1 ≤ quantum)
    {s : RrState} (h : RrInv l0 quantum s) {idx : Nat} {qrest : List Nat}
    (hq : s.q = idx :: qrest) {p : Process} (hget : s.sorted[idx]? = some p)
    (p' : Process) (exec : Int) (hexec : exec = min p.remaining quantum)
    (hkey : p'.key = p.key) (hrem : p'.remaining = p.remaining - exec) {m : Nat}
    (hm : s.i + m ≤ s.sorted.length)
    (hin : ∀ (k : Nat) (r : Process), s.i ≤ k → k < s.i + m → s.sorted[k]? = some r →
      r.at_ ≤ s.time + exec)
    (hstop : ∀ r : Process, s.sorted[s.i + m]? = some r → s.time + exec < r.at_)
    (q' : List Nat) (fin' : Nat)
    (hcase : (0 < p'.remaining ∧ q' = qrest ++ List.range' s.i m ++ [idx] ∧
        fin' = s.finished) ∨
      (p'.remaining = 0 ∧ q' = qrest ++ List.range' s.i m ∧ fin' = s.finished + 1 ∧
        MetricsOk p' ∧ p'.ct = s.time + exec)) :
    RrInv l0 quantum
      { sorted := s.sorted.set idx p', gantt := s.gantt ++ [⟨p.pid, s.time, s.time + exec⟩],
        q := q', time := s.time + exec, i := s.i + m, finished := fin' } := by
  have hidxq : idx ∈ s.q := by rw [hq]; simp
  have hidx_lt := h.q_lt idx hidxq
  have hnd := h.q_nodup
  rw [hq, List.nodup_cons] at hnd
  obtain ⟨r0, r1, r2, r3, _, _⟩ := h.per idx p hget
  obtain ⟨r4, r5, r6⟩ := r3 hidxq
  have hex1 : 1 ≤ exec := by rw [hexec]; exact le_min (by omega) hq1
  have hex2 : exec ≤ p.remaining := by rw [hexec]; exact min_le_left _ _
  have hex3 : exec ≤ quantum := by rw [hexec]; exact min_le_right _ _
  obtain ⟨hlen, _⟩ := List.getElem?_eq_some_iff.1 hget
  simp only [Process.key, Prod.mk.injEq] at hkey
  obtain ⟨k1, k2, k3⟩ := hkey
  have hfin := h.fin
  rw [hq] at hfin
  simp only [List.length_cons] at hfin
  have hmem : ∀ k, k ∈ q' ↔ k ∈ qrest ∨ (s.i ≤ k ∧ k < s.i + m) ∨ (k = idx ∧ 0 < p'.remaining) := by
    intro k
    rcases hcase with ⟨c1, c2, _⟩ | ⟨c1, c2, _⟩
    · simp [c2, c1, List.mem_range'_1, or_assoc]
    · simp [c2, c1, List.mem_range'_1]
  have hset : ∀ (k : Nat) (r : Process), (s.sorted.set idx p')[k]? = some r →
      (k = idx ∧ r = p') ∨ (k ≠ idx ∧ s.sorted[k]? = some r) := by
    intro k r hk
    rw [List.getElem?_set] at hk
    by_cases hik : idx = k
    · subst hik
      simp only [hlen, if_true, Option.some.injEq] at hk
      exact Or.inl ⟨rfl, hk.symm⟩
    · simp only [hik, if_false] at hk
      exact Or.inr ⟨fun he => hik he.symm, hk⟩
  have hqr_lt : ∀ k ∈ qrest, k < s.i := fun k hk => h.q_lt k (by rw [hq]; simp [hk])
  have hnd1 : (qrest ++ List.range' s.i m).Nodup := by
    rw [List.nodup_append]
    refine ⟨hnd.2, List.nodup_range' _ _, ?_⟩
    intro a ha hb
    simp only [List.mem_range'_1] at hb
    have := hqr_lt a ha
    omega
  refine ⟨⟨?_, h.timeline.snoc p.pid (by omega), ?_, ?_, ?_, ?_, ?_, ?_⟩, ?_⟩
  · refine (set_keys hget ?_).trans h.keys
    simp [Process.key, k1, k2, k3]
  · simp only [List.length_set]
    exact hm
  · rcases hcase with ⟨c1, c2, _⟩ | ⟨c1, c2, _⟩
    · show q'.Nodup
      rw [c2, List.nodup_append]
      refine ⟨hnd1, List.nodup_singleton _, ?_⟩
      intro a ha hb
      simp only [List.mem_singleton] at hb
      subst hb
      rcases List.mem_append.1 ha with ha | ha
      · exact hnd.1 ha
      · simp only [List.mem_range'_1] at ha
        omega
    · show q'.Nodup
      rw [c2]
      exact hnd1
  · intro k hk
    show k < s.i + m
    rcases (hmem k).1 hk with hk | hk | hk
    · have := hqr_lt k hk
      omega
    · omega
    · omega
  · show fin' + q'.length = s.i + m
    rcases hcase with ⟨c1, c2, c3⟩ | ⟨c1, c2, c3, _⟩
    · rw [c2, c3]
      simp only [List.length_append, List.length_range', List.length_singleton]
      omega
    · rw [c2, c3]
      simp only [List.length_append, List.length_range']
      omega
  · intro k r hk
    rcases hset k r hk with ⟨rfl, rfl⟩ | ⟨hki, hk⟩
    · refine ⟨by omega, ?_, ?_, ?_, ?_, ?_⟩
      · simp only [segTime_snoc, k1, if_true]
        omega
      · simp only [segCount_snoc, k1, if_true, k3]
        have hc := ceil_step p.remaining quantum r4 hq1
        rw [hrem, hexec]
        push_cast at r2 ⊢
        rw [← r2, ← hc]
        push_cast
        ring
      · intro _
        show 0 < r.remaining ∧ r.at_ ≤ s.time + exec ∧ r.at_ + (r.bt - r.remaining) ≤ s.time + exec
        rcases hcase with ⟨c1, _, _⟩ | ⟨c1, c2, _⟩
        · refine ⟨c1, by omega, by omega⟩
        · have hk' := (hmem k).1 (by assumption)
          rcases hk' with hk' | hk' | hk'
          · exact absurd hk' hnd.1
          · omega
          · omega
      · intro hge
        have : s.i + m ≤ k := hge
        omega
      · intro _ hnot
        rcases hcase with ⟨c1, c2, _⟩ | ⟨c1, c2, c3, c4, c5⟩
        · exact absurd ((hmem k).2 (Or.inr (Or.inr ⟨rfl, c1⟩))) hnot
        · refine ⟨c1, c4, ?_, ?_⟩
          · show r.ct ≤ s.time + exec
            omega
          · omega
    · obtain ⟨h1, h2, h3, h4, h5, h6⟩ := h.per k r hk
      have hne : ¬ p.pid = r.pid := fun he => hki (keys_pid_inj h.keys hs hk hget he.symm)
      have hr := keys_static h.keys hs hk
      refine ⟨h1, ?_, ?_, ?_, ?_, ?_⟩
      · simp only [segTime_snoc, hne, if_false]; omega
      · simp only [segCount_snoc, hne, if_false]
        simpa using h3
      · intro hkq
        show 0 < r.remaining ∧ r.at_ ≤ s.time + exec ∧ r.at_ + (r.bt - r.remaining) ≤ s.time + exec
        rcases (hmem k).1 hkq with hk' | hk' | hk'
        · obtain ⟨a, b, c⟩ := h4 (by rw [hq]; simp [hk'])
          exact ⟨a, by omega, by omega⟩
        · have := h5 hk'.1
          have := hin k r hk'.1 hk'.2 hk
          exact ⟨by omega, by omega, by omega⟩
        · exact absurd hk'.1 hki
      · intro hge
        have : s.i + m ≤ k := hge
        exact h5 (by omega)
      · intro hlt hnot
        have hlt' : k < s.i + m := hlt
        have hnq : k ∉ qrest := fun hk' => hnot ((hmem k).2 (Or.inl hk'))
        have hnr : ¬ (s.i ≤ k ∧ k < s.i + m) := fun hk' => hnot ((hmem k).2 (Or.inr (Or.inl hk')))
        obtain ⟨a, b, c, d⟩ := h6 (by omega) (by rw [hq]; simp [hki, hnq])
        exact ⟨a, b, by show r.ct ≤ s.time + exec; omega, d⟩
  · intro seg hseg hne
    rcases List.mem_append.1 hseg with hseg | hseg
    · exact h.segs seg hseg hne
    · simp only [List.mem_singleton] at hseg
      subst hseg
      obtain ⟨p0, _, hp0, e1, e2, _⟩ := keys_get h.keys hget
      exact ⟨p0, hp0, e1, by show p0.at_ ≤ s.time; omega, by show s.time + exec - s.time ≤ quantum; omega⟩
  · intro r hr
    rcases hset _ r hr with ⟨hki, _⟩ | ⟨_, hk⟩
    · have : s.i + m = idx := hki
      omega
    · exact hstop r hk

theorem rrIdle_ok {l0 : List Process} {quantum : Int} (hs : StaticOk l0) {s : RrState}
    (h : RrInv l0 quantum s) (hq : s.q = []) (hi : s.i < s.sorted.length) :
    RrInv l0 quantum (rrIdle s) ∧ (rrIdle s).q ≠ [] ∧ (rrIdle s).sorted = s.sorted := by
  obtain ⟨a, hget⟩ : ∃ a, s.sorted[s.i]? = some a :=
    ⟨s.sorted[s.i], List.getElem?_eq_getElem hi⟩
  obtain ⟨m, hm, h1, h2, h3, h4⟩ := rrEnqueue_at a.at_ s.sorted s.i s.q
  have hlt := h.next_gt a hget
  have hm0 : m ≠ 0 := by
    intro h0
    subst h0
    have := h4 a hget
    omega
  have hstep : rrIdle s =
      { sorted := s.sorted, gantt := s.gantt ++ [⟨0, s.time, a.at_⟩], q := List.range' s.i m,
        time := a.at_, i := s.i + m, finished := s.finished } := by
    rw [hq] at h1 h2
    simp only [rrIdle, List.getD_eq_getElem?_getD, hget, Option.getD_some, h1, h2, hq,
      List.nil_append]
  rw [hstep]
  refine ⟨?_, ?_, rfl⟩
  · refine rr_jump hs h.toRrCore hq (h.timeline.snoc 0 hlt) (le_of_lt hlt) ?_ ?_
      (by omega) h3 h4
    · intro pid hpid
      have hne : ¬ (0 : Int) = pid := fun he => hpid he.symm
      simp [segTime_snoc, segCount_snoc, hne]
    · intro seg hseg
      rcases List.mem_append.1 hseg with hseg | hseg
      · exact Or.inl hseg
      · simp only [List.mem_singleton] at hseg
        exact Or.inr (by rw [hseg])
  · show List.range' s.i m ≠ []
    cases m with
    | zero => exact absurd rfl hm0
    | succ m => simp [List.range'_succ]

theorem sum_remaining_set {l : List Process} {idx : Nat} {p : Process} (p' : Process)
    (hget : l[idx]? = some p) :
    ((l.set idx p').map Process.remaining).sum =
      (l.map Process.remaining).sum - p.remaining + p'.remaining := by
  obtain ⟨hlen, hp⟩ := List.getElem?_eq_some_iff.1 hget
  rw [List.map_set, List.sum_set']
  simp [hlen, hp]
  ring

theorem sum_remaining_nonneg {l0 : List Process} {quantum : Int} {s : RrState}
    (h : RrCore l0 quantum s) : 0 ≤ (s.sorted.map Process.remaining).sum := by
  apply List.sum_nonneg
  intro x hx
  obtain ⟨p, hp, rfl⟩ := List.mem_map.1 hx
  obtain ⟨k, hk⟩ := List.mem_iff_getElem?.1 hp
  exact (h.per k p hk).1

theorem rrStepZ_ok {l0 : List Process} {quantum : Int} (hs : StaticOk l0) (hq1 : 1 ≤ quantum)
    (s : RrState) (h : RrInv l0 quantum s) (hc : s.finished < s.sorted.length) :
    RrInv l0 quantum (rrStepZ quantum s) ∧ rrMeasure (rrStepZ quantum s) < rrMeasure s := by
  cases hq : s.q with
  | nil =>
    have hfin := h.fin
    rw [hq] at hfin
    simp only [List.length_nil, add_zero] at hfin
    have hi : s.i < s.sorted.length := by omega
    have hstep : rrStepZ quantum s = rrIdle s := by
      simp [rrStepZ, hq, hi]
    obtain ⟨a, b, c⟩ := rrIdle_ok hs h hq hi
    rw [hstep]
    refine ⟨a, ?_⟩
    simp only [rrMeasure, c, b, hq, if_true, if_false]
    omega
  | cons idx qrest =>
    have hidxq : idx ∈ s.q := by rw [hq]; simp
    have hidx_lt := h.q_lt idx hidxq
    have hile := h.i_le
    obtain ⟨p, hget⟩ : ∃ p, s.sorted[idx]? = some p :=
      ⟨s.sorted[idx], List.getElem?_eq_getElem (by omega)⟩
    obtain ⟨r0, _, _, r3, _, _⟩ := h.per idx p hget
    obtain ⟨r4, _, _⟩ := r3 hidxq
    have hex1 : 1 ≤ min p.remaining quantum := le_min (by omega) hq1
    obtain ⟨m, hm, h1, h2, h3, h4⟩ := rrEnqueue_at (s.time + min p.remaining quantum)
      (s.sorted.set idx { p with remaining := p.remaining - min p.remaining quantum }) s.i qrest
    simp only [List.length_set] at hm
    have hm' : s.i + m ≤ s.sorted.length := by omega
    have hin : ∀ (k : Nat) (r : Process), s.i ≤ k → k < s.i + m → s.sorted[k]? = some r →
        r.at_ ≤ s.time + min p.remaining quantum := by
      intro k r hk1 hk2 hk
      refine h3 k r hk1 hk2 ?_
      rw [List.getElem?_set_ne (by omega)]
      exact hk
    have hstop : ∀ r : Process, s.sorted[s.i + m]? = some r →
        s.time + min p.remaining quantum < r.at_ := by
      intro r hk
      refine h4 r ?_
      rw [List.getElem?_set_ne (by omega)]
      exact hk
    have hsum0 := sum_remaining_nonneg h.toRrCore
    by_cases hpos : 0 < p.remaining - min p.remaining quantum
    · have hstep : rrStepZ quantum s =
          { sorted := s.sorted.set idx { p with remaining := p.remaining - min p.remaining quantum },
            gantt := s.gantt ++ [⟨p.pid, s.time, s.time + min p.remaining quantum⟩],
            q := qrest ++ List.range' s.i m ++ [idx],
            time := s.time + min p.remaining quantum, i := s.i + m, finished := s.finished } := by
        simp only [rrStepZ, hq, List.getD_eq_getElem?_getD, hget, Option.getD_some, gt_iff_lt,
          hpos, if_true, h1, h2]
      have hinv := rr_run hs hq1 h hq hget
        { p with remaining := p.remaining - min p.remaining quantum } _ rfl rfl rfl hm' hin hstop
        (qrest ++ List.range' s.i m ++ [idx]) s.finished (Or.inl ⟨hpos, rfl, rfl⟩)
      rw [hstep]
      refine ⟨hinv, ?_⟩
      have hsum1 := sum_remaining_nonneg hinv.toRrCore
      have hsum := sum_remaining_set
        { p with remaining := p.remaining - min p.remaining quantum } hget
      simp only [rrMeasure, hq] at hsum1 ⊢
      simp only [hsum] at hsum1 ⊢
      split <;> simp <;> omega
    · have hzero : p.remaining - min p.remaining quantum = 0 := by
        have := min_le_left p.remaining quantum
        omega
      have hstep : rrStepZ quantum s =
          { sorted := s.sorted.set idx
              { p with remaining := p.remaining - min p.remaining quantum,
                       ct := s.time + min p.remaining quantum,
                       tat := s.time + min p.remaining quantum - p.at_,
                       wt := s.time + min p.remaining quantum - p.at_ - p.bt },
            gantt := s.gantt ++ [⟨p.pid, s.time, s.time + min p.remaining quantum⟩],
            q := qrest ++ List.range' s.i m,
            time := s.time + min p.remaining quantum, i := s.i + m,
            finished := s.finished + 1 } := by
        simp only [rrStepZ, hq, List.getD_eq_getElem?_getD, hget, Option.getD_some, gt_iff_lt,
          hpos, if_false, h1, h2, List.set_set]
      have hinv := rr_run hs hq1 h hq hget
        { p with remaining := p.remaining - min p.remaining quantum,
                 ct := s.time + min p.remaining quantum,
                 tat := s.time + min p.remaining quantum - p.at_,
                 wt := s.time + min p.remaining quantum - p.at_ - p.bt }
        _ rfl rfl rfl hm' hin hstop
        (qrest ++ List.range' s.i m) (s.finished + 1)
        (Or.inr ⟨hzero, rfl, rfl, ⟨rfl, rfl⟩, rfl⟩)
      rw [hstep]
      refine ⟨hinv, ?_⟩
      have hsum1 := sum_remaining_nonneg hinv.toRrCore
      have hsum := sum_remaining_set
        { p with remaining := p.remaining - min p.remaining quantum,
                 ct := s.time + min p.remaining quantum,
                 tat := s.time + min p.remaining quantum - p.at_,
                 wt := s.time + min p.remaining quantum - p.at_ - p.bt } hget
      simp only [rrMeasure, hq] at hsum1 ⊢
      simp only [hsum] at hsum1 ⊢
      split <;> simp <;> omega

theorem rrSorted_keys (procs : List Process) :
    ((rrSorted procs).map Process.key).Perm (procs.map Process.key) :=
  sortProcs_keys fcfsLess procs _ (fun _ => rfl)

theorem rrInit_inv (procs : List Process) (hv : ValidInput procs) (quantum : Int) :
    RrInv (rrSorted procs) quantum (rrInit procs) := by
  have hs : StaticOk (rrSorted procs) := staticOk_of_valid (rrSorted_keys procs) hv
  have hcore : RrCore (rrSorted procs) quantum
      { sorted := rrSorted procs, gantt := [], q := [], time := 0, i := 0, finished := 0 } := by
    refine ⟨rfl, Timeline.nil, Nat.zero_le _, List.nodup_nil, ?_, rfl, ?_, ?_⟩
    · intro k hk
      cases hk
    · intro k p hget
      have hp : p ∈ rrSorted procs := List.mem_iff_getElem?.2 ⟨k, hget⟩
      have hrem : p.remaining = p.bt := by
        simp only [rrSorted, List.mem_map] at hp
        obtain ⟨a, _, rfl⟩ := hp
        rfl
      have := hs.2 p hp
      refine ⟨by omega, ?_, ?_, ?_, fun _ => hrem, ?_⟩
      · simp [segTime, hrem]
      · simp [segCount, hrem]
      · intro hk
        cases hk
      · intro hk
        exact absurd hk (Nat.not_lt_zero _)
    · intro seg hseg
      cases hseg
  obtain ⟨m, hm, h1, h2, h3, h4⟩ := rrEnqueue_at 0 (rrSorted procs) 0 []
  rw [List.drop_zero] at h1 h2
  have h0 := rr_jump hs hcore rfl Timeline.nil (le_refl _) (fun pid _ => ⟨rfl, rfl⟩)
    (fun seg hseg => Or.inl hseg) (by simpa using hm) h3 h4
  have hstep : rrInit procs =
      if (List.range' 0 m).isEmpty && decide (0 + m < (rrSorted procs).length) then
        rrIdle { sorted := rrSorted procs, gantt := [], q := List.range' 0 m, time := 0,
                 i := 0 + m, finished := 0 }
      else
        { sorted := rrSorted procs, gantt := [], q := List.range' 0 m, time := 0,
          i := 0 + m, finished := 0 } := by
    simp only [rrInit, h1, h2, List.nil_append]
  rw [hstep]
  split
  · rename_i hc
    simp only [Bool.and_eq_true, List.isEmpty_iff, decide_eq_true_eq] at hc
    exact (rrIdle_ok hs h0 hc.1 hc.2).1
  · exact h0

theorem rr_final {procs : List Process} {quantum : Int} {s : RrState}
    (hinv : RrInv (rrSorted procs) quantum s) (hq : s.q = []) (hi : s.i = s.sorted.length)
    {k : Nat} {p : Process} (hget : s.sorted[k]? = some p) :
    p.remaining = 0 ∧ MetricsOk p ∧ p.ct ≤ s.time ∧ p.at_ + p.bt ≤ p.ct ∧
      segTime p.pid s.gantt = p.bt ∧
      (segCount p.pid s.gantt : Int) = ⌈(p.bt : ℚ) / (quantum : ℚ)⌉ := by
  obtain ⟨hlt, _⟩ := List.getElem?_eq_some_iff.1 hget
  obtain ⟨_, h2, h3, _, _, h6⟩ := hinv.per k p hget
  obtain ⟨a, b, c, d⟩ := h6 (by omega) (by rw [hq]; simp)
  rw [a] at h2 h3
  refine ⟨a, b, c, d, by omega, ?_⟩
  simpa using h3

theorem rr_outcome (procs : List Process) (hv : ValidInput procs) {quantum : Int}
    {s : RrState} (hinv : RrInv (rrSorted procs) quantum s) (hq : s.q = [])
    (hi : s.i = s.sorted.length) : Outcome procs s.sorted s.gantt := by
  have hs : StaticOk (rrSorted procs) := staticOk_of_valid (rrSorted_keys procs) hv
  have hk : (s.sorted.map Process.key).Perm (procs.map Process.key) := by
    rw [hinv.keys]; exact rrSorted_keys procs
  have hne : s.gantt ≠ [] := by
    intro hnil
    have hlen : s.sorted.length = procs.length := by simpa using hk.length_eq
    have hpos : 0 < s.sorted.length := by
      rw [hlen]; exact List.length_pos.2 hv.1
    obtain ⟨p, hp⟩ := List.exists_mem_of_length_pos hpos
    obtain ⟨k, hk'⟩ := List.mem_iff_getElem?.1 hp
    have h1 := (rr_final hinv hq hi hk').2.2.2.2.1
    have h2 := keys_static hinv.keys hs hk'
    simp [hnil, segTime] at h1
    omega
  refine ⟨hk, ?_, hinv.timeline.contiguous hne, ?_, ?_⟩
  · intro p hp
    obtain ⟨k, hk'⟩ := List.mem_iff_getElem?.1 hp
    exact (rr_final hinv hq hi hk').2.1
  · intro p hp
    obtain ⟨k, hk'⟩ := List.mem_iff_getElem?.1 hp
    exact (rr_final hinv hq hi hk').2.2.2.2.1
  · intro seg hseg hne
    obtain ⟨p0, hp0, hpid, hat, _⟩ := hinv.segs seg hseg hne
    obtain ⟨k, hk0⟩ := List.mem_iff_getElem?.1 hp0
    obtain ⟨p, hk', hp, e1, e2, _⟩ := keys_get hinv.keys.symm hk0
    exact ⟨p, hp, by omega, by omega⟩

/-! ## From a finished run to the table and the chart -/

theorem outcome_pidsOk {procs final : List Process} {gantt : List Segment}
    (hv : ValidInput procs) (h : Outcome procs final gantt) : PidsOk final :=
  keys_perm_pidsOk h.keys hv.2.1

theorem outcome_mem {procs final : List Process} {gantt : List Segment}
    (hv : ValidInput procs) (h : Outcome procs final gantt) (p : Process) :
    p ∈ orderByPid final ↔ p ∈ final :=
  orderByPid_mem (outcome_pidsOk hv h) p

theorem valid_pid_inj {procs : List Process} (hv : ValidInput procs) {p r : Process}
    (hp : p ∈ procs) (hr : r ∈ procs) (he : p.pid = r.pid) : p = r := by
  have hnd : (procs.map Process.pid).Nodup := by
    rw [hv.2.1]; exact pidList_nodup _
  exact List.inj_on_of_nodup_map hnd hp hr he

theorem outcome_keys {procs final : List Process} {gantt : List Segment}
    (hv : ValidInput procs) (h : Outcome procs final gantt) :
    (orderByPid final).map Process.key = procs.map Process.key := by
  have hok := outcome_pidsOk hv h
  have hlen : final.length = procs.length := by simpa using h.keys.length_eq
  have hlen' : (orderByPid final).length = final.length := by
    simpa [pidList] using congrArg List.length (orderByPid_pids hok)
  apply List.ext_getElem?
  intro t
  by_cases ht : t < procs.length
  · obtain ⟨r, hr, hrp⟩ := hok.exists (x := (t : Int) + 1) (by omega) (by omega)
    have h1 := orderByPid_eq hok t (by omega) r hr hrp
    rw [List.get?_eq_getElem?] at h1
    obtain ⟨p0, hp0, e1, e2, e3⟩ := keys_perm_mem h.keys hr
    have h2 : (procs.map Process.pid)[t]? = some ((t : Int) + 1) := by
      rw [hv.2.1]
      simp [pidList, ht]
    rw [List.getElem?_map] at h2
    cases hpt : procs[t]? with
    | none => simp [hpt] at h2
    | some p =>
      simp only [hpt, Option.map_some', Option.some.injEq] at h2
      have : p0 = p := valid_pid_inj hv hp0 (List.mem_iff_getElem?.2 ⟨t, hpt⟩) (by omega)
      subst this
      simp [h1, hpt, Process.key, e1, e2, e3]
  · have h1 : (orderByPid final)[t]? = none := List.getElem?_eq_none (by omega)
    have h2 : procs[t]? = none := List.getElem?_eq_none (by omega)
    simp [h1, h2]

theorem outcome_of_input {procs final : List Process} {gantt : List Segment}
    (h : Outcome procs final gantt) {p : Process} (hp : p ∈ procs) :
    ∃ p' ∈ final, p'.pid = p.pid ∧ p'.at_ = p.at_ ∧ p'.bt = p.bt :=
  keys_perm_mem h.keys.symm hp

theorem outcome_metrics {procs final : List Process} {gantt : List Segment}
    (hv : ValidInput procs) (h : Outcome procs final gantt) :
    (orderByPid final).map Process.key = procs.map Process.key ∧
      ∀ p ∈ orderByPid final, p.tat = p.ct - p.at_ ∧ p.wt = p.tat - p.bt :=
  ⟨outcome_keys hv h, fun p hp => h.metrics p ((outcome_mem hv h p).1 hp)⟩

theorem outcome_segTime {procs final : List Process} {gantt : List Segment}
    (h : Outcome procs final gantt) : ∀ p ∈ procs, segTime p.pid gantt = p.bt := by
  intro p hp
  obtain ⟨p', hp', e1, _, e3⟩ := outcome_of_input h hp
  rw [← e1, ← e3]
  exact h.segTime p' hp'

theorem outcome_arrived {procs final : List Process} {gantt : List Segment}
    (hv : ValidInput procs) (h : Outcome procs final gantt) :
    ∀ p ∈ procs, ∀ seg ∈ gantt, seg.pid = p.pid → p.at_ ≤ seg.start := by
  intro p hp seg hseg hpid
  have hp1 : 1 ≤ p.pid := by
    have : p.pid ∈ pidList procs.length := by
      rw [← hv.2.1]; exact List.mem_map.2 ⟨p, hp, rfl⟩
    exact ((mem_pidList _ _).1 this).1
  obtain ⟨p', hp', e1, e2⟩ := h.arrived seg hseg (by omega)
  obtain ⟨p0, hp0, f1, f2, _⟩ := keys_perm_mem h.keys hp'
  have : p0 = p := valid_pid_inj hv hp0 hp (by omega)
  subst this
  omega

/-! ## FCFS order -/

theorem fcfsLess_false {a b : Process} (h : fcfsLess b a = false) :
    a.at_ < b.at_ ∨ (a.at_ = b.at_ ∧ a.pid ≤ b.pid) := by
  unfold fcfsLess at h
  by_cases he : b.at_ = a.at_
  · simp [he] at h
    exact Or.inr ⟨he.symm, h⟩
  · simp [he] at h
    left
    omega

theorem fcfsLess_true {a b : Process} (h : fcfsLess b a = true) :
    b.at_ < a.at_ ∨ (b.at_ = a.at_ ∧ b.pid ≤ a.pid) := by
  unfold fcfsLess at h
  by_cases he : b.at_ = a.at_
  · simp [he] at h
    exact Or.inr ⟨he, by omega⟩
  · simp [he] at h
    exact Or.inl h

theorem sortInsert_fcfs_pairwise (a : Process) (l : List Process)
    (h : l.Pairwise (fun a b => a.at_ < b.at_ ∨ (a.at_ = b.at_ ∧ a.pid ≤ b.pid))) :
    (sortInsert fcfsLess a l).Pairwise
      (fun a b => a.at_ < b.at_ ∨ (a.at_ = b.at_ ∧ a.pid ≤ b.pid)) := by
  induction l with
  | nil => simp [sortInsert]
  | cons b l ih =>
    rw [List.pairwise_cons] at h
    by_cases hl : fcfsLess b a = true
    · simp only [sortInsert, hl, if_true]
      rw [List.pairwise_cons]
      refine ⟨?_, ih h.2⟩
      intro x hx
      rcases List.mem_cons.1 ((sortInsert_perm fcfsLess a l).subset hx) with rfl | hx
      · exact fcfsLess_true hl
      · exact h.1 x hx
    · have hl' : fcfsLess b a = false := by simpa using hl
      simp only [sortInsert, hl', Bool.false_eq_true, if_false]
      have hab := fcfsLess_false hl'
      rw [List.pairwise_cons]
      refine ⟨?_, List.pairwise_cons.2 h⟩
      intro x hx
      rcases List.mem_cons.1 hx with rfl | hx
      · exact hab
      · have hbx := h.1 x hx
        rcases hab with h1 | ⟨h1, h2⟩ <;> rcases hbx with h3 | ⟨h3, h4⟩
        · exact Or.inl (by omega)
        · exact Or.inl (by omega)
        · exact Or.inl (by omega)
        · exact Or.inr ⟨by omega, by omega⟩

theorem sortProcs_fcfs_pairwise (l : List Process) :
    (sortProcs fcfsLess l).Pairwise
      (fun a b => a.at_ < b.at_ ∨ (a.at_ = b.at_ ∧ a.pid ≤ b.pid)) := by
  induction l with
  | nil => simp [sortProcs]
  | cons a l ih => exact sortInsert_fcfs_pairwise a _ ih

theorem sortProcs_fcfs_strict {l : List Process} (hnd : (l.map Process.pid).Nodup) :
    (sortProcs fcfsLess l).Pairwise
      (fun a b => a.at_ < b.at_ ∨ (a.at_ = b.at_ ∧ a.pid < b.pid)) := by
  have h1 := sortProcs_fcfs_pairwise l
  have h2 : ((sortProcs fcfsLess l).map Process.pid).Nodup :=
    ((sortProcs_perm fcfsLess l).map Process.pid).nodup_iff.2 hnd
  have h3 : (sortProcs fcfsLess l).Pairwise (fun a b => a.pid ≠ b.pid) :=
    (List.pairwise_map.1 h2)
  refine (h1.and h3).imp ?_
  intro a b hab
  rcases hab.1 with h | ⟨h, h'⟩
  · exact Or.inl h
  · exact Or.inr ⟨h, lt_of_le_of_ne h' hab.2⟩

theorem fcfsLoopZ_pids (l : List Process) :
    ∀ (t : Int) (g : List Segment), (∀ p ∈ l, p.pid ≠ 0) →
      ((fcfsLoopZ l t g).2.filter (fun s => decide (s.pid ≠ 0))).map Segment.pid =
        (g.filter (fun s => decide (s.pid ≠ 0))).map Segment.pid ++ l.map Process.pid := by
  induction l with
  | nil => intro t g _; simp [fcfsLoopZ]
  | cons a rest ih =>
    intro t g hnz
    have ha := hnz a (List.mem_cons_self _ _)
    simp only [fcfsLoopZ]
    rw [ih _ _ (fun p hp => hnz p (List.mem_cons_of_mem _ hp))]
    by_cases hlt : t < a.at_ <;> simp [hlt, List.filter_append, List.filter_cons, ha]

theorem fcfsLoopZ_ct (l : List Process) :
    ∀ (t : Int) (g : List Segment),
      (∀ p : Process, (fcfsLoopZ l t g).1[0]? = some p → p.ct = max t p.at_ + p.bt) ∧
      (∀ (k : Nat) (a b : Process), (fcfsLoopZ l t g).1[k]? = some a →
        (fcfsLoopZ l t g).1[k + 1]? = some b → b.ct = max a.ct b.at_ + b.bt) := by
  induction l with
  | nil => intro t g; simp [fcfsLoopZ]
  | cons p rest ih =>
    intro t g
    have hmax : (if t < p.at_ then p.at_ else t) = max t p.at_ := by
      rcases le_total t p.at_ with h | h
      · rw [max_eq_right h]
        split <;> omega
      · rw [max_eq_left h]
        split <;> omega
    simp only [fcfsLoopZ]
    obtain ⟨ih1, ih2⟩ := ih ((if t < p.at_ then p.at_ else t) + p.bt)
      ((if t < p.at_ then g ++ [⟨0, t, p.at_⟩] else g) ++
        [⟨p.pid, if t < p.at_ then p.at_ else t, (if t < p.at_ then p.at_ else t) + p.bt⟩])
    refine ⟨?_, ?_⟩
    · intro r hr
      simp only [List.getElem?_cons_zero, Option.some.injEq] at hr
      subst hr
      show (if t < p.at_ then p.at_ else t) + p.bt = max t p.at_ + p.bt
      rw [hmax]
    · intro k a b ha hb
      rw [List.getElem?_cons_succ] at hb
      cases k with
      | zero =>
        simp only [List.getElem?_cons_zero, Option.some.injEq] at ha
        subst ha
        exact ih1 b hb
      | succ k =>
        rw [List.getElem?_cons_succ] at ha
        exact ih2 k a b ha hb

/-! ## Idle segments -/

theorem idleChain_snoc {g : List Segment} (h : g.Chain' (fun a b => a.pid = 0 → b.pid ≠ 0))
    (s : Segment) (hlast : ∀ a, g.getLast? = some a → a.pid = 0 → s.pid ≠ 0) :
    (g ++ [s]).Chain' (fun a b => a.pid = 0 → b.pid ≠ 0) := by
  refine List.Chain'.append h (List.chain'_singleton _) ?_
  intro x hx y hy
  simp only [List.head?_cons, Option.mem_def, Option.some.injEq] at hy
  rw [Option.mem_def] at hx
  subst hy
  exact hlast x hx

theorem idleFollowed_of_chain {g : List Segment}
    (h : g.Chain' (fun a b => a.pid = 0 → b.pid ≠ 0))
    (hlast : ∀ a, g.getLast? = some a → a.pid ≠ 0) : IdleFollowed g := by
  intro i a hi ha
  obtain ⟨hlt, hget⟩ := List.getElem?_eq_some_iff.1 hi
  by_cases hnext : i + 1 < g.length
  · refine ⟨g[i + 1], List.getElem?_eq_getElem hnext, ?_⟩
    have := (List.chain'_iff_get.1 h) i (by omega)
    simp only [List.get_eq_getElem] at this
    exact this (by rw [hget]; exact ha)
  · exfalso
    have hl : g.getLast? = some a := by
      rw [List.getLast?_eq_getElem?]
      have : g.length - 1 = i := by omega
      rw [this]
      exact hi
    exact hlast a hl ha

theorem segCount_cons (pid : Int) (a : Segment) (g : List Segment) :
    segCount pid (a :: g) = segCount pid g + (if a.pid = pid then 1 else 0) := by
  unfold segCount
  by_cases h : a.pid = pid <;> simp [List.filter_cons, h]

theorem nonIdleCount_cons (a : Segment) (g : List Segment) :
    nonIdleCount (a :: g) = nonIdleCount g + (if a.pid = 0 then 0 else 1) := by
  unfold nonIdleCount
  by_cases h : a.pid = 0 <;> simp [List.filter_cons, h]

theorem idle_le_nonIdle (g : List Segment) :
    g.Chain' (fun a b => a.pid = 0 → b.pid ≠ 0) → (∀ a, g.getLast? = some a → a.pid ≠ 0) →
      segCount 0 g ≤ nonIdleCount g ∧
      (∀ a, g.head? = some a → a.pid ≠ 0 → segCount 0 g + 1 ≤ nonIdleCount g) := by
  induction g with
  | nil =>
    intro _ _
    exact ⟨le_refl _, fun a ha => by simp at ha⟩
  | cons a rest ih =>
    intro hc hlast
    cases rest with
    | nil =>
      have ha : a.pid ≠ 0 := hlast a rfl
      simp [segCount, nonIdleCount, List.filter_cons, ha]
    | cons b l =>
      rw [List.chain'_cons] at hc
      obtain ⟨ih1, ih2⟩ := ih hc.2 (fun x hx => hlast x (by simpa using hx))
      rw [segCount_cons 0 a, nonIdleCount_cons a]
      by_cases ha : a.pid = 0
      · have hb := ih2 b rfl (hc.1 ha)
        simp only [ha, if_true]
        refine ⟨by omega, ?_⟩
        intro x hx hx0
        simp only [List.head?_cons, Option.some.injEq] at hx
        subst hx
        exact absurd ha hx0
      · simp only [ha, if_false]
        exact ⟨by omega, fun _ _ _ => by omega⟩

theorem getLast?_snoc (g : List Segment) (s : Segment) : (g ++ [s]).getLast? = some s := by
  simp

theorem nonIdleCount_snoc (g : List Segment) (s : Segment) :
    nonIdleCount (g ++ [s]) = nonIdleCount g + (if s.pid = 0 then 0 else 1) := by
  unfold nonIdleCount
  by_cases h : s.pid = 0 <;> simp [List.filter_append, List.filter_cons, h]

/-! ## SJF: idle segments and position of the selected process -/

theorem sjfExt_idle {l0 : List Process} {s : SjfState} (h : SjfInv l0 s) (he : SjfExt s)
    (hc : s.completed < s.procs.length) (hlt : s.time < sjfNextAT s.procs INT_MAX) :
    SjfExt { s with gantt := s.gantt ++ [⟨0, s.time, sjfNextAT s.procs INT_MAX⟩],
                    time := sjfNextAT s.procs INT_MAX } := by
  refine ⟨?_, ?_, ?_, ?_, ?_⟩
  · refine idleChain_snoc he.idle_chain _ ?_
    intro a ha ha0
    have := (he.idle_last a ha ha0).2
    omega
  · intro seg _ _
    exact ⟨hc, rfl⟩
  · show nonIdleCount (s.gantt ++ [_]) = s.completed
    rw [nonIdleCount_snoc]
    simpa using he.count
  · intro seg hseg hne
    rcases List.mem_append.1 hseg with hseg | hseg
    · exact he.tie seg hseg hne
    · simp only [List.mem_singleton] at hseg
      subst hseg
      exact absurd rfl hne
  · intro seg hseg h0 j r hj
    rcases List.mem_append.1 hseg with hseg | hseg
    · exact he.idle_wc seg hseg h0 j r hj
    · simp only [List.mem_singleton] at hseg
      subst hseg
      cases hd : r.done with
      | true => exact Or.inl ⟨rfl, (h.doneP j r hj hd).2.2.2.1⟩
      | false =>
        exact Or.inr ((sjfNextAT_spec s.procs INT_MAX).1 r (List.mem_iff_getElem?.2 ⟨j, hj⟩) hd)

theorem sjfExt_run {l0 : List Process} (hs : StaticOk l0) {s : SjfState} (h : SjfInv l0 s)
    (he : SjfExt s) {idx : Nat} {p : Process} (hget : s.procs[idx]? = some p)
    (hr : Ready s.time p)
    (hfirst : ∀ (k : Nat) (r : Process), k < idx → s.procs[k]? = some r → Ready s.time r →
      p.bt < r.bt)
    (p1 : Process)
    (hp1 : p1 = { p with ct := s.time + p.bt, tat := s.time + p.bt - p.at_,
                         wt := s.time + p.bt - p.at_ - p.bt, done := true }) :
    SjfExt
      { procs := s.procs.set idx p1
        gantt := s.gantt ++ [⟨p.pid, s.time, s.time + p.bt⟩]
        time := s.time + p.bt
        completed := s.completed + 1 } := by
  have hp := keys_static h.keys hs hget
  obtain ⟨hlt, hpe⟩ := List.getElem?_eq_some_iff.1 hget
  have e2 : p1.at_ = p.at_ := by rw [hp1]
  have e3 : p1.bt = p.bt := by rw [hp1]
  have e5 : p1.done = true := by rw [hp1]
  have e1 : p1.pid = p.pid := by rw [hp1]
  have hpid0 : p.pid ≠ 0 := by omega
  have hset : ∀ (k : Nat) (r : Process), (s.procs.set idx p1)[k]? = some r →
      (k = idx ∧ r = p1) ∨ (k ≠ idx ∧ s.procs[k]? = some r) := by
    intro k r hk
    rw [List.getElem?_set] at hk
    by_cases hik : idx = k
    · subst hik
      simp only [hlt, if_true, Option.some.injEq] at hk
      exact Or.inl ⟨rfl, hk.symm⟩
    · simp only [hik, if_false] at hk
      exact Or.inr ⟨fun he => hik he.symm, hk⟩
  refine ⟨?_, ?_, ?_, ?_, ?_⟩
  · exact idleChain_snoc he.idle_chain _ (fun _ _ _ => hpid0)
  · intro seg hseg h0
    have hseg' : (s.gantt ++ [(⟨p.pid, s.time, s.time + p.bt⟩ : Segment)]).getLast? = some seg :=
      hseg
    rw [getLast?_snoc] at hseg'
    simp only [Option.some.injEq] at hseg'
    subst hseg'
    exact absurd h0 hpid0
  · show nonIdleCount (s.gantt ++ [_]) = s.completed + 1
    rw [nonIdleCount_snoc, he.count]
    simp [hpid0]
  · intro seg hseg hne
    rcases List.mem_append.1 hseg with hseg | hseg
    · obtain ⟨k0, p0, hk0, hd0, hpid0', hmin0⟩ := he.tie seg hseg hne
      have hk0i : idx ≠ k0 := by
        intro hE
        subst hE
        rw [hget] at hk0
        simp only [Option.some.injEq] at hk0
        subst hk0
        rw [hr.1] at hd0
        exact Bool.false_ne_true hd0
      refine ⟨k0, p0, by simp [List.getElem?_set, hk0i, hk0], hd0, hpid0', ?_⟩
      intro j r hj hrat
      rcases hset j r hj with ⟨rfl, rfl⟩ | ⟨_, hj⟩
      · rcases hmin0 j p hget (by omega) with ⟨hd, _⟩ | hb | hb
        · rw [hr.1] at hd
          exact absurd hd Bool.false_ne_true
        · exact Or.inr (Or.inl (by omega))
        · exact Or.inr (Or.inr hb)
      · exact hmin0 j r hj hrat
    · simp only [List.mem_singleton] at hseg
      subst hseg
      refine ⟨idx, p1, by simp [List.getElem?_set, hlt], e5, e1, ?_⟩
      intro j r hj hrat
      rcases hset j r hj with ⟨rfl, rfl⟩ | ⟨hij, hj⟩
      · exact Or.inr (Or.inr (le_refl _))
      · cases hd : r.done with
        | true => exact Or.inl ⟨rfl, (h.doneP j r hj hd).2.2.2.1⟩
        | false =>
          by_cases hji : j < idx
          · exact Or.inr (Or.inl (by
              have := hfirst j r hji hj ⟨hd, hrat⟩
              omega))
          · exact Or.inr (Or.inr (by omega))
  · intro seg hseg h0 j r hj
    rcases List.mem_append.1 hseg with hold | hnew
    · rcases hset j r hj with ⟨rfl, rfl⟩ | ⟨_, hj⟩
      · rcases he.idle_wc seg hold h0 j p hget with ⟨hd, _⟩ | hb
        · rw [hr.1] at hd
          exact absurd hd Bool.false_ne_true
        · exact Or.inr (by omega)
      · exact he.idle_wc seg hold h0 j r hj
    · simp only [List.mem_singleton] at hnew
      subst hnew
      exact absurd h0 hpid0

theorem sjfExt_step {l0 : List Process} (hs : StaticOk l0) (s : SjfState) (h : SjfInv l0 s)
    (he : SjfExt s) (hc : s.completed < s.procs.length) : SjfExt (sjfStepZ s) := by
  cases hscan : sjfScan s.time s.procs 0 none INT_MAX with
  | none =>
    by_cases hlt : s.time < sjfNextAT s.procs INT_MAX
    · rw [sjfStepZ_idle hscan hlt]
      exact sjfExt_idle h he hc hlt
    · rw [sjfStepZ_stuck hscan hlt]
      exact he
  | some idx =>
    obtain ⟨p, hget, hr, _, _, hfirst⟩ := sjfScan_some hscan
    rw [sjfStepZ_run hscan hget]
    exact sjfExt_run hs h he hget hr hfirst _ rfl

theorem sjfInit_ext (sorted : List Process) : SjfExt (sjfInit sorted) := by
  refine ⟨?_, ?_, rfl, ?_, ?_⟩
  · simp [sjfInit]
  · intro seg hseg
    simp [sjfInit] at hseg
  · intro seg hseg
    simp [sjfInit] at hseg
  · intro seg hseg
    simp [sjfInit] at hseg

/-! ## FCFS: idle segments and completion -/

theorem fcfsLoopZ_causal (l : List Process) :
    ∀ (t : Int) (g : List Segment), ∀ p ∈ (fcfsLoopZ l t g).1, p.at_ + p.bt ≤ p.ct := by
  induction l with
  | nil => intro t g p hp; simp [fcfsLoopZ] at hp
  | cons a rest ih =>
    intro t g p hp
    simp only [fcfsLoopZ, List.mem_cons] at hp
    rcases hp with rfl | hp
    · show a.at_ + a.bt ≤ (if t < a.at_ then a.at_ else t) + a.bt
      split <;> omega
    · exact ih _ _ p hp

theorem fcfsLoopZ_idle (l : List Process) :
    ∀ (t : Int) (g : List Segment), (∀ p ∈ l, p.pid ≠ 0) →
      g.Chain' (fun a b => a.pid = 0 → b.pid ≠ 0) → (∀ a, g.getLast? = some a → a.pid ≠ 0) →
      (fcfsLoopZ l t g).2.Chain' (fun a b => a.pid = 0 → b.pid ≠ 0) ∧
        (∀ a, (fcfsLoopZ l t g).2.getLast? = some a → a.pid ≠ 0) ∧
        nonIdleCount (fcfsLoopZ l t g).2 = nonIdleCount g + l.length := by
  induction l with
  | nil => intro t g _ hc hl; exact ⟨hc, hl, rfl⟩
  | cons p rest ih =>
    intro t g hnz hc hl
    have hp := hnz p (List.mem_cons_self _ _)
    have hrest : ∀ q ∈ rest, q.pid ≠ 0 := fun q hq => hnz q (List.mem_cons_of_mem _ hq)
    simp only [fcfsLoopZ]
    have hc1 : (if t < p.at_ then g ++ [(⟨0, t, p.at_⟩ : Segment)] else g).Chain'
        (fun a b => a.pid = 0 → b.pid ≠ 0) := by
      split
      · exact idleChain_snoc hc _ (fun a ha ha0 => absurd ha0 (hl a ha))
      · exact hc
    have hn1 : nonIdleCount (if t < p.at_ then g ++ [(⟨0, t, p.at_⟩ : Segment)] else g) =
        nonIdleCount g := by
      split
      · rw [nonIdleCount_snoc]; simp
      · rfl
    obtain ⟨h1, h2, h3⟩ := ih ((if t < p.at_ then p.at_ else t) + p.bt)
      ((if t < p.at_ then g ++ [⟨0, t, p.at_⟩] else g) ++
        [⟨p.pid, if t < p.at_ then p.at_ else t, (if t < p.at_ then p.at_ else t) + p.bt⟩])
      hrest (idleChain_snoc hc1 _ (fun _ _ _ => hp))
      (by
        intro a ha
        rw [getLast?_snoc] at ha
        simp only [Option.some.injEq] at ha
        subst ha
        exact hp)
    refine ⟨h1, h2, ?_⟩
    rw [h3, nonIdleCount_snoc, hn1]
    simp [hp]
    omega

theorem fcfsLoopZ_segs_ct (l : List Process) :
    ∀ (t : Int) (g : List Segment), ∀ seg ∈ (fcfsLoopZ l t g).2,
      seg ∈ g ∨ seg.pid = 0 ∨ ∃ p ∈ (fcfsLoopZ l t g).1, p.pid = seg.pid ∧ p.ct = seg.end_ := by
  induction l with
  | nil => intro t g seg hseg; exact Or.inl hseg
  | cons a rest ih =>
    intro t g seg hseg
    simp only [fcfsLoopZ] at hseg ⊢
    rcases ih _ _ seg hseg with h | h | ⟨p, hp, h1, h2⟩
    · rcases List.mem_append.1 h with h | h
      · by_cases hlt : t < a.at_
        · simp only [hlt, if_true] at h
          rcases List.mem_append.1 h with h | h
          · exact Or.inl h
          · simp only [List.mem_singleton] at h
            exact Or.inr (Or.inl (by rw [h]))
        · simp only [hlt, if_false] at h
          exact Or.inl h
      · simp only [List.mem_singleton] at h
        refine Or.inr (Or.inr ⟨_, List.mem_cons_self _ _, by rw [h], by rw [h]⟩)
    · exact Or.inr (Or.inl h)
    · exact Or.inr (Or.inr ⟨p, List.mem_cons_of_mem _ hp, h1, h2⟩)

theorem fcfsLoopZ_end (l : List Process) :
    ∀ (t : Int) (g : List Segment), (∀ p ∈ l, 0 < p.bt) → Timeline g t →
      ∃ t', t ≤ t' ∧ Timeline (fcfsLoopZ l t g).2 t' ∧ ∀ p ∈ (fcfsLoopZ l t g).1, p.ct ≤ t' := by
  induction l with
  | nil => intro t g _ h; exact ⟨t, le_refl _, h, fun p hp => by simp [fcfsLoopZ] at hp⟩
  | cons p rest ih =>
    intro t g hbt h
    have hp := hbt p (List.mem_cons_self _ _)
    have hrest : ∀ q ∈ rest, 0 < q.bt := fun q hq => hbt q (List.mem_cons_of_mem _ hq)
    simp only [fcfsLoopZ]
    by_cases hlt : t < p.at_
    · simp only [hlt, if_true]
      obtain ⟨t', hle, ht', hct⟩ := ih (p.at_ + p.bt) _ hrest
        (((h.snoc 0 hlt)).snoc p.pid (by omega))
      refine ⟨t', by omega, ht', ?_⟩
      intro r hr
      rcases List.mem_cons.1 hr with rfl | hr
      · exact hle
      · exact hct r hr
    · simp only [hlt, if_false]
      obtain ⟨t', hle, ht', hct⟩ := ih (t + p.bt) _ hrest (h.snoc p.pid (by omega))
      refine ⟨t', by omega, ht', ?_⟩
      intro r hr
      rcases List.mem_cons.1 hr with rfl | hr
      · exact hle
      · exact hct r hr

theorem fcfsLoopZ_work (l : List Process) :
    ∀ (t : Int) (g : List Segment), l.Pairwise (fun a b => a.at_ ≤ b.at_) →
      (∀ p ∈ l, p.pid ≠ 0 ∧ 0 < p.bt) →
      ∀ seg ∈ (fcfsLoopZ l t g).2, seg ∈ g ∨ seg.pid ≠ 0 ∨
        (t ≤ seg.start ∧ ∀ p ∈ (fcfsLoopZ l t g).1, p.ct ≤ seg.start ∨ seg.end_ ≤ p.at_) := by
  induction l with
  | nil => intro t g _ _ seg hseg; exact Or.inl hseg
  | cons a rest ih =>
    intro t g hsorted hst seg hseg
    rw [List.pairwise_cons] at hsorted
    have ha := hst a (List.mem_cons_self _ _)
    have hrest : ∀ q ∈ rest, q.pid ≠ 0 ∧ 0 < q.bt :=
      fun q hq => hst q (List.mem_cons_of_mem _ hq)
    have hat : ∀ p ∈ (fcfsLoopZ rest ((if t < a.at_ then a.at_ else t) + a.bt)
        ((if t < a.at_ then g ++ [⟨0, t, a.at_⟩] else g) ++
          [⟨a.pid, if t < a.at_ then a.at_ else t, (if t < a.at_ then a.at_ else t) + a.bt⟩])).1,
        a.at_ ≤ p.at_ := by
      intro p hp
      obtain ⟨p0, hp0, _, e2, _⟩ := keys_perm_mem (List.Perm.of_eq (fcfsLoopZ_keys rest _ _)) hp
      have := hsorted.1 p0 hp0
      omega
    simp only [fcfsLoopZ] at hseg ⊢
    rcases ih _ _ hsorted.2 hrest seg hseg with h | h | ⟨h1, h2⟩
    · rcases List.mem_append.1 h with h | h
      · by_cases hlt : t < a.at_
        · simp only [hlt, if_true] at h
          rcases List.mem_append.1 h with h | h
          · exact Or.inl h
          · simp only [List.mem_singleton] at h
            subst h
            refine Or.inr (Or.inr ⟨le_refl _, ?_⟩)
            intro p hp
            rcases List.mem_cons.1 hp with rfl | hp
            · exact Or.inr (le_refl _)
            · exact Or.inr (hat p (by simpa [hlt] using hp))
        · simp only [hlt, if_false] at h
          exact Or.inl h
      · simp only [List.mem_singleton] at h
        exact Or.inr (Or.inl (by rw [h]; exact ha.1))
    · exact Or.inr (Or.inl h)
    · refine Or.inr (Or.inr ⟨?_, ?_⟩)
      · have : t ≤ (if t < a.at_ then a.at_ else t) + a.bt := by split <;> omega
        omega
      · intro p hp
        rcases List.mem_cons.1 hp with rfl | hp
        · exact Or.inl h1
        · exact h2 p hp

/-! ## Last segment of a process -/

theorem lastEnd_of_single {pid : Int} {g : List Segment} (h : segCount pid g = 1)
    {seg : Segment} (hseg : seg ∈ g) (hpid : seg.pid = pid) :
    lastEnd pid g = some seg.end_ := by
  unfold segCount at h
  obtain ⟨x, hx⟩ := List.length_eq_one.1 h
  have hmem : seg ∈ g.filter (fun s => decide (s.pid = pid)) := by
    rw [List.mem_filter]
    exact ⟨hseg, by simpa using hpid⟩
  rw [hx, List.mem_singleton] at hmem
  subst hmem
  simp [lastEnd, hx]

theorem exists_seg_of_count {pid : Int} {g : List Segment} (h : segCount pid g = 1) :
    ∃ seg ∈ g, seg.pid = pid := by
  unfold segCount at h
  obtain ⟨x, hx⟩ := List.length_eq_one.1 h
  have hmem : x ∈ g.filter (fun s => decide (s.pid = pid)) := by rw [hx]; simp
  rw [List.mem_filter] at hmem
  exact ⟨x, hmem.1, by simpa using hmem.2⟩

theorem lastEnd_of_getLast {g : List Segment} {seg : Segment} (h : g.getLast? = some seg) :
    lastEnd seg.pid g = some seg.end_ := by
  obtain ⟨g', rfl⟩ : ∃ g', g = g' ++ [seg] := by
    rcases List.eq_nil_or_concat g with rfl | ⟨g', x, rfl⟩
    · simp at h
    · rw [List.concat_eq_append, getLast?_snoc] at h
      simp only [Option.some.injEq] at h
      subst h
      exact ⟨g', by simp⟩
  simp [lastEnd, List.filter_append, List.filter_cons]

theorem timeline_last {g : List Segment} {t : Int} (h : Timeline g t) {seg : Segment}
    (hl : g.getLast? = some seg) : seg.end_ = t := by
  have := h.2.2.2
  simpa [hl] using this

theorem idleFollowed_last {g : List Segment} (h : IdleFollowed g) {seg : Segment}
    (hl : g.getLast? = some seg) : seg.pid ≠ 0 := by
  intro h0
  rw [List.getLast?_eq_getElem?] at hl
  obtain ⟨b, hb, _⟩ := h _ seg hl h0
  obtain ⟨hlt, _⟩ := List.getElem?_eq_some_iff.1 hb
  obtain ⟨hlt', _⟩ := List.getElem?_eq_some_iff.1 hl
  omega

/-! ## Sorting by arrival -/

theorem sortInsert_at_pairwise (less : Process → Process → Bool)
    (h1 : ∀ a b, less b a = true → b.at_ ≤ a.at_)
    (h2 : ∀ a b, less b a = false → a.at_ ≤ b.at_) (a : Process) (l : List Process)
    (h : l.Pairwise (fun a b => a.at_ ≤ b.at_)) :
    (sortInsert less a l).Pairwise (fun a b => a.at_ ≤ b.at_) := by
  induction l with
  | nil => simp [sortInsert]
  | cons b l ih =>
    rw [List.pairwise_cons] at h
    by_cases hl : less b a = true
    · simp only [sortInsert, hl, if_true]
      rw [List.pairwise_cons]
      refine ⟨?_, ih h.2⟩
      intro x hx
      rcases List.mem_cons.1 ((sortInsert_perm less a l).subset hx) with rfl | hx
      · exact h1 _ _ hl
      · exact h.1 x hx
    · have hl' : less b a = false := by simpa using hl
      simp only [sortInsert, hl', Bool.false_eq_true, if_false]
      have hab := h2 _ _ hl'
      rw [List.pairwise_cons]
      refine ⟨?_, List.pairwise_cons.2 h⟩
      intro x hx
      rcases List.mem_cons.1 hx with rfl | hx
      · exact hab
      · exact le_trans hab (h.1 x hx)

theorem sortProcs_at_pairwise (less : Process → Process → Bool)
    (h1 : ∀ a b, less b a = true → b.at_ ≤ a.at_)
    (h2 : ∀ a b, less b a = false → a.at_ ≤ b.at_) (l : List Process) :
    (sortProcs less l).Pairwise (fun a b => a.at_ ≤ b.at_) := by
  induction l with
  | nil => simp [sortProcs]
  | cons a l ih => exact sortInsert_at_pairwise less h1 h2 a _ ih

theorem sortProcs_fcfs_at (l : List Process) :
    (sortProcs fcfsLess l).Pairwise (fun a b => a.at_ ≤ b.at_) := by
  refine sortProcs_at_pairwise fcfsLess ?_ ?_ l
  · intro a b h
    rcases fcfsLess_true h with h | h <;> omega
  · intro a b h
    rcases fcfsLess_false h with h | h <;> omega

theorem pairwise_at_of_keys {l l0 : List Process}
    (hk : l.map Process.key = l0.map Process.key)
    (h : l0.Pairwise (fun a b => a.at_ ≤ b.at_)) {j k : Nat} {a b : Process}
    (hj : l[j]? = some a) (hkk : l[k]? = some b) (hjk : j ≤ k) : a.at_ ≤ b.at_ := by
  obtain ⟨a0, ha0, _, _, ea, _⟩ := keys_get hk hj
  obtain ⟨b0, hb0, _, _, eb, _⟩ := keys_get hk hkk
  rcases Nat.lt_or_eq_of_le hjk with hlt | heq
  · obtain ⟨hj', rfl⟩ := List.getElem?_eq_some_iff.1 ha0
    obtain ⟨hk', rfl⟩ := List.getElem?_eq_some_iff.1 hb0
    have := List.pairwise_iff_getElem.1 h j k hj' hk' hlt
    omega
  · subst heq
    rw [ha0] at hb0
    simp only [Option.some.injEq] at hb0
    subst hb0
    omega

/-! ## Idle time and completion of a finished run -/

theorem fcfs_outcome2 (procs : List Process) (hv : ValidInput procs) :
    Outcome2 (fcfsLoopZ (sortProcs fcfsLess procs) 0 []).1
      (fcfsLoopZ (sortProcs fcfsLess procs) 0 []).2 := by
  have hperm := sortProcs_perm fcfsLess procs
  have hs : StaticOk (sortProcs fcfsLess procs) := staticOk_of_valid (hperm.map _) hv
  have hout := fcfs_outcome procs hv
  have hok := outcome_pidsOk hv hout
  have hnz : ∀ p ∈ sortProcs fcfsLess procs, p.pid ≠ 0 := fun p hp => by
    have := hs.1.range hp
    omega
  obtain ⟨hc, hl, _⟩ := fcfsLoopZ_idle (sortProcs fcfsLess procs) 0 [] hnz
    List.chain'_nil (fun a ha => by simp at ha)
  obtain ⟨t', _, htl, hct⟩ := fcfsLoopZ_end (sortProcs fcfsLess procs) 0 []
    (fun p hp => (hs.2 p hp).2) Timeline.nil
  refine ⟨idleFollowed_of_chain hc hl, fcfsLoopZ_causal _ _ _, ?_, ?_, ?_⟩
  · intro p hp
    obtain ⟨p0, hp0, e1, _, _⟩ :=
      keys_perm_mem (List.Perm.of_eq (fcfsLoopZ_keys (sortProcs fcfsLess procs) 0 [])) hp
    have hcount := ((fcfsLoopZ_segTime (sortProcs fcfsLess procs) 0 [] hs.1.nodup hnz).1 p0 hp0).2
    rw [e1] at hcount
    have hcount1 : segCount p.pid (fcfsLoopZ (sortProcs fcfsLess procs) 0 []).2 = 1 := by
      simpa [segCount] using hcount
    obtain ⟨seg, hseg, hpid⟩ := exists_seg_of_count hcount1
    rcases fcfsLoopZ_segs_ct _ _ _ seg hseg with h | h | ⟨p', hp', f1, f2⟩
    · cases h
    · have := hok.range hp
      omega
    · have : p' = p := hok.inj hp' hp (by omega)
      subst this
      rw [f2]
      exact lastEnd_of_single hcount1 hseg hpid
  · intro seg hseg p hp
    rw [timeline_last htl hseg]
    exact hct p hp
  · intro seg hseg h0 p hp
    rcases fcfsLoopZ_work (sortProcs fcfsLess procs) 0 [] (sortProcs_fcfs_at procs)
        (fun q hq => ⟨hnz q hq, (hs.2 q hq).2⟩) seg hseg with h | h | ⟨_, h⟩
    · cases h
    · exact absurd h0 h
    · exact h p hp

theorem sjf_outcome2 {procs sorted : List Process} (hv : ValidInput procs)
    (hp : sorted.Perm procs) {s : SjfState}
    (hinv : SjfInv (sjfInit sorted).procs s) (hext : SjfExt s)
    (hdone : ∀ p ∈ s.procs, p.done = true) (hn : s.completed = procs.length) :
    Outcome2 s.procs s.gantt := by
  have hs : StaticOk (sjfInit sorted).procs := staticOk_of_valid (sjfInit_keys hp) hv
  have hlen : s.procs.length = procs.length := by
    rw [keys_length hinv.keys]
    simpa using (sjfInit_keys hp).length_eq
  refine ⟨idleFollowed_of_chain hext.idle_chain ?_, ?_, ?_, ?_, ?_⟩
  · intro a ha h0
    have := (hext.idle_last a ha h0).1
    omega
  · intro p hp
    obtain ⟨k, hk⟩ := List.mem_iff_getElem?.1 hp
    exact (hinv.doneP k p hk (hdone p hp)).2.2.2.2
  · intro p hp
    obtain ⟨k, hk⟩ := List.mem_iff_getElem?.1 hp
    have hcount := (hinv.doneP k p hk (hdone p hp)).2.2.1
    obtain ⟨seg, hseg, hpid⟩ := exists_seg_of_count hcount
    have hp1 := keys_static hinv.keys hs hk
    obtain ⟨k', p', hk', _, f1, _, _, f2, _⟩ := hinv.segs seg hseg (by omega)
    have : k' = k := keys_pid_inj hinv.keys hs hk' hk (by omega)
    subst this
    rw [hk] at hk'
    simp only [Option.some.injEq] at hk'
    subst hk'
    rw [f2]
    exact lastEnd_of_single hcount hseg hpid
  · intro seg hseg p hp
    obtain ⟨k, hk⟩ := List.mem_iff_getElem?.1 hp
    rw [timeline_last hinv.timeline hseg]
    exact (hinv.doneP k p hk (hdone p hp)).2.2.2.1
  · intro seg hseg h0 p hp
    obtain ⟨k, hk⟩ := List.mem_iff_getElem?.1 hp
    rcases hext.idle_wc seg hseg h0 k p hk with ⟨_, h⟩ | h
    · exact Or.inl h
    · exact Or.inr h

/-! ## Round Robin: the steps of the main loop -/

theorem rrIdle_desc {l0 : List Process} {quantum : Int} {s : RrState}
    (h : RrInv l0 quantum s) (hq : s.q = []) (hi : s.i < s.sorted.length) :
    ∃ a m, RrJump s (rrIdle s) a m := by
  obtain ⟨a, hget⟩ : ∃ a, s.sorted[s.i]? = some a :=
    ⟨s.sorted[s.i], List.getElem?_eq_getElem hi⟩
  obtain ⟨m, hm, h1, h2, h3, h4⟩ := rrEnqueue_at a.at_ s.sorted s.i s.q
  have hlt := h.next_gt a hget
  have hm0 : m ≠ 0 := by
    intro h0
    subst h0
    have := h4 a hget
    omega
  have hstep : rrIdle s =
      { sorted := s.sorted, gantt := s.gantt ++ [⟨0, s.time, a.at_⟩], q := List.range' s.i m,
        time := a.at_, i := s.i + m, finished := s.finished } := by
    rw [hq] at h1 h2
    simp only [rrIdle, List.getD_eq_getElem?_getD, hget, Option.getD_some, h1, h2, hq,
      List.nil_append]
  refine ⟨a, m, ?_⟩
  rw [hstep]
  exact ⟨hq, hget, hlt, by omega, by omega, rfl, rfl, rfl, rfl, rfl, rfl, h3, h4⟩

theorem rrStepZ_desc {l0 : List Process} {quantum : Int}
    (s : RrState) (h : RrInv l0 quantum s) (hc : s.finished < s.sorted.length) :
    (∃ a m, RrJump s (rrStepZ quantum s) a m) ∨
      ∃ idx qrest p p' m, RrRun quantum s (rrStepZ quantum s) idx qrest p p' m := by
  cases hq : s.q with
  | nil =>
    have hfin := h.fin
    rw [hq] at hfin
    simp only [List.length_nil, add_zero] at hfin
    have hi : s.i < s.sorted.length := by omega
    have hstep : rrStepZ quantum s = rrIdle s := by
      simp [rrStepZ, hq, hi]
    rw [hstep]
    exact Or.inl (rrIdle_desc h hq hi)
  | cons idx qrest =>
    right
    have hidxq : idx ∈ s.q := by rw [hq]; simp
    have hidx_lt := h.q_lt idx hidxq
    have hile := h.i_le
    obtain ⟨p, hget⟩ : ∃ p, s.sorted[idx]? = some p :=
      ⟨s.sorted[idx], List.getElem?_eq_getElem (by omega)⟩
    obtain ⟨r0, _, _, r3, _, _⟩ := h.per idx p hget
    obtain ⟨r4, _, _⟩ := r3 hidxq
    obtain ⟨m, hm, h1, h2, h3, h4⟩ := rrEnqueue_at (s.time + min p.remaining quantum)
      (s.sorted.set idx { p with remaining := p.remaining - min p.remaining quantum }) s.i qrest
    simp only [List.length_set] at hm
    have hm' : s.i + m ≤ s.sorted.length := by omega
    have hin : ∀ (k : Nat) (r : Process), s.i ≤ k → k < s.i + m → s.sorted[k]? = some r →
        r.at_ ≤ s.time + min p.remaining quantum := by
      intro k r hk1 hk2 hk
      refine h3 k r hk1 hk2 ?_
      rw [List.getElem?_set_ne (by omega)]
      exact hk
    have hstop : ∀ r : Process, s.sorted[s.i + m]? = some r →
        s.time + min p.remaining quantum < r.at_ := by
      intro r hk
      refine h4 r ?_
      rw [List.getElem?_set_ne (by omega)]
      exact hk
    by_cases hpos : 0 < p.remaining - min p.remaining quantum
    · have hstep : rrStepZ quantum s =
          { sorted := s.sorted.set idx { p with remaining := p.remaining - min p.remaining quantum },
            gantt := s.gantt ++ [⟨p.pid, s.time, s.time + min p.remaining quantum⟩],
            q := qrest ++ List.range' s.i m ++ [idx],
            time := s.time + min p.remaining quantum, i := s.i + m, finished := s.finished } := by
        simp only [rrStepZ, hq, List.getD_eq_getElem?_getD, hget, Option.getD_some, gt_iff_lt,
          hpos, if_true, h1, h2]
      refine ⟨idx, qrest, p, { p with remaining := p.remaining - min p.remaining quantum }, m, ?_⟩
      rw [hstep]
      exact ⟨hq, hget, r4, rfl, rfl, hm', rfl, rfl, rfl, rfl, hin, hstop,
        Or.inl ⟨hpos, rfl, rfl⟩⟩
    · have hzero : p.remaining - min p.remaining quantum = 0 := by
        have := min_le_left p.remaining quantum
        omega
      have hstep : rrStepZ quantum s =
          { sorted := s.sorted.set idx
              { p with remaining := p.remaining - min p.remaining quantum,
                       ct := s.time + min p.remaining quantum,
                       tat := s.time + min p.remaining quantum - p.at_,
                       wt := s.time + min p.remaining quantum - p.at_ - p.bt },
            gantt := s.gantt ++ [⟨p.pid, s.time, s.time + min p.remaining quantum⟩],
            q := qrest ++ List.range' s.i m,
            time := s.time + min p.remaining quantum, i := s.i + m,
            finished := s.finished + 1 } := by
        simp only [rrStepZ, hq, List.getD_eq_getElem?_getD, hget, Option.getD_some, gt_iff_lt,
          hpos, if_false, h1, h2, List.set_set]
      refine ⟨idx, qrest, p,
        { p with remaining := p.remaining - min p.remaining quantum,
                 ct := s.time + min p.remaining quantum,
                 tat := s.time + min p.remaining quantum - p.at_,
                 wt := s.time + min p.remaining quantum - p.at_ - p.bt }, m, ?_⟩
      rw [hstep]
      exact ⟨hq, hget, r4, rfl, rfl, hm', rfl, rfl, rfl, rfl, hin, hstop,
        Or.inr ⟨hzero, rfl, rfl, rfl, rfl, rfl⟩⟩

/-- The state before the main loop of `simulate_rr`: the state `s0` after the
first enqueue loop, or the idle jump from it when nothing has arrived at 0. -/
theorem rrInit_desc (procs : List Process) (hv : ValidInput procs) (quantum : Int) :
    ∃ m, RrInv (rrSorted procs) quantum
        { sorted := rrSorted procs, gantt := [], q := List.range' 0 m, time := 0, i := 0 + m,
          finished := 0 } ∧
      ((1 ≤ m ∧ rrInit procs =
          { sorted := rrSorted procs, gantt := [], q := List.range' 0 m, time := 0, i := 0 + m,
            finished := 0 }) ∨
       (m = 0 ∧ ∃ a m', RrJump
          { sorted := rrSorted procs, gantt := [], q := List.range' 0 m, time := 0, i := 0 + m,
            finished := 0 } (rrInit procs) a m')) := by
  have hs : StaticOk (rrSorted procs) := staticOk_of_valid (rrSorted_keys procs) hv
  have hlen : (rrSorted procs).length = procs.length := by
    simpa using (rrSorted_keys procs).length_eq
  have hpos : 0 < (rrSorted procs).length := by
    rw [hlen]; exact List.length_pos.2 hv.1
  have hcore : RrCore (rrSorted procs) quantum
      { sorted := rrSorted procs, gantt := [], q := [], time := 0, i := 0, finished := 0 } := by
    refine ⟨rfl, Timeline.nil, Nat.zero_le _, List.nodup_nil, ?_, rfl, ?_, ?_⟩
    · intro k hk
      cases hk
    · intro k p hget
      have hp : p ∈ rrSorted procs := List.mem_iff_getElem?.2 ⟨k, hget⟩
      have hrem : p.remaining = p.bt := by
        simp only [rrSorted, List.mem_map] at hp
        obtain ⟨a, _, rfl⟩ := hp
        rfl
      have := hs.2 p hp
      refine ⟨by omega, ?_, ?_, ?_, fun _ => hrem, ?_⟩
      · simp [segTime, hrem]
      · simp [segCount, hrem]
      · intro hk
        cases hk
      · intro hk
        exact absurd hk (Nat.not_lt_zero _)
    · intro seg hseg
      cases hseg
  obtain ⟨m, hm, h1, h2, h3, h4⟩ := rrEnqueue_at 0 (rrSorted procs) 0 []
  rw [List.drop_zero] at h1 h2
  have h0 := rr_jump hs hcore rfl Timeline.nil (le_refl _) (fun pid _ => ⟨rfl, rfl⟩)
    (fun seg hseg => Or.inl hseg) (by simpa using hm) h3 h4
  have hstep : rrInit procs =
      if (List.range' 0 m).isEmpty && decide (0 + m < (rrSorted procs).length) then
        rrIdle { sorted := rrSorted procs, gantt := [], q := List.range' 0 m, time := 0,
                 i := 0 + m, finished := 0 }
      else
        { sorted := rrSorted procs, gantt := [], q := List.range' 0 m, time := 0,
          i := 0 + m, finished := 0 } := by
    simp only [rrInit, h1, h2, List.nil_append]
  refine ⟨m, h0, ?_⟩
  rw [hstep]
  cases m with
  | zero =>
    right
    refine ⟨rfl, ?_⟩
    have hcond : ((List.range' 0 0).isEmpty && decide (0 + 0 < (rrSorted procs).length)) = true := by
      simp [hpos]
    rw [if_pos hcond]
    exact rrIdle_desc h0 rfl (by simpa using hpos)
  | succ m =>
    left
    refine ⟨by omega, ?_⟩
    simp [List.range'_succ]

/-! ## Round Robin: idle segments, slices and last segments -/

theorem lastEnd_snoc (pid : Int) (g : List Segment) (s : Segment) :
    lastEnd pid (g ++ [s]) = if s.pid = pid then some s.end_ else lastEnd pid g := by
  unfold lastEnd
  by_cases h : s.pid = pid <;> simp [List.filter_append, List.filter_cons, h]

theorem rrExt_jump {l0 : List Process} {quantum : Int} (hs : StaticOk l0)
    (hsorted : l0.Pairwise (fun a b => a.at_ ≤ b.at_)) {s s' : RrState}
    (h : RrInv l0 quantum s) (he : RrExt l0 s) {a : Process} {m : Nat}
    (hj : RrJump s s' a m) : RrExt l0 s' := by
  have hfin := h.fin
  rw [hj.hq] at hfin
  simp only [List.length_nil, add_zero] at hfin
  refine ⟨?_, ?_, ?_, ?_, ?_, ?_, ?_⟩
  · rw [hj.gantt]
    refine idleChain_snoc he.idle_chain _ ?_
    intro x hx hx0
    exact absurd hj.hq (he.idle_last x hx hx0)
  · intro seg _ _
    rw [hj.q]
    have := hj.m_pos
    cases m with
    | zero => omega
    | succ m => simp [List.range'_succ]
  · rw [hj.gantt, hj.sorted, nonIdleCount_snoc]
    simpa using he.count
  · intro k p hk hlt
    rw [hj.sorted] at hk
    rw [hj.i] at hlt
    rw [hj.time]
    by_cases hki : k < s.i
    · have := he.arrived k p hk hki
      have := hj.lt
      omega
    · exact hj.hin k p (by omega) hlt hk
  · intro seg hseg hne k p hk hpid
    rw [hj.gantt] at hseg
    rw [hj.sorted] at hk
    rw [hj.i]
    rcases List.mem_append.1 hseg with hseg | hseg
    · have := he.started seg hseg hne k p hk hpid
      omega
    · simp only [List.mem_singleton] at hseg
      subst hseg
      exact absurd rfl hne
  · intro k p hk hlt hnot
    rw [hj.sorted] at hk
    rw [hj.i] at hlt
    rw [hj.q, List.mem_range'_1] at hnot
    have hp := keys_static h.keys hs hk
    have hki : k < s.i := by
      by_contra hge
      exact hnot ⟨by omega, hlt⟩
    rw [hj.gantt, lastEnd_snoc]
    have hne : ¬ (0 : Int) = p.pid := by omega
    simp only [hne, if_false]
    exact he.last_end k p hk hki (by rw [hj.hq]; simp)
  · intro seg hseg h0 k r hk
    rw [hj.gantt] at hseg
    rw [hj.sorted] at hk
    rcases List.mem_append.1 hseg with hseg | hseg
    · exact he.idle_wc seg hseg h0 k r hk
    · simp only [List.mem_singleton] at hseg
      subst hseg
      by_cases hki : k < s.i
      · obtain ⟨c1, _, c3, _⟩ := (h.per k r hk).2.2.2.2.2 hki (by rw [hj.hq]; simp)
        exact Or.inl ⟨c1, c3⟩
      · exact Or.inr (pairwise_at_of_keys h.keys hsorted hj.hget hk (by omega))

theorem rrExt_run {l0 : List Process} {quantum : Int} (hs : StaticOk l0) (hq1 : 1 ≤ quantum)
    {s s' : RrState} (h : RrInv l0 quantum s) (he : RrExt l0 s) {idx : Nat}
    {qrest : List Nat} {p p' : Process} {m : Nat}
    (hr : RrRun quantum s s' idx qrest p p' m) : RrExt l0 s' := by
  have hidxq : idx ∈ s.q := by rw [hr.hq]; simp
  have hidx_lt := h.q_lt idx hidxq
  have hnd := h.q_nodup
  rw [hr.hq, List.nodup_cons] at hnd
  have hp := keys_static h.keys hs hr.hget
  have hpid0 : p.pid ≠ 0 := by omega
  have hex1 : 1 ≤ min p.remaining quantum := le_min (by have := hr.pos; omega) hq1
  obtain ⟨hlen, _⟩ := List.getElem?_eq_some_iff.1 hr.hget
  have hkey := hr.key
  simp only [Process.key, Prod.mk.injEq] at hkey
  obtain ⟨k1, k2, k3⟩ := hkey
  have hset : ∀ (k : Nat) (r : Process), (s.sorted.set idx p')[k]? = some r →
      (k = idx ∧ r = p') ∨ (k ≠ idx ∧ s.sorted[k]? = some r) := by
    intro k r hk
    rw [List.getElem?_set] at hk
    by_cases hik : idx = k
    · subst hik
      simp only [hlen, if_true, Option.some.injEq] at hk
      exact Or.inl ⟨rfl, hk.symm⟩
    · simp only [hik, if_false] at hk
      exact Or.inr ⟨fun he => hik he.symm, hk⟩
  have hmem : ∀ k, k ∈ qrest ∨ (s.i ≤ k ∧ k < s.i + m) → k ∈ s'.q := by
    intro k hk
    rcases hr.cases with ⟨_, c2, _⟩ | ⟨_, c2, _⟩
    · rw [c2]
      simp only [List.mem_append, List.mem_range'_1, List.mem_singleton]
      exact Or.inl hk
    · rw [c2]
      simp only [List.mem_append, List.mem_range'_1]
      exact hk
  refine ⟨?_, ?_, ?_, ?_, ?_, ?_, ?_⟩
  · rw [hr.gantt]
    exact idleChain_snoc he.idle_chain _ (fun _ _ _ => hpid0)
  · intro seg hseg h0
    rw [hr.gantt, getLast?_snoc] at hseg
    simp only [Option.some.injEq] at hseg
    subst hseg
    exact absurd h0 hpid0
  · rw [hr.gantt, hr.sorted, nonIdleCount_snoc, sum_remaining_set p' hr.hget, hr.rem]
    have := he.count
    simp only [hpid0, if_false]
    push_cast
    omega
  · intro k r hk hlt
    rw [hr.sorted] at hk
    rw [hr.i] at hlt
    rw [hr.time]
    rcases hset k r hk with ⟨rfl, rfl⟩ | ⟨_, hk⟩
    · have := he.arrived k p hr.hget hidx_lt
      omega
    · by_cases hki : k < s.i
      · have := he.arrived k r hk hki
        omega
      · exact hr.hin k r (by omega) hlt hk
  · intro seg hseg hne k r hk hpid
    rw [hr.gantt] at hseg
    rw [hr.sorted] at hk
    rw [hr.i]
    rcases hset k r hk with ⟨rfl, rfl⟩ | ⟨hki, hk⟩
    · omega
    · rcases List.mem_append.1 hseg with hseg | hseg
      · have := he.started seg hseg hne k r hk hpid
        omega
      · simp only [List.mem_singleton] at hseg
        subst hseg
        exact absurd (keys_pid_inj h.keys hs hk hr.hget hpid) hki
  · intro k r hk hlt hnot
    rw [hr.sorted] at hk
    rw [hr.i] at hlt
    rw [hr.gantt, lastEnd_snoc]
    rcases hset k r hk with ⟨rfl, rfl⟩ | ⟨hki, hk⟩
    · rcases hr.cases with ⟨_, c2, _⟩ | ⟨_, _, _, c4, _⟩
      · exfalso
        apply hnot
        rw [c2]
        simp
      · simp only [k1, if_true, c4]
    · have hne : ¬ p.pid = r.pid := fun he' => hki (keys_pid_inj h.keys hs hk hr.hget he'.symm)
      simp only [hne, if_false]
      have hnq : k ∉ qrest := fun hk' => hnot (hmem k (Or.inl hk'))
      have hnr : ¬ (s.i ≤ k ∧ k < s.i + m) := fun hk' => hnot (hmem k (Or.inr hk'))
      exact he.last_end k r hk (by omega) (by rw [hr.hq]; simp [hki, hnq])
  · intro seg hseg h0 k r hk
    rw [hr.gantt] at hseg
    rw [hr.sorted] at hk
    rcases List.mem_append.1 hseg with hold | hnew
    · rcases hset k r hk with ⟨rfl, rfl⟩ | ⟨_, hk⟩
      · rcases he.idle_wc seg hold h0 k p hr.hget with ⟨c1, _⟩ | c
        · have := hr.pos
          omega
        · exact Or.inr (by omega)
      · exact he.idle_wc seg hold h0 k r hk
    · simp only [List.mem_singleton] at hnew
      subst hnew
      exact absurd h0 hpid0

/-! ## Indexing a chart with one more segment -/

theorem getElem?_snoc_cases {g : List Segment} {x c : Segment} {k : Nat}
    (h : (g ++ [x])[k]? = some c) :
    (k < g.length ∧ g[k]? = some c) ∨ (k = g.length ∧ c = x) := by
  by_cases hk : k < g.length
  · rw [List.getElem?_append_left hk] at h
    exact Or.inl ⟨hk, h⟩
  · rw [List.getElem?_append_right (by omega)] at h
    have hlt : k - g.length < 1 := by
      by_contra hge
      rw [List.getElem?_eq_none (by simp; omega)] at h
      cases h
    have h0 : k - g.length = 0 := by omega
    rw [h0] at h
    simp only [List.getElem?_cons_zero, Option.some.injEq] at h
    exact Or.inr ⟨by omega, h.symm⟩

theorem getElem?_snoc_old {g : List Segment} (x : Segment) {c : Segment} {k : Nat}
    (h : g[k]? = some c) : (g ++ [x])[k]? = some c := by
  obtain ⟨hlt, _⟩ := List.getElem?_eq_some_iff.1 h
  rw [List.getElem?_append_left hlt]
  exact h

/-! ## Round Robin: all invariants along the run -/

theorem rrSorted_at (procs : List Process) :
    (rrSorted procs).Pairwise (fun a b => a.at_ ≤ b.at_) := by
  unfold rrSorted
  rw [List.pairwise_map]
  exact sortProcs_fcfs_at procs

theorem rrSorted_length (procs : List Process) : (rrSorted procs).length = procs.length := by
  simpa using (rrSorted_keys procs).length_eq

theorem rrSorted_remaining (procs : List Process) :
    (rrSorted procs).map Process.remaining = (rrSorted procs).map Process.bt := by
  unfold rrSorted
  simp [List.map_map, Function.comp]

theorem rrInit_all (procs : List Process) (hv : ValidInput procs) (quantum : Int) :
    RrInv (rrSorted procs) quantum (rrInit procs) ∧ RrExt (rrSorted procs) (rrInit procs) := by
  have hs : StaticOk (rrSorted procs) := staticOk_of_valid (rrSorted_keys procs) hv
  obtain ⟨m, h0, hcase⟩ := rrInit_desc procs hv quantum
  have he0 : RrExt (rrSorted procs)
      { sorted := rrSorted procs, gantt := [], q := List.range' 0 m, time := 0, i := 0 + m,
        finished := 0 } := by
    refine ⟨List.chain'_nil, ?_, ?_, ?_, ?_, ?_, ?_⟩
    · intro seg hseg
      simp at hseg
    · show ((nonIdleCount [] : Nat) : Int) + ((rrSorted procs).map Process.remaining).sum ≤ _
      rw [rrSorted_remaining]
      simp [nonIdleCount]
    · intro k p hk hlt
      have hlt' : k < 0 + m := hlt
      exact ((h0.per k p hk).2.2.2.1 (by
        show k ∈ List.range' 0 m
        rw [List.mem_range'_1]
        omega)).2.1
    · intro seg hseg
      cases hseg
    · intro k p _ hlt hnot
      exfalso
      apply hnot
      show k ∈ List.range' 0 m
      have hlt' : k < 0 + m := hlt
      rw [List.mem_range'_1]
      omega
    · intro seg hseg
      cases hseg
  refine ⟨rrInit_inv procs hv quantum, ?_⟩
  rcases hcase with ⟨_, hE⟩ | ⟨_, a, m', hj⟩
  · rw [hE]
    exact he0
  · exact rrExt_jump hs (rrSorted_at procs) h0 he0 hj

theorem rrStepZ_all {procs : List Process} (hv : ValidInput procs) {quantum : Int}
    (hq1 : 1 ≤ quantum) (s : RrState)
    (h : RrInv (rrSorted procs) quantum s ∧ RrExt (rrSorted procs) s)
    (hc : s.finished < procs.length) :
    RrInv (rrSorted procs) quantum (rrStepZ quantum s) ∧
      RrExt (rrSorted procs) (rrStepZ quantum s) := by
  have hs : StaticOk (rrSorted procs) := staticOk_of_valid (rrSorted_keys procs) hv
  have hc' : s.finished < s.sorted.length := by
    rw [keys_length h.1.keys, rrSorted_length]; exact hc
  refine ⟨(rrStepZ_ok hs hq1 s h.1 hc').1, ?_⟩
  rcases rrStepZ_desc s h.1 hc' with ⟨a, m, hj⟩ | ⟨idx, qrest, p, p', m, hr⟩
  · exact rrExt_jump hs (rrSorted_at procs) h.1 h.2 hj
  · exact rrExt_run hs hq1 h.1 h.2 hr

theorem rr_outcome2 {procs : List Process} {quantum : Int} {s : RrState}
    (hinv : RrInv (rrSorted procs) quantum s) (hext : RrExt (rrSorted procs) s)
    (hq : s.q = []) (hi : s.i = s.sorted.length) : Outcome2 s.sorted s.gantt := by
  refine ⟨idleFollowed_of_chain hext.idle_chain ?_, ?_, ?_, ?_, ?_⟩
  · intro a ha h0
    exact hext.idle_last a ha h0 hq
  · intro p hp
    obtain ⟨k, hk⟩ := List.mem_iff_getElem?.1 hp
    exact (rr_final hinv hq hi hk).2.2.2.1
  · intro p hp
    obtain ⟨k, hk⟩ := List.mem_iff_getElem?.1 hp
    obtain ⟨hlt, _⟩ := List.getElem?_eq_some_iff.1 hk
    exact hext.last_end k p hk (by omega) (by rw [hq]; simp)
  · intro seg hseg p hp
    obtain ⟨k, hk⟩ := List.mem_iff_getElem?.1 hp
    rw [timeline_last hinv.timeline hseg]
    exact (rr_final hinv hq hi hk).2.2.1
  · intro seg hseg h0 p hp
    obtain ⟨k, hk⟩ := List.mem_iff_getElem?.1 hp
    rcases hext.idle_wc seg hseg h0 k p hk with ⟨_, h⟩ | h
    · exact Or.inl h
    · exact Or.inr h

/-! ## From a finished run to the properties about idle time and completion -/

theorem out2_nonneg {procs final : List Process} {gantt : List Segment}
    (hv : ValidInput procs) (h : Outcome procs final gantt) (h2 : Outcome2 final gantt) :
    ∀ p ∈ orderByPid final, 0 ≤ p.tat ∧ 0 ≤ p.wt ∧ p.at_ + p.bt ≤ p.ct := by
  intro p hp
  have hp' := (outcome_mem hv h p).1 hp
  obtain ⟨m1, m2⟩ := h.metrics p hp'
  have hc := h2.causal p hp'
  obtain ⟨p0, hp0, _, e2, e3⟩ := keys_perm_mem h.keys hp'
  have := hv.2.2 p0 hp0
  exact ⟨by omega, by omega, hc⟩

theorem out2_last {procs final : List Process} {gantt : List Segment}
    (hv : ValidInput procs) (h : Outcome procs final gantt) (h2 : Outcome2 final gantt) :
    (∀ p ∈ orderByPid final, lastEnd p.pid gantt = some p.ct) ∧
      ∃ last, gantt.getLast? = some last ∧ (∀ p ∈ orderByPid final, p.ct ≤ last.end_) ∧
        ∃ p ∈ orderByPid final, p.ct = last.end_ := by
  refine ⟨fun p hp => h2.lastEnd p ((outcome_mem hv h p).1 hp), ?_⟩
  obtain ⟨⟨hd, hhd, _⟩, _, _⟩ := h.contiguous
  have hne : gantt ≠ [] := by
    intro hnil
    rw [hnil] at hhd
    simp at hhd
  obtain ⟨last, hlast⟩ : ∃ last, gantt.getLast? = some last :=
    ⟨gantt.getLast hne, List.getLast?_eq_getLast _ hne⟩
  refine ⟨last, hlast, fun p hp => h2.ct_le last hlast p ((outcome_mem hv h p).1 hp), ?_⟩
  have hnz := idleFollowed_last h2.idle hlast
  have hmem : last ∈ gantt := by
    rw [List.getLast?_eq_getElem?] at hlast
    exact List.mem_iff_getElem?.2 ⟨_, hlast⟩
  obtain ⟨p, hp, hpid, _⟩ := h.arrived last hmem hnz
  refine ⟨p, (outcome_mem hv h p).2 hp, ?_⟩
  have e1 := h2.lastEnd p hp
  have e2 := lastEnd_of_getLast hlast
  rw [hpid, e2] at e1
  simpa using e1.symm

theorem out2_work {procs final : List Process} {gantt : List Segment}
    (hv : ValidInput procs) (h : Outcome procs final gantt) (h2 : Outcome2 final gantt) :
    ∀ seg ∈ gantt, seg.pid = 0 → ∀ p ∈ orderByPid final,
      p.ct ≤ seg.start ∨ seg.end_ ≤ p.at_ :=
  fun seg hseg h0 p hp => h2.work seg hseg h0 p ((outcome_mem hv h p).1 hp)

/-! ## Round Robin: the work that remains -/

theorem rrSorted_bt_sum (procs : List Process) :
    ((rrSorted procs).map Process.bt).sum = (procs.map Process.bt).sum := by
  have h := ((rrSorted_keys procs).map (fun k : Int × Int × Int => k.2.2)).sum_eq
  simpa [List.map_map, Function.comp, Process.key] using h

/-! ## One segment per process -/

theorem single_seg_length {pid bt : Int} {g : List Segment} (h : segCount pid g = 1)
    (ht : segTime pid g = bt) :
    (∃ seg ∈ g, seg.pid = pid ∧ seg.end_ - seg.start = bt) ∧
      ∀ seg ∈ g, seg.pid = pid → seg.end_ - seg.start = bt := by
  unfold segCount at h
  unfold segTime at ht
  obtain ⟨x, hx⟩ := List.length_eq_one.1 h
  rw [hx] at ht
  simp only [List.map_cons, List.map_nil, List.sum_cons, List.sum_nil, add_zero] at ht
  have hmem : x ∈ g.filter (fun s => decide (s.pid = pid)) := by rw [hx]; simp
  rw [List.mem_filter] at hmem
  refine ⟨⟨x, hmem.1, by simpa using hmem.2, ht⟩, ?_⟩
  intro seg hseg hpid
  have hm : seg ∈ g.filter (fun s => decide (s.pid = pid)) := by
    rw [List.mem_filter]
    exact ⟨hseg, by simpa using hpid⟩
  rw [hx, List.mem_singleton] at hm
  rw [hm]
  exact ht

theorem nonpreemptive_of {procs final : List Process} {gantt : List Segment}
    (h : Outcome procs final gantt) (hcount : ∀ p ∈ procs, segCount p.pid gantt = 1)
    (hc : gantt.Chain' (fun a b => a.pid = 0 → b.pid ≠ 0))
    (hl : ∀ a, gantt.getLast? = some a → a.pid ≠ 0)
    (hn : nonIdleCount gantt = procs.length) :
    (∀ p ∈ procs, segCount p.pid gantt = 1 ∧
        (∃ seg ∈ gantt, seg.pid = p.pid ∧ seg.end_ - seg.start = p.bt) ∧
        ∀ seg ∈ gantt, seg.pid = p.pid → seg.end_ - seg.start = p.bt) ∧
      nonIdleCount gantt = procs.length ∧ segCount 0 gantt ≤ procs.length := by
  refine ⟨?_, hn, ?_⟩
  · intro p hp
    have h1 := hcount p hp
    exact ⟨h1, single_seg_length h1 (outcome_segTime h p hp)⟩
  · have := (idle_le_nonIdle gantt hc hl).1
    omega

theorem fcfs_nonpreemptive (procs : List Process) (hv : ValidInput procs) :
    (∀ p ∈ procs, segCount p.pid (fcfsLoopZ (sortProcs fcfsLess procs) 0 []).2 = 1 ∧
        (∃ seg ∈ (fcfsLoopZ (sortProcs fcfsLess procs) 0 []).2, seg.pid = p.pid ∧ seg.end_ - seg.start = p.bt) ∧
        ∀ seg ∈ (fcfsLoopZ (sortProcs fcfsLess procs) 0 []).2, seg.pid = p.pid → seg.end_ - seg.start = p.bt) ∧
      nonIdleCount (fcfsLoopZ (sortProcs fcfsLess procs) 0 []).2 = procs.length ∧ segCount 0 (fcfsLoopZ (sortProcs fcfsLess procs) 0 []).2 ≤ procs.length := by
  have hperm := sortProcs_perm fcfsLess procs
  have hs : StaticOk (sortProcs fcfsLess procs) := staticOk_of_valid (hperm.map _) hv
  have hnz : ∀ p ∈ sortProcs fcfsLess procs, p.pid ≠ 0 := fun p hp => by
    have := hs.1.range hp
    omega
  obtain ⟨hc, hl, hn⟩ := fcfsLoopZ_idle (sortProcs fcfsLess procs) 0 [] hnz
    List.chain'_nil (fun a ha => by simp at ha)
  have hst := (fcfsLoopZ_segTime (sortProcs fcfsLess procs) 0 [] hs.1.nodup hnz).1
  refine nonpreemptive_of (fcfs_outcome procs hv) ?_ hc hl ?_
  · intro p hp
    have := (hst p (hperm.symm.subset hp)).2
    simpa [segCount] using this
  · rw [hn, hperm.length_eq]
    simp [nonIdleCount]

theorem sjf_nonpreemptive {procs sorted : List Process} {s : SjfState}
    (hinv : SjfInv (sjfInit sorted).procs s) (hext : SjfExt s)
    (hdone : ∀ p ∈ s.procs, p.done = true) (hn : s.completed = procs.length)
    (hout : Outcome procs s.procs s.gantt) :
    (∀ p ∈ procs, segCount p.pid s.gantt = 1 ∧
        (∃ seg ∈ s.gantt, seg.pid = p.pid ∧ seg.end_ - seg.start = p.bt) ∧
        ∀ seg ∈ s.gantt, seg.pid = p.pid → seg.end_ - seg.start = p.bt) ∧
      nonIdleCount s.gantt = procs.length ∧ segCount 0 s.gantt ≤ procs.length := by
  refine nonpreemptive_of hout ?_ hext.idle_chain ?_ (by rw [hext.count, hn])
  · intro p hp
    obtain ⟨p2, hp2, e1, _, _⟩ := outcome_of_input hout hp
    obtain ⟨k, hk⟩ := List.mem_iff_getElem?.1 hp2
    have := (hinv.doneP k p2 hk (hdone p2 hp2)).2.2.1
    rw [← e1]
    exact this
  · intro a ha h0
    have := (hext.idle_last a ha h0).1
    have hlen : s.procs.length = procs.length := by simpa using hout.keys.length_eq
    omega

/-! ## Round Robin with a quantum that cuts no slice -/

theorem fcfs_absorb (p : Process) (rest : List Process) (t : Int) (g : List Segment)
    (h : t < p.at_) :
    fcfsLoopZ (p :: rest) t g = fcfsLoopZ (p :: rest) p.at_ (g ++ [⟨0, t, p.at_⟩]) := by
  simp [fcfsLoopZ, h]

theorem fcfs_head (p : Process) (rest : List Process) (t : Int) (g : List Segment)
    (h : p.at_ ≤ t) :
    fcfsLoopZ (p :: rest) t g =
      ({ p with ct := t + p.bt, tat := t + p.bt - p.at_, wt := t + p.bt - p.at_ - p.bt } ::
          (fcfsLoopZ rest (t + p.bt) (g ++ [⟨p.pid, t, t + p.bt⟩])).1,
        (fcfsLoopZ rest (t + p.bt) (g ++ [⟨p.pid, t, t + p.bt⟩])).2) := by
  simp [fcfsLoopZ, not_lt.2 h]

theorem take_succ_set (l : List Process) (x : Process) :
    ∀ (j : Nat), j < l.length → (l.set j x).take (j + 1) = l.take j ++ [x] := by
  induction l with
  | nil => intro j hj; simp at hj
  | cons a rest ih =>
    intro j hj
    cases j with
    | zero => simp
    | succ j =>
      simp only [List.length_cons, Nat.add_lt_add_iff_right] at hj
      simp [List.set_cons_succ, List.take_succ_cons, ih j hj]

theorem fcfsLoopZ_remaining (l : List Process) :
    ∀ (t : Int) (g : List Segment),
      (fcfsLoopZ (l.map (fun p => { p with remaining := p.bt })) t g).2 = (fcfsLoopZ l t g).2 ∧
      (fcfsLoopZ (l.map (fun p => { p with remaining := p.bt })) t g).1.map Process.columns =
        (fcfsLoopZ l t g).1.map Process.columns := by
  induction l with
  | nil => intro t g; exact ⟨rfl, rfl⟩
  | cons p rest ih =>
    intro t g
    simp only [List.map_cons, fcfsLoopZ]
    exact ⟨(ih _ _).1, by rw [(ih _ _).2]; rfl⟩

theorem orderByPid_length {l : List Process} (h : PidsOk l) :
    (orderByPid l).length = l.length := by
  simpa [pidList] using congrArg List.length (orderByPid_pids h)

theorem orderByPid_columns {l1 l2 : List Process} (h1 : PidsOk l1) (h2 : PidsOk l2)
    (h : l1.map Process.columns = l2.map Process.columns) :
    (orderByPid l1).map Process.columns = (orderByPid l2).map Process.columns := by
  have hlen : l1.length = l2.length := by simpa using congrArg List.length h
  apply List.ext_getElem?
  intro t
  by_cases ht : t < l1.length
  · obtain ⟨r1, hr1, hp1⟩ := h1.exists (x := (t : Int) + 1) (by omega) (by omega)
    obtain ⟨k, hk⟩ := List.mem_iff_getElem?.1 hr1
    have hk2 : (l2.map Process.columns)[k]? = some r1.columns := by
      rw [← h]; simp [hk]
    rw [List.getElem?_map] at hk2
    cases h2k : l2[k]? with
    | none => simp [h2k] at hk2
    | some r2 =>
      simp only [h2k, Option.map_some', Option.some.injEq] at hk2
      have hp2 : r2.pid = (t : Int) + 1 := by
        have := congrArg Prod.fst hk2
        simp only [Process.columns] at this
        omega
      have e1 := orderByPid_eq h1 t ht r1 hr1 hp1
      have e2 := orderByPid_eq h2 t (by omega) r2 (List.mem_iff_getElem?.2 ⟨k, h2k⟩) hp2
      rw [List.get?_eq_getElem?] at e1 e2
      simp [e1, e2, hk2]
  · have e1 : (orderByPid l1)[t]? = none :=
      List.getElem?_eq_none (by rw [orderByPid_length h1]; omega)
    have e2 : (orderByPid l2)[t]? = none :=
      List.getElem?_eq_none (by rw [orderByPid_length h2]; omega)
    simp [e1, e2]

theorem rrFcfs_jump {l0 : List Process} {quantum : Int} {s s' : RrState}
    (h : RrCore l0 quantum s) (hf : RrFcfs l0 s) {a : Process} {m : Nat}
    (hj : RrJump s s' a m) : RrFcfs l0 s' := by
  have hfin := h.fin
  rw [hj.hq] at hfin
  simp only [List.length_nil, add_zero] at hfin
  have hget0 : l0[s.finished]? = some a := by
    rw [← hf.rest _ (le_refl _), hfin]
    exact hj.hget
  obtain ⟨hlt0, ha0⟩ := List.getElem?_eq_some_iff.1 hget0
  have hdrop : l0.drop s.finished = a :: l0.drop (s.finished + 1) := by
    rw [List.drop_eq_getElem_cons hlt0, ha0]
  have habs := fcfs_absorb a (l0.drop (s.finished + 1)) s.time s.gantt hj.lt
  refine ⟨?_, ?_, ?_, ?_⟩
  · rw [hj.q, hj.finished, hj.i, ← hfin]
    congr 1
    omega
  · intro k hk
    rw [hj.finished] at hk
    rw [hj.sorted]
    exact hf.rest k hk
  · rw [hj.finished, hj.time, hj.gantt, hdrop, ← habs, ← hdrop]
    exact hf.chart
  · rw [hj.finished, hj.time, hj.gantt, hj.sorted, hdrop, ← habs, ← hdrop]
    exact hf.table

theorem rrFcfs_run {l0 : List Process} {quantum : Int}
    (hbt : ∀ p ∈ l0, p.remaining = p.bt ∧ p.bt ≤ quantum)
    {s s' : RrState} (h : RrCore l0 quantum s) (hf : RrFcfs l0 s) {idx : Nat}
    {qrest : List Nat} {x x' : Process} {m : Nat}
    (hr : RrRun quantum s s' idx qrest x x' m) : RrFcfs l0 s' := by
  have hfin := h.fin
  have hq := hf.q
  rw [hr.hq] at hq hfin
  simp only [List.length_cons] at hfin
  obtain ⟨d, hd⟩ : ∃ d, s.i - s.finished = d + 1 := ⟨s.i - s.finished - 1, by omega⟩
  rw [hd, List.range'_succ] at hq
  obtain ⟨hidx, hqrest⟩ := List.cons.inj hq
  have hgetx : s.sorted[s.finished]? = some x := by rw [← hidx]; exact hr.hget
  have hget0 : l0[s.finished]? = some x := by
    rw [← hf.rest _ (le_refl _)]
    exact hgetx
  obtain ⟨hlt0, hx0⟩ := List.getElem?_eq_some_iff.1 hget0
  obtain ⟨hlen, _⟩ := List.getElem?_eq_some_iff.1 hgetx
  obtain ⟨hrem, hle⟩ := hbt x (List.mem_iff_getElem?.2 ⟨_, hget0⟩)
  have hmin : min x.remaining quantum = x.bt := by
    rw [hrem]
    exact min_eq_left hle
  have hat : x.at_ ≤ s.time :=
    ((h.per idx x hr.hget).2.2.2.1 (by rw [hr.hq]; simp)).2.1
  have hrem2 : x'.remaining = 0 := by
    rw [hr.rem, hmin, hrem]
    exact sub_self _
  have hdrop : l0.drop s.finished = x :: l0.drop (s.finished + 1) := by
    rw [List.drop_eq_getElem_cons hlt0, hx0]
  have hhead := fcfs_head x (l0.drop (s.finished + 1)) s.time s.gantt hat
  rcases hr.cases with ⟨hpos, _, _⟩ | ⟨_, hq2, hfin2, hct, htat, hwt⟩
  · omega
  · have hkey := hr.key
    simp only [Process.key, Prod.mk.injEq] at hkey
    obtain ⟨k1, k2, k3⟩ := hkey
    rw [hmin] at hct
    have hcols : x'.columns =
        ({ x with ct := s.time + x.bt, tat := s.time + x.bt - x.at_,
                  wt := s.time + x.bt - x.at_ - x.bt } : Process).columns := by
      simp only [Process.columns, k1, k2, k3, hct, htat, hwt]
    have hchart := hf.chart
    have htable := hf.table
    rw [hdrop, hhead] at hchart htable
    refine ⟨?_, ?_, ?_, ?_⟩
    · rw [hq2, hfin2, hr.i, hqrest]
      have e1 : s.i = s.finished + 1 + d := by omega
      have e2 : s.i + m - (s.finished + 1) = d + m := by omega
      rw [e2]
      conv_lhs => rw [e1]
      rw [List.range'_append_1]
      congr 1
      omega
    · intro k hk
      rw [hfin2] at hk
      rw [hr.sorted, List.getElem?_set_ne (by omega)]
      exact hf.rest k (by omega)
    · rw [hfin2, hr.time, hr.gantt, hmin]
      exact hchart
    · rw [hfin2, hr.time, hr.gantt, hr.sorted, hmin, hidx, take_succ_set _ _ _ hlen,
        List.map_append, List.append_assoc]
      simp only [List.map_cons, List.map_nil, List.singleton_append, hcols]
      exact htable

theorem rrSorted_quantum {procs : List Process} {quantum : Int}
    (hq : ∀ p ∈ procs, p.bt ≤ quantum) :
    ∀ p ∈ rrSorted procs, p.remaining = p.bt ∧ p.bt ≤ quantum := by
  intro p hp
  obtain ⟨p0, hp0, _, _, e3⟩ := keys_perm_mem (rrSorted_keys procs) hp
  refine ⟨?_, by rw [← e3]; exact hq p0 hp0⟩
  simp only [rrSorted, List.mem_map] at hp
  obtain ⟨a, _, rfl⟩ := hp
  rfl

theorem rrInit_fcfs (procs : List Process) (hv : ValidInput procs) (quantum : Int) :
    RrFcfs (rrSorted procs) (rrInit procs) := by
  obtain ⟨m, h0, hcase⟩ := rrInit_desc procs hv quantum
  have hf0 : RrFcfs (rrSorted procs)
      { sorted := rrSorted procs, gantt := [], q := List.range' 0 m, time := 0, i := 0 + m,
        finished := 0 } := by
    refine ⟨?_, fun k _ => rfl, rfl, ?_⟩
    · show List.range' 0 m = List.range' 0 (0 + m - 0)
      congr 1
      omega
    · show ((rrSorted procs).take 0).map Process.columns ++ _ = _
      simp
  rcases hcase with ⟨_, hE⟩ | ⟨_, a, m2, hj⟩
  · rw [hE]
    exact hf0
  · exact rrFcfs_jump h0.1 hf0 hj

/-! ## Arithmetic of `int` -/

theorem wrap_of_range {x : Int} (h1 : -2147483648 ≤ x) (h2 : x ≤ 2147483647) : wrap x = x := by
  unfold wrap
  omega

theorem wrap_ge (x : Int) : -2147483648 ≤ wrap x := by
  unfold wrap
  omega

theorem wrap_le {x : Int} (h : -2147483648 ≤ x) : wrap x ≤ x := by
  unfold wrap
  omega

theorem sum_bt_nonneg {l : List Process} (h : ∀ p ∈ l, 0 ≤ p.at_ ∧ 0 < p.bt) :
    0 ≤ (l.map Process.bt).sum := by
  apply List.sum_nonneg
  intro x hx
  obtain ⟨p, hp, rfl⟩ := List.mem_map.1 hx
  exact le_of_lt (h p hp).2

theorem keys_bt_sum {l l0 : List Process}
    (h : (l.map Process.key).Perm (l0.map Process.key)) :
    (l.map Process.bt).sum = (l0.map Process.bt).sum := by
  have h1 := (h.map (fun k : Int × Int × Int => k.2.2)).sum_eq
  simpa [List.map_map, Function.comp, Process.key] using h1

theorem noOverflow_of_keys {l procs : List Process}
    (h : (l.map Process.key).Perm (procs.map Process.key)) (hb : NoOverflow procs) :
    NoOverflow l := by
  intro p hp
  obtain ⟨p0, hp0, _, h2, _⟩ := keys_perm_mem h hp
  have := hb p0 hp0
  rw [keys_bt_sum h]
  omega

theorem sentinelOk_of_noOverflow {l : List Process} (hs : ∀ p ∈ l, 0 ≤ p.at_ ∧ 0 < p.bt)
    (hb : NoOverflow l) : SentinelOk l := by
  intro p hp
  have h1 := hb p hp
  have h2 := hs p hp
  have h3 : p.bt ≤ (l.map Process.bt).sum :=
    List.single_le_sum (fun x hx => by
      obtain ⟨q, hq, rfl⟩ := List.mem_map.1 hx
      exact le_of_lt (hs q hq).2) _ (List.mem_map.2 ⟨p, hp, rfl⟩)
  have h4 := sum_bt_nonneg hs
  constructor <;> omega

/-! ## FCFS: the loop of the source and the loop without overflow -/

theorem fcfsLoop_eq_Z (l : List Process) :
    ∀ (t : Int) (g : List Segment), 0 ≤ t → (∀ p ∈ l, 0 ≤ p.at_ ∧ 0 < p.bt) →
      t + (l.map Process.bt).sum ≤ INT_MAX →
      (∀ p ∈ l, p.at_ + (l.map Process.bt).sum ≤ INT_MAX) →
      fcfsLoop l t g = fcfsLoopZ l t g := by
  induction l with
  | nil => intro t g _ _ _ _; rfl
  | cons p rest ih =>
    intro t g ht hs hb1 hb2
    have hp := hs p (List.mem_cons_self _ _)
    have hrest : ∀ q ∈ rest, 0 ≤ q.at_ ∧ 0 < q.bt :=
      fun q hq => hs q (List.mem_cons_of_mem _ hq)
    have hsum := sum_bt_nonneg hrest
    have hb2p := hb2 p (List.mem_cons_self _ _)
    simp only [List.map_cons, List.sum_cons, INT_MAX] at hb1 hb2 hb2p
    have hb3 : (if t < p.at_ then p.at_ else t) + p.bt + (rest.map Process.bt).sum ≤
        2147483647 := by
      split <;> omega
    have h0 : 0 ≤ (if t < p.at_ then p.at_ else t) := by split <;> omega
    have hat : p.at_ ≤ (if t < p.at_ then p.at_ else t) := by split <;> omega
    have e1 : wrap ((if t < p.at_ then p.at_ else t) + p.bt) =
        (if t < p.at_ then p.at_ else t) + p.bt := wrap_of_range (by omega) (by omega)
    have e2 : wrap ((if t < p.at_ then p.at_ else t) + p.bt - p.at_) =
        (if t < p.at_ then p.at_ else t) + p.bt - p.at_ := wrap_of_range (by omega) (by omega)
    have e3 : wrap ((if t < p.at_ then p.at_ else t) + p.bt - p.at_ - p.bt) =
        (if t < p.at_ then p.at_ else t) + p.bt - p.at_ - p.bt :=
      wrap_of_range (by omega) (by omega)
    have hih := ih ((if t < p.at_ then p.at_ else t) + p.bt)
      ((if t < p.at_ then g ++ [⟨0, t, p.at_⟩] else g) ++
        [⟨p.pid, if t < p.at_ then p.at_ else t, (if t < p.at_ then p.at_ else t) + p.bt⟩])
      (by omega) hrest (by simp only [INT_MAX]; omega)
      (fun q hq => by
        have := hb2 q (List.mem_cons_of_mem _ hq)
        simp only [INT_MAX]
        omega)
    simp only [fcfsLoop, fcfsLoopZ, e1, e2, e3, hih]

theorem fcfs_eq (procs : List Process) (hv : ValidInput procs) (hb : NoOverflow procs) :
    simulate_fcfs procs = ⟨orderByPid (fcfsLoopZ (sortProcs fcfsLess procs) 0 []).1,
      (fcfsLoopZ (sortProcs fcfsLess procs) 0 []).2⟩ := by
  have hperm := sortProcs_perm fcfsLess procs
  have hs : StaticOk (sortProcs fcfsLess procs) := staticOk_of_valid (hperm.map _) hv
  have hb0 : NoOverflow (sortProcs fcfsLess procs) := noOverflow_of_keys (hperm.map _) hb
  have hsum := sum_bt_nonneg hs.2
  have hne : sortProcs fcfsLess procs ≠ [] := by
    intro h
    have := hperm.length_eq
    rw [h] at this
    exact hv.1 (List.length_eq_zero.1 this.symm)
  obtain ⟨p, hp⟩ := List.exists_mem_of_ne_nil _ hne
  have h1 := hb0 p hp
  have h2 := hs.2 p hp
  have heq := fcfsLoop_eq_Z (sortProcs fcfsLess procs) 0 [] (le_refl _) hs.2 (by omega)
    (fun q hq => le_of_lt (hb0 q hq))
  simp only [simulate_fcfs, heq]

/-! ## SJF: the step of the source and the step without overflow -/

theorem sjfStep_run {s : SjfState} {idx : Nat} {p : Process}
    (hscan : sjfScan s.time s.procs 0 none INT_MAX = some idx) (hget : s.procs[idx]? = some p) :
    sjfStep s =
      { procs := s.procs.set idx
          { p with ct := wrap (s.time + p.bt), tat := wrap (wrap (s.time + p.bt) - p.at_),
                   wt := wrap (wrap (wrap (s.time + p.bt) - p.at_) - p.bt), done := true }
        gantt := s.gantt ++ [⟨p.pid, s.time, wrap (s.time + p.bt)⟩]
        time := wrap (s.time + p.bt)
        completed := s.completed + 1 } := by
  simp [sjfStep, hscan, List.getD_eq_getElem?_getD, hget]

theorem sjfStep_idle {s : SjfState} (hscan : sjfScan s.time s.procs 0 none INT_MAX = none)
    (hlt : s.time < sjfNextAT s.procs INT_MAX) :
    sjfStep s = { s with gantt := s.gantt ++ [⟨0, s.time, sjfNextAT s.procs INT_MAX⟩],
                         time := sjfNextAT s.procs INT_MAX } := by
  simp [sjfStep, hscan, hlt]

theorem sjfStep_stuck {s : SjfState} (hscan : sjfScan s.time s.procs 0 none INT_MAX = none)
    (hlt : ¬ s.time < sjfNextAT s.procs INT_MAX) : sjfStep s = s := by
  simp [sjfStep, hscan, hlt]

theorem set_done_bt (p : Process) : p.set_done.bt = p.bt ∧ p.set_done.done = true :=
  ⟨rfl, rfl⟩

theorem undoneWork_le {l : List Process} (h : ∀ p ∈ l, 0 ≤ p.bt) :
    0 ≤ undoneWork l ∧ undoneWork l ≤ (l.map Process.bt).sum := by
  induction l with
  | nil => simp [undoneWork]
  | cons a rest ih =>
    have ha := h a (List.mem_cons_self _ _)
    obtain ⟨h1, h2⟩ := ih (fun p hp => h p (List.mem_cons_of_mem _ hp))
    simp only [undoneWork, List.map_cons, List.sum_cons] at h1 h2 ⊢
    split <;> constructor <;> omega

theorem undoneWork_set {l : List Process} {idx : Nat} {p : Process} (p1 : Process)
    (hget : l[idx]? = some p) (hd : p.done = false) (hd1 : p1.done = true) :
    undoneWork (l.set idx p1) = undoneWork l - p.bt := by
  obtain ⟨hlen, hp⟩ := List.getElem?_eq_some_iff.1 hget
  unfold undoneWork
  rw [List.map_set, List.sum_set']
  simp [hlen, hp, hd, hd1]
  ring

theorem keys_bt_eq {l l0 : List Process} (h : l.map Process.key = l0.map Process.key) :
    (l.map Process.bt).sum = (l0.map Process.bt).sum :=
  keys_bt_sum (List.Perm.of_eq h)

theorem sjfStep_eq_Z {l0 : List Process} (hs : StaticOk l0) {s : SjfState} (h : SjfInv l0 s)
    (h1 : 0 ≤ s.time) (h2 : s.time + undoneWork s.procs < INT_MAX) :
    sjfStep s = sjfStepZ s := by
  cases hscan : sjfScan s.time s.procs 0 none INT_MAX with
  | none =>
    by_cases hlt : s.time < sjfNextAT s.procs INT_MAX
    · rw [sjfStep_idle hscan hlt, sjfStepZ_idle hscan hlt]
    · rw [sjfStep_stuck hscan hlt, sjfStepZ_stuck hscan hlt]
  | some idx =>
    obtain ⟨p, hget, hr, _⟩ := sjfScan_some hscan
    have hp := keys_static h.keys hs hget
    have hall : ∀ r ∈ s.procs, 0 ≤ r.bt := by
      intro r hr
      obtain ⟨k, hk⟩ := List.mem_iff_getElem?.1 hr
      exact le_of_lt (keys_static h.keys hs hk).2.2
    have hset := undoneWork_set (p.set_done) hget hr.1 rfl
    have hall2 : ∀ r ∈ s.procs.set idx p.set_done, 0 ≤ r.bt := by
      intro r hr
      rcases List.mem_or_eq_of_mem_set hr with hr | rfl
      · exact hall r hr
      · exact le_of_lt hp.2.2
    have hrest := (undoneWork_le hall2).1
    have hat := hr.2
    have hI : INT_MAX = 2147483647 := rfl
    have e1 : wrap (s.time + p.bt) = s.time + p.bt := wrap_of_range (by omega) (by omega)
    have e2 : wrap (s.time + p.bt - p.at_) = s.time + p.bt - p.at_ :=
      wrap_of_range (by omega) (by omega)
    have e3 : wrap (s.time + p.bt - p.at_ - p.bt) = s.time + p.bt - p.at_ - p.bt :=
      wrap_of_range (by omega) (by omega)
    rw [sjfStep_run hscan hget, sjfStepZ_run hscan hget, e1, e2, e3]

theorem sjfStepZ_bound {l0 : List Process} (hs : StaticOk l0) (hb : NoOverflow l0)
    {s : SjfState} (h : SjfInv l0 s) (hc : s.completed < s.procs.length)
    (h1 : 0 ≤ s.time) (h2 : s.time + undoneWork s.procs < INT_MAX) :
    0 ≤ (sjfStepZ s).time ∧ (sjfStepZ s).time + undoneWork (sjfStepZ s).procs < INT_MAX := by
  have hall : ∀ r ∈ s.procs, 0 ≤ r.bt := by
    intro r hr
    obtain ⟨k, hk⟩ := List.mem_iff_getElem?.1 hr
    exact le_of_lt (keys_static h.keys hs hk).2.2
  cases hscan : sjfScan s.time s.procs 0 none INT_MAX with
  | none =>
    by_cases hlt : s.time < sjfNextAT s.procs INT_MAX
    · rw [sjfStepZ_idle hscan hlt]
      obtain ⟨p, hp, hpd⟩ := exists_undone (by rw [← h.count]; exact hc)
      obtain ⟨n1, n2, n3⟩ := sjfNextAT_spec s.procs INT_MAX
      obtain ⟨k, hk⟩ := List.mem_iff_getElem?.1 hp
      obtain ⟨p0, _, hm0, _, e2, _⟩ := keys_get h.keys hk
      have hb0 := hb p0 hm0
      have hsum := sum_bt_nonneg hs.2
      have hle := n1 p hp hpd
      obtain ⟨r, hr, hrd, hra⟩ : ∃ r ∈ s.procs, r.done = false ∧
          r.at_ = sjfNextAT s.procs INT_MAX := by
        rcases n3 with n3 | n3
        · exfalso
          omega
        · exact n3
      obtain ⟨kr, hkr⟩ := List.mem_iff_getElem?.1 hr
      obtain ⟨r0, _, hmr, _, er, _⟩ := keys_get h.keys hkr
      have hbr := hb r0 hmr
      have hr0 := keys_static h.keys hs hkr
      have hu := (undoneWork_le hall).2
      rw [keys_bt_eq h.keys] at hu
      show 0 ≤ sjfNextAT s.procs INT_MAX ∧
        sjfNextAT s.procs INT_MAX + undoneWork s.procs < INT_MAX
      constructor <;> omega
    · rw [sjfStepZ_stuck hscan hlt]
      exact ⟨h1, h2⟩
  | some idx =>
    obtain ⟨p, hget, hr, _⟩ := sjfScan_some hscan
    have hp := keys_static h.keys hs hget
    rw [sjfStepZ_run hscan hget]
    have hset := undoneWork_set
      { p with ct := s.time + p.bt
               tat := s.time + p.bt - p.at_
               wt := s.time + p.bt - p.at_ - p.bt
               done := true } hget hr.1 rfl
    show 0 ≤ s.time + p.bt ∧ s.time + p.bt + undoneWork (s.procs.set idx _) < INT_MAX
    rw [hset]
    constructor <;> omega

theorem noOverflow_sum_lt {l : List Process} (hs : ∀ p ∈ l, 0 ≤ p.at_ ∧ 0 < p.bt)
    (hb : NoOverflow l) (hne : l ≠ []) : (l.map Process.bt).sum < INT_MAX := by
  obtain ⟨p, hp⟩ := List.exists_mem_of_ne_nil _ hne
  have := hb p hp
  have := hs p hp
  omega

/-- On a valid input on which the clock cannot overflow, whatever sorted copy
`std::sort` leaves, the main loop of `simulate_sjf` terminates, in a state
that satisfies the invariants of the loop without overflow, with every
process done. -/
theorem sjf_total_all {procs sorted : List Process} (hv : ValidInput procs)
    (hb : NoOverflow procs) (hp : sorted.Perm procs) :
    ∃ (fuel : Nat) (s : SjfState), (∀ f, fuel ≤ f →
        simulate_sjf_from f sorted = some ⟨orderByPid s.procs, s.gantt⟩) ∧
      SjfInv (sjfInit sorted).procs s ∧ SjfExt s ∧ (∀ p ∈ s.procs, p.done = true) ∧
      s.completed = procs.length ∧ Outcome procs s.procs s.gantt := by
  have hs : StaticOk (sjfInit sorted).procs := staticOk_of_valid (sjfInit_keys hp) hv
  have hb0 : NoOverflow (sjfInit sorted).procs := noOverflow_of_keys (sjfInit_keys hp) hb
  have hs0 : SentinelOk (sjfInit sorted).procs := sentinelOk_of_noOverflow hs.2 hb0
  have hlen : (sjfInit sorted).procs.length = sorted.length := by simp [sjfInit]
  have hlen2 : sorted.length = procs.length := hp.length_eq
  have hne : (sjfInit sorted).procs ≠ [] := by
    intro h
    rw [h] at hlen
    exact hv.1 (List.length_eq_zero.1 (by rw [← hlen2, ← hlen]; rfl))
  have hinit : 0 + undoneWork (sjfInit sorted).procs < INT_MAX := by
    have h1 := (undoneWork_le (fun p hp => le_of_lt (hs.2 p hp).2)).2
    have h2 := noOverflow_sum_lt hs.2 hb0 hne
    omega
  obtain ⟨s, hrun, hinv, hexit⟩ := whileLoop_total
    (fun s => decide (s.completed < sorted.length)) sjfStep
    (fun s => SjfInv (sjfInit sorted).procs s ∧ SjfExt s ∧ 0 ≤ s.time ∧
      s.time + undoneWork s.procs < INT_MAX)
    (sjfMeasure sorted.length)
    (fun s h hc => by
      have hc2 : s.completed < s.procs.length := by
        rw [keys_length h.1.keys, hlen]; simpa using hc
      rw [sjfStep_eq_Z hs h.1 h.2.2.1 h.2.2.2]
      exact ⟨sjfStepZ_inv hs s h.1, sjfExt_step hs s h.1 h.2.1 hc2,
        sjfStepZ_bound hs hb0 h.1 hc2 h.2.2.1 h.2.2.2⟩)
    (fun s h hc => by
      rw [sjfStep_eq_Z hs h.1 h.2.2.1 h.2.2.2]
      have := sjfStepZ_measure hs0 s h.1 (by rw [hlen]; simpa using hc)
      rwa [hlen] at this)
    (sjfInit sorted) ⟨sjfInit_inv sorted, sjfInit_ext sorted, le_refl _, hinit⟩
  have hc : sorted.length ≤ s.completed := by simpa using hexit
  have h1 := hinv.1.count
  have h2 := keys_length hinv.1.keys
  have h3 : s.procs.countP (fun p => p.done) ≤ s.procs.length := List.countP_le_length _
  have hcount : s.procs.countP (fun p => p.done) = s.procs.length := by omega
  have hdone := List.countP_eq_length.1 hcount
  refine ⟨sjfMeasure sorted.length (sjfInit sorted), s, ?_, hinv.1, hinv.2.1, hdone, by omega,
    sjf_outcome hv hp hinv.1 hdone⟩
  intro f hf
  simp [simulate_sjf_from, whileLoop_mono _ _ _ _ _ hrun f hf]

/-! ## Round Robin: the step of the source and the step without overflow -/

theorem remaining_le_total {l0 : List Process} {quantum : Int} {s : RrState}
    (h : RrCore l0 quantum s) {k : Nat} {p : Process} (hk : s.sorted[k]? = some p) :
    p.remaining ≤ totalRemaining s := by
  unfold totalRemaining
  refine List.single_le_sum ?_ _ (List.mem_map.2 ⟨p, List.mem_iff_getElem?.2 ⟨k, hk⟩, rfl⟩)
  intro x hx
  obtain ⟨r, hr, rfl⟩ := List.mem_map.1 hx
  obtain ⟨j, hj⟩ := List.mem_iff_getElem?.1 hr
  exact (h.per j r hj).1

theorem rrStep_eq_Z {l0 : List Process} {quantum : Int} (hs : StaticOk l0) (hq1 : 1 ≤ quantum)
    {s : RrState} (h : RrCore l0 quantum s) (h1 : 0 ≤ s.time)
    (h2 : s.time + totalRemaining s < INT_MAX) : rrStep quantum s = rrStepZ quantum s := by
  cases hq : s.q with
  | nil => simp only [rrStep, rrStepZ, hq]
  | cons idx qrest =>
    have hidxq : idx ∈ s.q := by rw [hq]; simp
    have hidx_lt := h.q_lt idx hidxq
    have hile := h.i_le
    obtain ⟨p, hget⟩ : ∃ p, s.sorted[idx]? = some p :=
      ⟨s.sorted[idx], List.getElem?_eq_getElem (by omega)⟩
    obtain ⟨r0, _, _, r3, _, _⟩ := h.per idx p hget
    obtain ⟨r4, r5, r6⟩ := r3 hidxq
    have hp := keys_static h.keys hs hget
    have hle := remaining_le_total h hget
    have hex1 : 1 ≤ min p.remaining quantum := le_min (by omega) hq1
    have hex2 : min p.remaining quantum ≤ p.remaining := min_le_left _ _
    have hI : INT_MAX = 2147483647 := rfl
    have e1 : wrap (s.time + min p.remaining quantum) = s.time + min p.remaining quantum :=
      wrap_of_range (by omega) (by omega)
    by_cases hpos : 0 < p.remaining - min p.remaining quantum
    · simp only [rrStep, rrStepZ, hq, List.getD_eq_getElem?_getD, hget, Option.getD_some,
        gt_iff_lt, hpos, if_true, e1]
    · have e2 : wrap (s.time + min p.remaining quantum - p.at_) =
          s.time + min p.remaining quantum - p.at_ := wrap_of_range (by omega) (by omega)
      have e3 : wrap (s.time + min p.remaining quantum - p.at_ - p.bt) =
          s.time + min p.remaining quantum - p.at_ - p.bt :=
        wrap_of_range (by omega) (by omega)
      simp only [rrStep, rrStepZ, hq, List.getD_eq_getElem?_getD, hget, Option.getD_some,
        gt_iff_lt, hpos, if_false, e1, e2, e3]

theorem rrStepZ_bound {l0 : List Process} {quantum : Int} (hs : StaticOk l0)
    (hq1 : 1 ≤ quantum) (hb : NoOverflow l0) {s : RrState} (h : RrInv l0 quantum s) (he : RrExt l0 s)
    (hc : s.finished < s.sorted.length) (h1 : 0 ≤ s.time)
    (h2 : s.time + totalRemaining s < INT_MAX) :
    0 ≤ (rrStepZ quantum s).time ∧
      (rrStepZ quantum s).time + totalRemaining (rrStepZ quantum s) < INT_MAX := by
  rcases rrStepZ_desc s h hc with ⟨a, m, hj⟩ | ⟨idx, qrest, p, p2, m, hr⟩
  · obtain ⟨a0, _, ha0, _, e2, _⟩ := keys_get h.keys hj.hget
    have hb0 := hb a0 ha0
    have hcount := he.count
    have ha := keys_static h.keys hs hj.hget
    have hn : (0 : Int) ≤ (nonIdleCount s.gantt : Int) := Int.natCast_nonneg _
    unfold totalRemaining at h2 ⊢
    rw [hj.time, hj.sorted]
    constructor <;> omega
  · have hsum := sum_remaining_set p2 hr.hget
    have hex1 : 0 ≤ min p.remaining quantum := le_min (le_of_lt hr.pos) (by omega)
    have hrem := hr.rem
    unfold totalRemaining at h2 ⊢
    rw [hr.time, hr.sorted, hsum]
    constructor <;> omega

/-- On a valid input on which the clock cannot overflow, with a quantum
`>= 1`, the main loop of `simulate_rr` terminates, in a state that satisfies
the invariants of the loop without overflow, and any further invariant `J` of
that loop, with every process finished. -/
theorem rr_total_with (procs : List Process) (hv : ValidInput procs) (hb : NoOverflow procs)
    (quantum : Int) (hq1 : 1 ≤ quantum) (J : RrState → Prop) (hJ0 : J (rrInit procs))
    (hJ : ∀ s, RrInv (rrSorted procs) quantum s → J s → s.finished < s.sorted.length →
      J (rrStepZ quantum s)) :
    ∃ (fuel : Nat) (s : RrState), (∀ f, fuel ≤ f →
        simulate_rr f procs quantum = some ⟨orderByPid s.sorted, s.gantt⟩) ∧
      RrInv (rrSorted procs) quantum s ∧ RrExt (rrSorted procs) s ∧ J s ∧
      s.q = [] ∧ s.i = s.sorted.length ∧ Outcome procs s.sorted s.gantt := by
  have hs : StaticOk (rrSorted procs) := staticOk_of_valid (rrSorted_keys procs) hv
  have hb0 : NoOverflow (rrSorted procs) := noOverflow_of_keys (rrSorted_keys procs) hb
  have hne : rrSorted procs ≠ [] := by
    intro h
    have := rrSorted_length procs
    rw [h] at this
    exact hv.1 (List.length_eq_zero.1 this.symm)
  obtain ⟨hi0, he0⟩ := rrInit_all procs hv quantum
  have hinit : 0 ≤ (rrInit procs).time ∧
      (rrInit procs).time + totalRemaining (rrInit procs) < INT_MAX := by
    obtain ⟨m, h0, hcase⟩ := rrInit_desc procs hv quantum
    have hsum : ((rrSorted procs).map Process.remaining).sum < INT_MAX := by
      rw [rrSorted_remaining]
      exact noOverflow_sum_lt hs.2 hb0 hne
    rcases hcase with ⟨_, hE⟩ | ⟨_, a, m2, hj⟩
    · rw [hE]
      exact ⟨le_refl _, by simpa [totalRemaining] using hsum⟩
    · have ha := hs.2 a (List.mem_iff_getElem?.2 ⟨_, hj.hget⟩)
      have hba := hb0 a (List.mem_iff_getElem?.2 ⟨_, hj.hget⟩)
      rw [← rrSorted_remaining] at hba
      unfold totalRemaining
      rw [hj.time, hj.sorted]
      exact ⟨ha.1, hba⟩
  obtain ⟨s, hrun, hinv, hexit⟩ := whileLoop_total
    (fun s => decide (s.finished < procs.length)) (rrStep quantum)
    (fun s => RrInv (rrSorted procs) quantum s ∧ RrExt (rrSorted procs) s ∧ J s ∧
      0 ≤ s.time ∧ s.time + totalRemaining s < INT_MAX)
    rrMeasure
    (fun s h hc => by
      have hc1 : s.finished < procs.length := by simpa using hc
      have hc2 : s.finished < s.sorted.length := by
        rw [keys_length h.1.keys, rrSorted_length]; exact hc1
      rw [rrStep_eq_Z hs hq1 h.1.1 h.2.2.2.1 h.2.2.2.2]
      have h3 := rrStepZ_all hv hq1 s ⟨h.1, h.2.1⟩ hc1
      exact ⟨h3.1, h3.2, hJ s h.1 h.2.2.1 hc2,
        rrStepZ_bound hs hq1 hb0 h.1 h.2.1 hc2 h.2.2.2.1 h.2.2.2.2⟩)
    (fun s h hc => by
      rw [rrStep_eq_Z hs hq1 h.1.1 h.2.2.2.1 h.2.2.2.2]
      exact (rrStepZ_ok hs hq1 s h.1 (by
        rw [keys_length h.1.keys, rrSorted_length]; simpa using hc)).2)
    (rrInit procs) ⟨hi0, he0, hJ0, hinit.1, hinit.2⟩
  have hc : procs.length ≤ s.finished := by simpa using hexit
  have h1 := hinv.1.fin
  have h2 := hinv.1.i_le
  have h3 := keys_length hinv.1.keys
  have h4 := rrSorted_length procs
  have hq0 : s.q.length = 0 := by omega
  have hq : s.q = [] := List.length_eq_zero.1 hq0
  have hi : s.i = s.sorted.length := by omega
  refine ⟨rrMeasure (rrInit procs), s, ?_, hinv.1, hinv.2.1, hinv.2.2.1, hq, hi,
    rr_outcome procs hv hinv.1 hq hi⟩
  intro f hf
  simp [simulate_rr, whileLoop_mono _ _ _ _ _ hrun f hf]

theorem rr_total_all (procs : List Process) (hv : ValidInput procs) (hb : NoOverflow procs)
    (quantum : Int) (hq1 : 1 ≤ quantum) :
    ∃ (fuel : Nat) (s : RrState), (∀ f, fuel ≤ f →
        simulate_rr f procs quantum = some ⟨orderByPid s.sorted, s.gantt⟩) ∧
      RrInv (rrSorted procs) quantum s ∧ RrExt (rrSorted procs) s ∧
      s.q = [] ∧ s.i = s.sorted.length ∧ Outcome procs s.sorted s.gantt := by
  obtain ⟨fuel, s, h1, h2, h3, _, h4, h5, h6⟩ := rr_total_with procs hv hb quantum hq1
    (fun _ => True) trivial (fun _ _ _ _ => trivial)
  exact ⟨fuel, s, h1, h2, h3, h4, h5, h6⟩

/-- With a quantum at least every burst time, on a valid input on which the
clock cannot overflow, `simulate_rr` terminates with the chart of the loop of
`simulate_fcfs` over the sorted copy, and with its table columns. -/
theorem rr_total_fcfs (procs : List Process) (hv : ValidInput procs) (hb : NoOverflow procs)
    (quantum : Int) (hq : ∀ p ∈ procs, p.bt ≤ quantum) :
    ∃ (fuel : Nat) (s : RrState), (∀ f, fuel ≤ f →
        simulate_rr f procs quantum = some ⟨orderByPid s.sorted, s.gantt⟩) ∧
      PidsOk s.sorted ∧
      s.gantt = (fcfsLoopZ (rrSorted procs) 0 []).2 ∧
      s.sorted.map Process.columns =
        (fcfsLoopZ (rrSorted procs) 0 []).1.map Process.columns := by
  have hs : StaticOk (rrSorted procs) := staticOk_of_valid (rrSorted_keys procs) hv
  have hq1 : 1 ≤ quantum := by
    obtain ⟨p, hp⟩ := List.exists_mem_of_ne_nil procs hv.1
    have h1 := (hv.2.2 p hp).2
    have h2 := hq p hp
    omega
  have hbt := rrSorted_quantum hq
  obtain ⟨fuel, s, hrun, hinv, _, hf, hq0, hi, _⟩ := rr_total_with procs hv hb quantum hq1
    (RrFcfs (rrSorted procs)) (rrInit_fcfs procs hv quantum)
    (fun s h hj hc => by
      rcases rrStepZ_desc s h hc with ⟨a, m, hjump⟩ | ⟨idx, qrest, p, p2, m, hr⟩
      · exact rrFcfs_jump h.1 hj hjump
      · exact rrFcfs_run hbt h.1 hj hr)
  have h1 := hinv.fin
  have h3 := keys_length hinv.keys
  have hn : s.finished = s.sorted.length := by
    rw [hq0] at h1
    simp only [List.length_nil, add_zero] at h1
    omega
  have hdrop : (rrSorted procs).drop s.finished = [] := List.drop_of_length_le (by omega)
  have hchart := hf.chart
  have htable := hf.table
  rw [hdrop] at hchart htable
  rw [hn, List.take_length] at htable
  have hpids : PidsOk s.sorted := by
    have hpid : s.sorted.map Process.pid = (rrSorted procs).map Process.pid := by
      have := congrArg (List.map Prod.fst) hinv.keys
      simpa [List.map_map, Function.comp, Process.key] using this
    unfold PidsOk
    rw [hpid, h3]
    exact hs.1
  exact ⟨fuel, s, hrun, hpids, hchart, by simpa [fcfsLoopZ] using htable⟩

/-! ## Round Robin: what holds whatever the clock does -/

theorem rrW_of_inv {l0 : List Process} {quantum : Int} {s : RrState}
    (h : RrInv l0 quantum s) (he : RrExt l0 s) (ht : -2147483648 ≤ s.time) :
    RrW l0 quantum s := by
  refine ⟨h.keys, ht, h.i_le, h.q_nodup, h.q_lt, h.fin, ?_, ?_, he.idle_chain, he.idle_last,
    he.count⟩
  · intro k p hk
    obtain ⟨a, _, c, d, e, f⟩ := h.per k p hk
    exact ⟨a, c, fun hq => (d hq).1, e, fun h1 h2 => (f h1 h2).1⟩
  · intro seg hseg hne
    obtain ⟨p, hp, h1, _, h2⟩ := h.segs seg hseg hne
    exact ⟨⟨p, hp, h1⟩, h2⟩

theorem rrIdle_descW {l0 : List Process} {quantum : Int} {s : RrState}
    (_h : RrW l0 quantum s) (hq : s.q = []) (hi : s.i < s.sorted.length) :
    ∃ a m, RrJumpW s (rrIdle s) a m := by
  obtain ⟨a, hget⟩ : ∃ a, s.sorted[s.i]? = some a :=
    ⟨s.sorted[s.i], List.getElem?_eq_getElem hi⟩
  obtain ⟨m, hm, h1, h2, _, h4⟩ := rrEnqueue_at a.at_ s.sorted s.i s.q
  have hm0 : m ≠ 0 := by
    intro h0
    subst h0
    have := h4 a hget
    omega
  have hstep : rrIdle s =
      { sorted := s.sorted, gantt := s.gantt ++ [⟨0, s.time, a.at_⟩], q := List.range' s.i m,
        time := a.at_, i := s.i + m, finished := s.finished } := by
    rw [hq] at h1 h2
    simp only [rrIdle, List.getD_eq_getElem?_getD, hget, Option.getD_some, h1, h2, hq,
      List.nil_append]
  refine ⟨a, m, ?_⟩
  rw [hstep]
  exact ⟨hq, hget, by omega, by omega, rfl, rfl, rfl, rfl, rfl, rfl⟩

theorem rrStep_descW {l0 : List Process} {quantum : Int}
    (s : RrState) (h : RrW l0 quantum s) (hc : s.finished < s.sorted.length) :
    (∃ a m, RrJumpW s (rrStep quantum s) a m) ∨
      ∃ idx qrest p p' m, RrRunW quantum s (rrStep quantum s) idx qrest p p' m := by
  cases hq : s.q with
  | nil =>
    have hfin := h.fin
    rw [hq] at hfin
    simp only [List.length_nil, add_zero] at hfin
    have hi : s.i < s.sorted.length := by omega
    have hstep : rrStep quantum s = rrIdle s := by
      simp [rrStep, hq, hi]
    rw [hstep]
    exact Or.inl (rrIdle_descW h hq hi)
  | cons idx qrest =>
    right
    have hidxq : idx ∈ s.q := by rw [hq]; simp
    have hidx_lt := h.q_lt idx hidxq
    have hile := h.i_le
    obtain ⟨p, hget⟩ : ∃ p, s.sorted[idx]? = some p :=
      ⟨s.sorted[idx], List.getElem?_eq_getElem (by omega)⟩
    obtain ⟨m, hm, h1, h2, _, h4⟩ := rrEnqueue_at (wrap (s.time + min p.remaining quantum))
      (s.sorted.set idx { p with remaining := p.remaining - min p.remaining quantum }) s.i qrest
    simp only [List.length_set] at hm
    have hm' : s.i + m ≤ s.sorted.length := by omega
    have hstop : ∀ r : Process, s.sorted[s.i + m]? = some r →
        wrap (s.time + min p.remaining quantum) < r.at_ := by
      intro r hk
      refine h4 r ?_
      rw [List.getElem?_set_ne (by omega)]
      exact hk
    by_cases hpos : 0 < p.remaining - min p.remaining quantum
    · have hstep : rrStep quantum s =
          { sorted := s.sorted.set idx { p with remaining := p.remaining - min p.remaining quantum },
            gantt := s.gantt ++ [⟨p.pid, s.time, wrap (s.time + min p.remaining quantum)⟩],
            q := qrest ++ List.range' s.i m ++ [idx],
            time := wrap (s.time + min p.remaining quantum), i := s.i + m,
            finished := s.finished } := by
        simp only [rrStep, hq, List.getD_eq_getElem?_getD, hget, Option.getD_some, gt_iff_lt,
          hpos, if_true, h1, h2]
      refine ⟨idx, qrest, p, { p with remaining := p.remaining - min p.remaining quantum }, m, ?_⟩
      rw [hstep]
      exact ⟨hq, hget, rfl, rfl, hm', rfl, rfl, rfl, rfl, hstop, Or.inl ⟨hpos, rfl, rfl⟩⟩
    · have hstep : rrStep quantum s =
          { sorted := s.sorted.set idx
              { p with remaining := p.remaining - min p.remaining quantum,
                       ct := wrap (s.time + min p.remaining quantum),
                       tat := wrap (wrap (s.time + min p.remaining quantum) - p.at_),
                       wt := wrap (wrap (wrap (s.time + min p.remaining quantum) - p.at_) -
                         p.bt) },
            gantt := s.gantt ++ [⟨p.pid, s.time, wrap (s.time + min p.remaining quantum)⟩],
            q := qrest ++ List.range' s.i m,
            time := wrap (s.time + min p.remaining quantum), i := s.i + m,
            finished := s.finished + 1 } := by
        simp only [rrStep, hq, List.getD_eq_getElem?_getD, hget, Option.getD_some, gt_iff_lt,
          hpos, if_false, h1, h2, List.set_set]
      refine ⟨idx, qrest, p,
        { p with remaining := p.remaining - min p.remaining quantum,
                 ct := wrap (s.time + min p.remaining quantum),
                 tat := wrap (wrap (s.time + min p.remaining quantum) - p.at_),
                 wt := wrap (wrap (wrap (s.time + min p.remaining quantum) - p.at_) -
                   p.bt) }, m, ?_⟩
      rw [hstep]
      exact ⟨hq, hget, rfl, rfl, hm', rfl, rfl, rfl, rfl, hstop, Or.inr ⟨hpos, rfl, rfl, rfl⟩⟩

theorem rrW_jump {l0 : List Process} {quantum : Int} (hs : StaticOk l0) {s s' : RrState}
    (h : RrW l0 quantum s) {a : Process} {m : Nat} (hj : RrJumpW s s' a m) :
    RrW l0 quantum s' := by
  have hfin := h.fin
  rw [hj.hq] at hfin
  simp only [List.length_nil, add_zero] at hfin
  have ha := keys_static h.keys hs hj.hget
  refine ⟨?_, ?_, ?_, ?_, ?_, ?_, ?_, ?_, ?_, ?_, ?_⟩
  · rw [hj.sorted]; exact h.keys
  · rw [hj.time]; omega
  · rw [hj.i, hj.sorted]; exact hj.bound
  · rw [hj.q]; exact List.nodup_range' _ _
  · intro k hk
    rw [hj.q, List.mem_range'_1] at hk
    rw [hj.i]
    exact hk.2
  · rw [hj.q, hj.i, hj.finished, List.length_range']
    omega
  · intro k p hk
    rw [hj.sorted] at hk
    obtain ⟨h1, h2, h3, h4, h5⟩ := h.per k p hk
    have hp := keys_static h.keys hs hk
    have hne : ¬ (0 : Int) = p.pid := by omega
    refine ⟨h1, ?_, ?_, ?_, ?_⟩
    · rw [hj.gantt, segCount_snoc]
      simpa [hne] using h2
    · intro hkq
      rw [hj.q, List.mem_range'_1] at hkq
      have := h4 hkq.1
      omega
    · intro hge
      rw [hj.i] at hge
      exact h4 (by omega)
    · intro hlt hnot
      rw [hj.i] at hlt
      rw [hj.q, List.mem_range'_1] at hnot
      exact h5 (by
        by_contra hge
        exact hnot ⟨by omega, hlt⟩) (by rw [hj.hq]; simp)
  · intro seg hseg hne
    rw [hj.gantt] at hseg
    rcases List.mem_append.1 hseg with hseg | hseg
    · exact h.segs seg hseg hne
    · simp only [List.mem_singleton] at hseg
      subst hseg
      exact absurd rfl hne
  · rw [hj.gantt]
    refine idleChain_snoc h.idle_chain _ ?_
    intro x hx hx0
    exact absurd hj.hq (h.idle_last x hx hx0)
  · intro seg _ _
    rw [hj.q]
    have := hj.m_pos
    cases m with
    | zero => omega
    | succ m => simp [List.range'_succ]
  · rw [hj.gantt, hj.sorted, nonIdleCount_snoc]
    simpa using h.count

theorem rrW_run {l0 : List Process} {quantum : Int} (hs : StaticOk l0) (hq1 : 1 ≤ quantum)
    {s s' : RrState} (h : RrW l0 quantum s) {idx : Nat} {qrest : List Nat}
    {p p' : Process} {m : Nat} (hr : RrRunW quantum s s' idx qrest p p' m) :
    RrW l0 quantum s' := by
  have hidxq : idx ∈ s.q := by rw [hr.hq]; simp
  have hidx_lt := h.q_lt idx hidxq
  have hnd := h.q_nodup
  rw [hr.hq, List.nodup_cons] at hnd
  obtain ⟨r0, r2, r3, _, _⟩ := h.per idx p hr.hget
  have r4 := r3 hidxq
  have hex1 : 1 ≤ min p.remaining quantum := le_min (by omega) hq1
  have hex2 : min p.remaining quantum ≤ p.remaining := min_le_left _ _
  have hex3 : min p.remaining quantum ≤ quantum := min_le_right _ _
  obtain ⟨hlen, _⟩ := List.getElem?_eq_some_iff.1 hr.hget
  have hkey := hr.key
  simp only [Process.key, Prod.mk.injEq] at hkey
  obtain ⟨k1, k2, k3⟩ := hkey
  have hpst := keys_static h.keys hs hr.hget
  have hpid0 : p.pid ≠ 0 := by omega
  have hrem := hr.rem
  have hfin := h.fin
  rw [hr.hq] at hfin
  simp only [List.length_cons] at hfin
  have hmem : ∀ k, k ∈ s'.q ↔
      k ∈ qrest ∨ (s.i ≤ k ∧ k < s.i + m) ∨ (k = idx ∧ 0 < p'.remaining) := by
    intro k
    rcases hr.cases with ⟨c1, c2, _⟩ | ⟨c1, c2, _⟩
    · simp [c2, c1, List.mem_range'_1, or_assoc]
    · simp [c2, c1, List.mem_range'_1]
  have hset : ∀ (k : Nat) (r : Process), (s.sorted.set idx p')[k]? = some r →
      (k = idx ∧ r = p') ∨ (k ≠ idx ∧ s.sorted[k]? = some r) := by
    intro k r hk
    rw [List.getElem?_set] at hk
    by_cases hik : idx = k
    · subst hik
      simp only [hlen, if_true, Option.some.injEq] at hk
      exact Or.inl ⟨rfl, hk.symm⟩
    · simp only [hik, if_false] at hk
      exact Or.inr ⟨fun he => hik he.symm, hk⟩
  have hqr_lt : ∀ k ∈ qrest, k < s.i := fun k hk => h.q_lt k (by rw [hr.hq]; simp [hk])
  have hnd1 : (qrest ++ List.range' s.i m).Nodup := by
    rw [List.nodup_append]
    refine ⟨hnd.2, List.nodup_range' _ _, ?_⟩
    intro a ha hb
    simp only [List.mem_range'_1] at hb
    have := hqr_lt a ha
    omega
  refine ⟨?_, ?_, ?_, ?_, ?_, ?_, ?_, ?_, ?_, ?_, ?_⟩
  · rw [hr.sorted]
    refine (set_keys hr.hget ?_).trans h.keys
    simp [Process.key, k1, k2, k3]
  · rw [hr.time]; exact wrap_ge _
  · rw [hr.i, hr.sorted, List.length_set]
    exact hr.bound
  · rcases hr.cases with ⟨c1, c2, _⟩ | ⟨c1, c2, _⟩
    · rw [c2, List.nodup_append]
      refine ⟨hnd1, List.nodup_singleton _, ?_⟩
      intro a ha hb
      simp only [List.mem_singleton] at hb
      subst hb
      rcases List.mem_append.1 ha with ha | ha
      · exact hnd.1 ha
      · simp only [List.mem_range'_1] at ha
        omega
    · rw [c2]
      exact hnd1
  · intro k hk
    rw [hr.i]
    rcases (hmem k).1 hk with hk | hk | hk
    · have := hqr_lt k hk
      omega
    · omega
    · omega
  · rw [hr.i]
    rcases hr.cases with ⟨c1, c2, c3⟩ | ⟨c1, c2, c3, _⟩
    · rw [c2, c3]
      simp only [List.length_append, List.length_range', List.length_singleton]
      omega
    · rw [c2, c3]
      simp only [List.length_append, List.length_range']
      omega
  · intro k r hk
    rw [hr.sorted] at hk
    rcases hset k r hk with ⟨rfl, rfl⟩ | ⟨hki, hk⟩
    · refine ⟨by omega, ?_, ?_, ?_, ?_⟩
      · rw [hr.gantt]
        simp only [segCount_snoc, k1, if_true, k3]
        have hc := ceil_step p.remaining quantum r4 hq1
        rw [hrem]
        push_cast at r2 ⊢
        rw [← r2, ← hc]
        push_cast
        ring
      · intro hkq
        rcases (hmem k).1 hkq with hk' | hk' | hk'
        · exact absurd hk' hnd.1
        · omega
        · exact hk'.2
      · intro hge
        rw [hr.i] at hge
        omega
      · intro _ hnot
        by_contra hne
        exact hnot ((hmem k).2 (Or.inr (Or.inr ⟨rfl, by omega⟩)))
    · obtain ⟨h1, h2, h3, h4, h5⟩ := h.per k r hk
      have hne : ¬ p.pid = r.pid :=
        fun he => hki (keys_pid_inj h.keys hs hk hr.hget he.symm)
      have hrst := keys_static h.keys hs hk
      refine ⟨h1, ?_, ?_, ?_, ?_⟩
      · rw [hr.gantt]
        simp only [segCount_snoc, hne, if_false]
        simpa using h2
      · intro hkq
        rcases (hmem k).1 hkq with hk' | hk' | hk'
        · exact h3 (by rw [hr.hq]; simp [hk'])
        · have := h4 hk'.1
          omega
        · exact absurd hk'.1 hki
      · intro hge
        rw [hr.i] at hge
        exact h4 (by omega)
      · intro hlt hnot
        rw [hr.i] at hlt
        have hnq : k ∉ qrest := fun hk' => hnot ((hmem k).2 (Or.inl hk'))
        have hnr : ¬ (s.i ≤ k ∧ k < s.i + m) :=
          fun hk' => hnot ((hmem k).2 (Or.inr (Or.inl hk')))
        exact h5 (by omega) (by rw [hr.hq]; simp [hki, hnq])
  · intro seg hseg hne
    rw [hr.gantt] at hseg
    rcases List.mem_append.1 hseg with hseg | hseg
    · exact h.segs seg hseg hne
    · simp only [List.mem_singleton] at hseg
      subst hseg
      obtain ⟨p0, _, hp0, e1, _, _⟩ := keys_get h.keys hr.hget
      refine ⟨⟨p0, hp0, e1⟩, ?_⟩
      show s'.time - s.time ≤ quantum
      have := h.time_ge
      have := @wrap_le (s.time + min p.remaining quantum) (by omega)
      rw [hr.time]
      omega
  · rw [hr.gantt]
    exact idleChain_snoc h.idle_chain _ (fun _ _ _ => hpid0)
  · intro seg hseg h0
    rw [hr.gantt, getLast?_snoc] at hseg
    simp only [Option.some.injEq] at hseg
    subst hseg
    exact absurd h0 hpid0
  · rw [hr.gantt, hr.sorted, nonIdleCount_snoc, sum_remaining_set p' hr.hget, hr.rem]
    have := h.count
    simp only [hpid0, if_false]
    push_cast
    omega

theorem rrW_measure {l0 : List Process} {quantum : Int} (hq1 : 1 ≤ quantum)
    (s : RrState) (h : RrW l0 quantum s) (hc : s.finished < s.sorted.length) :
    rrMeasure (rrStep quantum s) < rrMeasure s := by
  have hnonneg : ∀ {t : RrState}, RrW l0 quantum t →
      0 ≤ (t.sorted.map Process.remaining).sum := by
    intro t ht
    apply List.sum_nonneg
    intro x hx
    obtain ⟨p, hp, rfl⟩ := List.mem_map.1 hx
    obtain ⟨k, hk⟩ := List.mem_iff_getElem?.1 hp
    exact (ht.per k p hk).1
  rcases rrStep_descW s h hc with ⟨a, m, hj⟩ | ⟨idx, qrest, p, p2, m, hr⟩
  · have hq2 : (rrStep quantum s).q ≠ [] := by
      rw [hj.q]
      have := hj.m_pos
      cases m with
      | zero => omega
      | succ m => simp [List.range'_succ]
    simp only [rrMeasure, hj.sorted, hj.hq, hq2, if_true, if_false]
    omega
  · have hidxq : idx ∈ s.q := by rw [hr.hq]; simp
    have r4 := (h.per idx p hr.hget).2.2.1 hidxq
    have hex1 : 1 ≤ min p.remaining quantum := le_min (by omega) hq1
    have hsum := sum_remaining_set p2 hr.hget
    have h0 := hnonneg h
    have hrem := hr.rem
    have hex2 : min p.remaining quantum ≤ p.remaining := min_le_left _ _
    have hle := List.single_le_sum (fun x hx => by
      obtain ⟨r, hr1, rfl⟩ := List.mem_map.1 hx
      obtain ⟨k, hk⟩ := List.mem_iff_getElem?.1 hr1
      exact (h.per k r hk).1) _
      (List.mem_map.2 ⟨p, List.mem_iff_getElem?.2 ⟨idx, hr.hget⟩, rfl⟩)
    simp only [rrMeasure, hr.sorted, hsum, hr.hq]
    split <;> simp <;> omega

/-! ## Round Robin: new arrivals and the returning process -/

theorem segCount_pos_of_mem {pid : Int} {g : List Segment} {seg : Segment} (hseg : seg ∈ g)
    (hpid : seg.pid = pid) : 0 < segCount pid g := by
  unfold segCount
  apply List.length_pos_of_mem
  rw [List.mem_filter]
  exact ⟨hseg, by simpa using hpid⟩

theorem exists_seg_of_pos {pid : Int} {g : List Segment} (h : 0 < segCount pid g) :
    ∃ seg ∈ g, seg.pid = pid := by
  unfold segCount at h
  obtain ⟨x, hx⟩ := List.exists_mem_of_length_pos h
  rw [List.mem_filter] at hx
  exact ⟨x, hx.1, by simpa using hx.2⟩

theorem rrW_started {l0 : List Process} {quantum : Int} {s : RrState} (h : RrW l0 quantum s)
    {seg : Segment} (hseg : seg ∈ s.gantt) {k : Nat} {p : Process}
    (hk : s.sorted[k]? = some p) (hpid : p.pid = seg.pid) : k < s.i := by
  by_contra hge
  obtain ⟨_, h2, _, h4, _⟩ := h.per k p hk
  rw [h4 (by omega)] at h2
  have := segCount_pos_of_mem hseg hpid.symm
  omega

theorem rrW_ran {l0 : List Process} {quantum : Int} (hs : StaticOk l0) (hq1 : 1 ≤ quantum)
    {s : RrState} (h : RrW l0 quantum s) {k : Nat} {p : Process}
    (hk : s.sorted[k]? = some p) (hlt : k < s.i) (hnot : k ∉ s.q) :
    ∃ seg ∈ s.gantt, seg.pid = p.pid := by
  obtain ⟨_, h2, _, _, h5⟩ := h.per k p hk
  have hp := keys_static h.keys hs hk
  rw [h5 hlt hnot] at h2
  have hpos : 0 < ⌈(p.bt : ℚ) / (quantum : ℚ)⌉ := by
    rw [Int.ceil_pos]
    have h1 : (0 : ℚ) < (p.bt : ℚ) := by exact_mod_cast hp.2.2
    have h2 : (0 : ℚ) < (quantum : ℚ) := by exact_mod_cast (by omega : 0 < quantum)
    exact div_pos h1 h2
  simp only [Int.cast_zero, zero_div, Int.ceil_zero, add_zero] at h2
  exact exists_seg_of_pos (by omega)

theorem rrPairW_jump {l0 : List Process} {quantum : Int} {s s' : RrState}
    (h : RrW l0 quantum s) (hp : RrPairW s) {a : Process} {m : Nat}
    (hj : RrJumpW s s' a m) : RrPairW s' := by
  refine ⟨?_⟩
  intro i0 seg hi0 hne kp p kr r hkp hpid hkr hneq hlt hle
  rw [hj.gantt] at hi0
  rw [hj.sorted] at hkp hkr
  rcases getElem?_snoc_cases hi0 with ⟨hi0lt, hi0⟩ | ⟨_, rfl⟩
  · rcases hp.pair i0 seg hi0 hne kp p kr r hkp hpid hkr hneq hlt hle with
      ⟨k, c, hk, hc, hall⟩ | ⟨hno, _⟩
    · left
      obtain ⟨hklt, _⟩ := List.getElem?_eq_some_iff.1 hk
      refine ⟨k, c, by rw [hj.gantt]; exact getElem?_snoc_old _ hk, hc, ?_⟩
      intro k' c' h1 h2 h3
      rw [hj.gantt, List.getElem?_append_left (by omega)] at h3
      exact hall k' c' h1 h2 h3
    · right
      refine ⟨?_, ?_⟩
      · intro k' c' h1 h3
        rw [hj.gantt] at h3
        rcases getElem?_snoc_cases h3 with ⟨_, h3⟩ | ⟨_, rfl⟩
        · exact hno k' c' h1 h3
        · exact fun h0 => hne h0.symm
      · intro hmem
        rw [hj.q, List.mem_range'_1] at hmem
        have := rrW_started h (List.mem_iff_getElem?.2 ⟨i0, hi0⟩) hkp hpid
        omega
  · exact absurd rfl hne

theorem rrPairW_run {l0 : List Process} {quantum : Int} (hs : StaticOk l0)
    (hq1 : 1 ≤ quantum) (hsorted : l0.Pairwise (fun a b => a.at_ ≤ b.at_))
    {s s' : RrState} (h : RrW l0 quantum s) (hp : RrPairW s) {idx : Nat}
    {qrest : List Nat} {x x' : Process} {m : Nat}
    (hr : RrRunW quantum s s' idx qrest x x' m) : RrPairW s' := by
  have hidxq : idx ∈ s.q := by rw [hr.hq]; simp
  have hidx_lt := h.q_lt idx hidxq
  have hnd := h.q_nodup
  rw [hr.hq, List.nodup_cons] at hnd
  obtain ⟨hlen, _⟩ := List.getElem?_eq_some_iff.1 hr.hget
  have hkey := hr.key
  simp only [Process.key, Prod.mk.injEq] at hkey
  obtain ⟨k1, k2, k3⟩ := hkey
  -- every record of the new working copy has the pid and arrival of the old one
  have hold : ∀ (k : Nat) (r : Process), s'.sorted[k]? = some r →
      ∃ r0, s.sorted[k]? = some r0 ∧ r0.pid = r.pid ∧ r0.at_ = r.at_ := by
    intro k r hk
    rw [hr.sorted, List.getElem?_set] at hk
    by_cases hik : idx = k
    · subst hik
      simp only [hlen, if_true, Option.some.injEq] at hk
      subst hk
      exact ⟨x, hr.hget, k1.symm, k2.symm⟩
    · simp only [hik, if_false] at hk
      exact ⟨r, hk, rfl, rfl⟩
  have hq'sub : (qrest ++ List.range' s.i m).Sublist s'.q := by
    rcases hr.cases with ⟨_, c2, _⟩ | ⟨_, c2, _⟩
    · rw [c2]; exact List.sublist_append_left _ _
    · rw [c2]
  have hq'mem : ∀ k, k ∈ s'.q → k ∈ qrest ∨ (s.i ≤ k ∧ k < s.i + m) ∨ k = idx := by
    intro k hk
    rcases hr.cases with ⟨_, c2, _⟩ | ⟨_, c2, _⟩
    · rw [c2] at hk
      simpa [List.mem_range'_1, or_assoc] using hk
    · rw [c2] at hk
      simp only [List.mem_append, List.mem_range'_1] at hk
      rcases hk with hk | hk
      · exact Or.inl hk
      · exact Or.inr (Or.inl hk)
  refine ⟨?_⟩
  intro i0 seg hi0 hne kp p kr r hkp hpid hkr hneq hlt hle
  obtain ⟨p0, hkp0, ep1, ep2⟩ := hold kp p hkp
  obtain ⟨r0, hkr0, er1, er2⟩ := hold kr r hkr
  rw [hr.gantt] at hi0
  rcases getElem?_snoc_cases hi0 with ⟨hi0lt, hi0⟩ | ⟨hi0eq, rfl⟩
  · -- an earlier slice
    have hsegmem : seg ∈ s.gantt := List.mem_iff_getElem?.2 ⟨i0, hi0⟩
    have hkp_lt := rrW_started h hsegmem hkp0 (by omega)
    rcases hp.pair i0 seg hi0 hne kp p0 kr r0 hkp0 (by omega) hkr0 hneq (by omega)
        (by omega) with ⟨k, c, hk, hc, hall⟩ | ⟨hno, hsub⟩
    · left
      obtain ⟨hklt, _⟩ := List.getElem?_eq_some_iff.1 hk
      refine ⟨k, c, by rw [hr.gantt]; exact getElem?_snoc_old _ hk, by omega, ?_⟩
      intro k' c' h1 h2 h3
      rw [hr.gantt, List.getElem?_append_left (by omega)] at h3
      exact hall k' c' h1 h2 h3
    · by_cases hxp : idx = kp
      · -- the owner of the slice is at the head of the queue: impossible
        exfalso
        subst hxp
        have hsub' := hsub hidxq
        rw [hr.hq, List.sublist_cons_iff] at hsub'
        rcases hsub' with hsub' | ⟨l, hl, _⟩
        · have := hsub'.subset (by simp : idx ∈ [kr, idx])
          exact hnd.1 this
        · simp only [List.cons.injEq] at hl
          exact hneq hl.1
      · have hxpid : ¬ x.pid = seg.pid := by
          intro hE
          exact hxp (keys_pid_inj h.keys hs hr.hget hkp0 (by omega))
        by_cases hxr : idx = kr
        · -- the other process runs now
          left
          subst hxr
          refine ⟨s.gantt.length, _, by rw [hr.gantt]; exact List.getElem?_concat_length _ _,
            ?_, ?_⟩
          · show x.pid = r.pid
            rw [hr.hget] at hkr0
            simp only [Option.some.injEq] at hkr0
            subst hkr0
            omega
          · intro k' c' h1 h2 h3
            rw [hr.gantt] at h3
            rcases getElem?_snoc_cases h3 with ⟨_, h3⟩ | ⟨_, rfl⟩
            · exact hno k' c' h1 h3
            · exact hxpid
        · right
          refine ⟨?_, ?_⟩
          · intro k' c' h1 h3
            rw [hr.gantt] at h3
            rcases getElem?_snoc_cases h3 with ⟨_, h3⟩ | ⟨_, rfl⟩
            · exact hno k' c' h1 h3
            · exact hxpid
          · intro hmem
            have hkpq : kp ∈ qrest := by
              rcases hq'mem kp hmem with hm | hm | hm
              · exact hm
              · omega
              · exact absurd hm.symm hxp
            have hsub' := hsub (by rw [hr.hq]; simp [hkpq])
            rw [hr.hq, List.sublist_cons_iff] at hsub'
            rcases hsub' with hsub' | ⟨l, hl, _⟩
            · exact (List.sublist_append_of_sublist_left hsub').trans hq'sub
            · simp only [List.cons.injEq] at hl
              exact absurd hl.1.symm hxr
  · -- the slice that has just run
    have hxp : kp = idx := by
      have : p0.pid = x.pid := by
        have : p.pid = x.pid := hpid
        omega
      exact keys_pid_inj h.keys hs hkp0 hr.hget this
    have hle' : r0.at_ ≤ s'.time := by
      have : r.at_ ≤ (⟨x.pid, s.time, s'.time⟩ : Segment).end_ := hle
      simp only at this
      omega
    by_cases hhas : ∃ c ∈ s.gantt, c.pid = r0.pid
    · left
      obtain ⟨c, hc, hcp⟩ := hhas
      obtain ⟨k, hk⟩ := List.mem_iff_getElem?.1 hc
      obtain ⟨hklt, _⟩ := List.getElem?_eq_some_iff.1 hk
      refine ⟨k, c, by rw [hr.gantt]; exact getElem?_snoc_old _ hk, by omega, ?_⟩
      intro k' c' h1 h2 _
      omega
    · right
      refine ⟨?_, ?_⟩
      · intro k' c' h1 h3
        rw [hr.gantt] at h3
        rcases getElem?_snoc_cases h3 with ⟨h4, _⟩ | ⟨h4, _⟩ <;> omega
      · intro hmem
        have hkrin : kr ∈ qrest ++ List.range' s.i m := by
          by_cases hlti : kr < s.i
          · have hkrq : kr ∈ s.q := by
              by_contra hnot
              exact hhas (rrW_ran hs hq1 h hkr0 hlti hnot)
            rw [hr.hq] at hkrq
            rcases List.mem_cons.1 hkrq with h1 | h1
            · exact absurd (h1.trans hxp.symm) hneq
            · exact List.mem_append_left _ h1
          · have hkr2 : kr < s.i + m := by
              by_contra hcon
              obtain ⟨hkrlen, _⟩ := List.getElem?_eq_some_iff.1 hkr0
              have hb := hr.bound
              obtain ⟨b, hb'⟩ : ∃ b, s.sorted[s.i + m]? = some b :=
                ⟨s.sorted[s.i + m], List.getElem?_eq_getElem (by omega)⟩
              have h1 := hr.hstop b hb'
              have h2 := pairwise_at_of_keys h.keys hsorted hb' hkr0 (by omega)
              omega
            exact List.mem_append_right _ (by rw [List.mem_range'_1]; omega)
        rcases hr.cases with ⟨_, c2, _⟩ | ⟨c1, c2, _⟩
        · rw [c2, hxp]
          exact (List.singleton_sublist.2 hkrin).append (List.Sublist.refl [idx])
        · exfalso
          rw [c2, hxp] at hmem
          rcases List.mem_append.1 hmem with hm | hm
          · exact hnd.1 hm
          · rw [List.mem_range'_1] at hm
            omega

/-! ## Round Robin: the run of the source -/

theorem rrInit_W (procs : List Process) (hv : ValidInput procs) (quantum : Int) :
    RrW (rrSorted procs) quantum (rrInit procs) ∧ RrPairW (rrInit procs) := by
  obtain ⟨hi0, he0⟩ := rrInit_all procs hv quantum
  have hs : StaticOk (rrSorted procs) := staticOk_of_valid (rrSorted_keys procs) hv
  obtain ⟨m, _, hcase⟩ := rrInit_desc procs hv quantum
  have hfacts : -2147483648 ≤ (rrInit procs).time ∧
      ∀ seg ∈ (rrInit procs).gantt, seg.pid = 0 := by
    rcases hcase with ⟨_, hE⟩ | ⟨_, a, m2, hj⟩
    · rw [hE]
      exact ⟨by show (-2147483648 : Int) ≤ 0; omega, fun seg hseg => by cases hseg⟩
    · have ha := hs.2 a (List.mem_iff_getElem?.2 ⟨_, hj.hget⟩)
      rw [hj.time, hj.gantt]
      refine ⟨by omega, ?_⟩
      intro seg hseg
      simp only [List.nil_append, List.mem_singleton] at hseg
      rw [hseg]
  refine ⟨rrW_of_inv hi0 he0 hfacts.1, ⟨?_⟩⟩
  intro i a hi hne
  exact absurd (hfacts.2 a (List.mem_iff_getElem?.2 ⟨i, hi⟩)) hne

theorem rrStep_W {procs : List Process} (hv : ValidInput procs) {quantum : Int}
    (hq1 : 1 ≤ quantum) (s : RrState)
    (h : RrW (rrSorted procs) quantum s ∧ RrPairW s) (hc : s.finished < procs.length) :
    RrW (rrSorted procs) quantum (rrStep quantum s) ∧ RrPairW (rrStep quantum s) := by
  have hs : StaticOk (rrSorted procs) := staticOk_of_valid (rrSorted_keys procs) hv
  have hc2 : s.finished < s.sorted.length := by
    rw [keys_length h.1.keys, rrSorted_length]; exact hc
  rcases rrStep_descW s h.1 hc2 with ⟨a, m, hj⟩ | ⟨idx, qrest, p, p2, m, hr⟩
  · exact ⟨rrW_jump hs h.1 hj, rrPairW_jump h.1 h.2 hj⟩
  · exact ⟨rrW_run hs hq1 h.1 hr, rrPairW_run hs hq1 (rrSorted_at procs) h.1 h.2 hr⟩

theorem rrReach_W {procs : List Process} (hv : ValidInput procs) {quantum : Int}
    (hq1 : 1 ≤ quantum) {s : RrState} (hr : RrReach procs quantum s) :
    RrW (rrSorted procs) quantum s ∧ RrPairW s := by
  induction hr with
  | init => exact rrInit_W procs hv quantum
  | step _ hc ih => exact rrStep_W hv hq1 _ ih hc

/-- On every valid input, with a quantum `>= 1`, the main loop of
`simulate_rr` terminates, whatever the clock does, in a state in which the
queue is empty and every process has arrived and is finished. -/
theorem rrW_total (procs : List Process) (hv : ValidInput procs) (quantum : Int)
    (hq1 : 1 ≤ quantum) :
    ∃ (fuel : Nat) (s : RrState), (∀ f, fuel ≤ f →
        simulate_rr f procs quantum = some ⟨orderByPid s.sorted, s.gantt⟩) ∧
      RrW (rrSorted procs) quantum s ∧ RrPairW s ∧ s.q = [] ∧ s.i = s.sorted.length := by
  obtain ⟨s, hrun, hinv, hexit⟩ := whileLoop_total
    (fun s => decide (s.finished < procs.length)) (rrStep quantum)
    (fun s => RrW (rrSorted procs) quantum s ∧ RrPairW s)
    rrMeasure
    (fun s h hc => rrStep_W hv hq1 s h (by simpa using hc))
    (fun s h hc => rrW_measure hq1 s h.1 (by
      rw [keys_length h.1.keys, rrSorted_length]; simpa using hc))
    (rrInit procs) (rrInit_W procs hv quantum)
  have hc : procs.length ≤ s.finished := by simpa using hexit
  have h1 := hinv.1.fin
  have h2 := hinv.1.i_le
  have h3 := keys_length hinv.1.keys
  have h4 := rrSorted_length procs
  have hq0 : s.q.length = 0 := by omega
  refine ⟨rrMeasure (rrInit procs), s, ?_, hinv.1, hinv.2, List.length_eq_zero.1 hq0, by omega⟩
  intro f hf
  simp [simulate_rr, whileLoop_mono _ _ _ _ _ hrun f hf]

/-! ## SJF: what holds whatever the clock does -/

theorem sjfW_step {l0 : List Process} (hs : StaticOk l0) (s : SjfState) (h : SjfW l0 s)
    (hc : s.completed < s.procs.length) : SjfW l0 (sjfStep s) := by
  cases hscan : sjfScan s.time s.procs 0 none INT_MAX with
  | none =>
    by_cases hlt : s.time < sjfNextAT s.procs INT_MAX
    · rw [sjfStep_idle hscan hlt]
      refine ⟨h.keys, h.count, ?_, ?_⟩
      · refine idleChain_snoc h.idle_chain _ ?_
        intro a ha ha0
        have := (h.idle_last a ha ha0).2
        omega
      · intro seg _ _
        exact ⟨hc, rfl⟩
    · rw [sjfStep_stuck hscan hlt]
      exact h
  | some idx =>
    obtain ⟨p, hget, hr, _⟩ := sjfScan_some hscan
    rw [sjfStep_run hscan hget]
    have hp := keys_static h.keys hs hget
    have hpid0 : p.pid ≠ 0 := by omega
    obtain ⟨hlt, hpe⟩ := List.getElem?_eq_some_iff.1 hget
    refine ⟨?_, ?_, ?_, ?_⟩
    · exact (set_keys hget (by rfl)).trans h.keys
    · show s.completed + 1 = _
      rw [List.countP_set _ _ _ _ hlt, hpe, h.count]
      simp [hr.1]
    · exact idleChain_snoc h.idle_chain _ (fun _ _ _ => hpid0)
    · intro seg hseg h0
      have hseg' : (s.gantt ++ [(⟨p.pid, s.time, wrap (s.time + p.bt)⟩ : Segment)]).getLast? =
          some seg := hseg
      rw [getLast?_snoc] at hseg'
      simp only [Option.some.injEq] at hseg'
      subst hseg'
      exact absurd h0 hpid0

theorem sjfW_measure {l0 : List Process} (hb : SentinelOk l0)
    (s : SjfState) (h : SjfW l0 s) (hc : s.completed < l0.length) :
    sjfMeasure l0.length (sjfStep s) < sjfMeasure l0.length s := by
  have hbound : ∀ r ∈ s.procs, r.at_ ≤ INT_MAX ∧ r.bt < INT_MAX := by
    intro r hr
    obtain ⟨k, hk⟩ := List.mem_iff_getElem?.1 hr
    obtain ⟨r0, _, hm, _, h2, h3⟩ := keys_get h.keys hk
    have := hb r0 hm
    omega
  cases hscan : sjfScan s.time s.procs 0 none INT_MAX with
  | some idx =>
    obtain ⟨p, hget, _⟩ := sjfScan_some hscan
    rw [sjfStep_run hscan hget]
    simp only [sjfMeasure, hscan]
    split <;> simp <;> omega
  | none =>
    have hnr : ∀ r ∈ s.procs, r.done = false → s.time < r.at_ := by
      intro r hr hd
      by_contra hle
      have := sjfScan_none hscan r hr ⟨hd, by omega⟩
      have := (hbound r hr).2
      omega
    obtain ⟨p, hp, hpd⟩ := exists_undone (by rw [← h.count, keys_length h.keys]; exact hc)
    obtain ⟨n1, n2, n3⟩ := sjfNextAT_spec s.procs INT_MAX
    have hex : ∃ r ∈ s.procs, r.done = false ∧ r.at_ = sjfNextAT s.procs INT_MAX := by
      rcases n3 with n3 | n3
      · have := n1 p hp hpd
        have := (hbound p hp).1
        exact ⟨p, hp, hpd, by omega⟩
      · exact n3
    obtain ⟨r, hr, hrd, hra⟩ := hex
    have hlt : s.time < sjfNextAT s.procs INT_MAX := by
      have := hnr r hr hrd
      omega
    rw [sjfStep_idle hscan hlt]
    have hnew : sjfScan (sjfNextAT s.procs INT_MAX) s.procs 0 none INT_MAX ≠ none := by
      intro hn
      have := sjfScan_none hn r hr ⟨hrd, by omega⟩
      have := (hbound r hr).2
      omega
    simp only [sjfMeasure, hscan, hnew, if_true, if_false]
    omega

theorem sjfInit_W (sorted : List Process) : SjfW (sjfInit sorted).procs (sjfInit sorted) :=
  ⟨rfl, (sjfInit_inv sorted).count, (sjfInit_ext sorted).idle_chain,
    (sjfInit_ext sorted).idle_last⟩

theorem sjfReach_W {procs sorted : List Process} (hv : ValidInput procs)
    (hp : sorted.Perm procs) {s : SjfState} (hr : SjfReach sorted s) :
    SjfW (sjfInit sorted).procs s := by
  have hs : StaticOk (sjfInit sorted).procs := staticOk_of_valid (sjfInit_keys hp) hv
  have hlen : (sjfInit sorted).procs.length = sorted.length := by simp [sjfInit]
  induction hr with
  | init => exact sjfInit_W sorted
  | step _ hc ih =>
    exact sjfW_step hs _ ih (by rw [keys_length ih.keys, hlen]; exact hc)

/-- Every result of `simulate_sjf` on a valid input, whatever sorted copy
`std::sort` leaves and whatever the clock does, comes from a final state of
the main loop that satisfies `SjfW` with every process counted as completed. -/
theorem sjf_partial_W {procs sorted : List Process} (hv : ValidInput procs)
    (hp : sorted.Perm procs) {fuel : Nat} {r : SimResult}
    (h : simulate_sjf_from fuel sorted = some r) :
    ∃ s, r = ⟨orderByPid s.procs, s.gantt⟩ ∧ SjfW (sjfInit sorted).procs s ∧
      s.procs.length ≤ s.completed := by
  have hs : StaticOk (sjfInit sorted).procs := staticOk_of_valid (sjfInit_keys hp) hv
  have hlen : (sjfInit sorted).procs.length = sorted.length := by simp [sjfInit]
  unfold simulate_sjf_from at h
  obtain ⟨s, hrun, hr⟩ := Option.map_eq_some'.1 h
  obtain ⟨hinv, hexit⟩ := whileLoop_inv _ sjfStep (SjfW (sjfInit sorted).procs)
    (fun s h hc => sjfW_step hs s h (by
      rw [keys_length h.keys, hlen]; simpa using hc))
    _ _ _ (sjfInit_W sorted) hrun
  have hc : sorted.length ≤ s.completed := by simpa using hexit
  exact ⟨s, hr.symm, hinv, by rw [keys_length hinv.keys, hlen]; exact hc⟩

/-- On a valid input that does not collide with the sentinels of the scans,
whatever sorted copy `std::sort` leaves and whatever the clock does, the main
loop of `simulate_sjf` terminates. -/
theorem sjf_terminates_W {procs sorted : List Process} (hv : ValidInput procs)
    (hp : sorted.Perm procs) (hb : SentinelOk procs) :
    ∃ fuel r, ∀ f, fuel ≤ f → simulate_sjf_from f sorted = some r := by
  have hs : StaticOk (sjfInit sorted).procs := staticOk_of_valid (sjfInit_keys hp) hv
  have hb0 : SentinelOk (sjfInit sorted).procs := sentinelOk_of_keys (sjfInit_keys hp) hb
  have hlen : (sjfInit sorted).procs.length = sorted.length := by simp [sjfInit]
  obtain ⟨s, hrun, _, _⟩ := whileLoop_total
    (fun s => decide (s.completed < sorted.length)) sjfStep (SjfW (sjfInit sorted).procs)
    (sjfMeasure sorted.length)
    (fun s h hc => sjfW_step hs s h (by
      rw [keys_length h.keys, hlen]; simpa using hc))
    (fun s h hc => by
      have := sjfW_measure hb0 s h (by rw [hlen]; simpa using hc)
      rwa [hlen] at this)
    (sjfInit sorted) (sjfInit_W sorted)
  refine ⟨sjfMeasure sorted.length (sjfInit sorted), ⟨orderByPid s.procs, s.gantt⟩, ?_⟩
  intro f hf
  simp [simulate_sjf_from, whileLoop_mono _ _ _ _ _ hrun f hf]

/-- With a burst time of `INT_MAX` the main loop of `simulate_sjf` does not
end: the scan starts from `bestBT = INT_MAX` and compares with `<`, so that
process is never selected. -/
theorem sjf_sentinel_burst (fuel : Nat) :
    simulate_sjf fuel [mkProcess 1 0 INT_MAX] = none := by
  have hstep : sjfStep (sjfInit [mkProcess 1 0 INT_MAX]) = sjfInit [mkProcess 1 0 INT_MAX] := by
    decide
  have hcond : (fun s : SjfState => decide (s.completed < [mkProcess 1 0 INT_MAX].length))
      (sjfInit [mkProcess 1 0 INT_MAX]) = true := by decide
  have hloop : ∀ fuel, whileLoop
      (fun s : SjfState => decide (s.completed < [mkProcess 1 0 INT_MAX].length)) sjfStep fuel
      (sjfInit [mkProcess 1 0 INT_MAX]) = none := by
    intro fuel
    induction fuel with
    | zero => simp only [whileLoop, hcond, if_true]
    | succ f ih => simp only [whileLoop, hcond, if_true, hstep, ih]
  have hsort : sortProcs sjfLess [mkProcess 1 0 INT_MAX] = [mkProcess 1 0 INT_MAX] := rfl
  unfold simulate_sjf simulate_sjf_from
  rw [hsort, hloop]
  rfl

/-! ## FCFS: idle segments, whatever the clock does -/

theorem fcfsLoop_idle (l : List Process) :
    ∀ (t : Int) (g : List Segment), (∀ p ∈ l, p.pid ≠ 0) →
      g.Chain' (fun a b => a.pid = 0 → b.pid ≠ 0) → (∀ a, g.getLast? = some a → a.pid ≠ 0) →
      (fcfsLoop l t g).2.Chain' (fun a b => a.pid = 0 → b.pid ≠ 0) ∧
        (∀ a, (fcfsLoop l t g).2.getLast? = some a → a.pid ≠ 0) := by
  induction l with
  | nil => intro t g _ hc hl; exact ⟨hc, hl⟩
  | cons p rest ih =>
    intro t g hnz hc hl
    have hp := hnz p (List.mem_cons_self _ _)
    have hrest : ∀ q ∈ rest, q.pid ≠ 0 := fun q hq => hnz q (List.mem_cons_of_mem _ hq)
    simp only [fcfsLoop]
    have hc1 : (if t < p.at_ then g ++ [(⟨0, t, p.at_⟩ : Segment)] else g).Chain'
        (fun a b => a.pid = 0 → b.pid ≠ 0) := by
      split
      · exact idleChain_snoc hc _ (fun a ha ha0 => absurd ha0 (hl a ha))
      · exact hc
    exact ih _ _ hrest (idleChain_snoc hc1 _ (fun _ _ _ => hp))
      (by
        intro a ha
        rw [getLast?_snoc] at ha
        simp only [Option.some.injEq] at ha
        subst ha
        exact hp)

theorem fcfs_idle (procs : List Process) (hv : ValidInput procs) :
    IdleFollowed (simulate_fcfs procs).gantt := by
  have hperm := sortProcs_perm fcfsLess procs
  have hs : StaticOk (sortProcs fcfsLess procs) := staticOk_of_valid (hperm.map _) hv
  have hnz : ∀ p ∈ sortProcs fcfsLess procs, p.pid ≠ 0 := fun p hp => by
    have := hs.1.range hp
    omega
  obtain ⟨hc, hl⟩ := fcfsLoop_idle (sortProcs fcfsLess procs) 0 [] hnz
    List.chain'_nil (fun a ha => by simp at ha)
  exact idleFollowed_of_chain hc hl

/-! ## The fuel of the main loops -/

theorem simulate_sjf_mono {fuel : Nat} {procs : List Process} {r : SimResult}
    (h : simulate_sjf fuel procs = some r) (f : Nat) (hf : fuel ≤ f) :
    simulate_sjf f procs = some r := by
  unfold simulate_sjf simulate_sjf_from at h ⊢
  obtain ⟨s, hs, hr⟩ := Option.map_eq_some'.1 h
  rw [whileLoop_mono _ _ _ _ _ hs f hf]
  simp [hr]

theorem simulate_rr_mono {fuel : Nat} {procs : List Process} {quantum : Int} {r : SimResult}
    (h : simulate_rr fuel procs quantum = some r) (f : Nat) (hf : fuel ≤ f) :
    simulate_rr f procs quantum = some r := by
  unfold simulate_rr at h ⊢
  obtain ⟨s, hs, hr⟩ := Option.map_eq_some'.1 h
  rw [whileLoop_mono _ _ _ _ _ hs f hf]
  simp [hr]

/-! ## The sorted copy of SJF -/

theorem sjfLess_false {a b : Process} (h : sjfLess b a = false) :
    a.at_ < b.at_ ∨ (a.at_ = b.at_ ∧ a.bt ≤ b.bt) := by
  unfold sjfLess at h
  by_cases he : b.at_ = a.at_
  · simp [he] at h
    exact Or.inr ⟨he.symm, h⟩
  · simp [he] at h
    left
    omega

theorem sjfLess_false_iff {a b : Process} :
    sjfLess b a = false ↔ (a.at_ < b.at_ ∨ (a.at_ = b.at_ ∧ a.bt ≤ b.bt)) := by
  constructor
  · exact sjfLess_false
  · intro h
    unfold sjfLess
    by_cases he : b.at_ = a.at_
    · simp [he]
      omega
    · simp [he]
      omega

theorem sjfLess_true {a b : Process} (h : sjfLess b a = true) :
    b.at_ < a.at_ ∨ (b.at_ = a.at_ ∧ b.bt ≤ a.bt) := by
  unfold sjfLess at h
  by_cases he : b.at_ = a.at_
  · simp [he] at h
    exact Or.inr ⟨he, by omega⟩
  · simp [he] at h
    exact Or.inl h

theorem sortInsert_sjf_pairwise (a : Process) (l : List Process)
    (h : l.Pairwise (fun a b => a.at_ < b.at_ ∨ (a.at_ = b.at_ ∧ a.bt ≤ b.bt))) :
    (sortInsert sjfLess a l).Pairwise
      (fun a b => a.at_ < b.at_ ∨ (a.at_ = b.at_ ∧ a.bt ≤ b.bt)) := by
  induction l with
  | nil => simp [sortInsert]
  | cons b l ih =>
    rw [List.pairwise_cons] at h
    by_cases hl : sjfLess b a = true
    · simp only [sortInsert, hl, if_true]
      rw [List.pairwise_cons]
      refine ⟨?_, ih h.2⟩
      intro x hx
      rcases List.mem_cons.1 ((sortInsert_perm sjfLess a l).subset hx) with rfl | hx
      · exact sjfLess_true hl
      · exact h.1 x hx
    · have hl' : sjfLess b a = false := by simpa using hl
      simp only [sortInsert, hl', Bool.false_eq_true, if_false]
      have hab := sjfLess_false hl'
      rw [List.pairwise_cons]
      refine ⟨?_, List.pairwise_cons.2 h⟩
      intro x hx
      rcases List.mem_cons.1 hx with rfl | hx
      · exact hab
      · have hbx := h.1 x hx
        rcases hab with h1 | ⟨h1, h2⟩ <;> rcases hbx with h3 | ⟨h3, h4⟩
        · exact Or.inl (by omega)
        · exact Or.inl (by omega)
        · exact Or.inl (by omega)
        · exact Or.inr ⟨by omega, by omega⟩

/-- The vector that the insertion sort `sortProcs` leaves is one of the vectors
that `std::sort` may leave, so every statement about all sorted copies holds
of `simulate_sjf`. -/
theorem sortProcs_sjf_sortedCopy (procs : List Process) :
    SortedCopy sjfLess procs (sortProcs sjfLess procs) := by
  refine ⟨sortProcs_perm sjfLess procs, ?_⟩
  have h : (sortProcs sjfLess procs).Pairwise
      (fun a b => a.at_ < b.at_ ∨ (a.at_ = b.at_ ∧ a.bt ≤ b.bt)) := by
    induction procs with
    | nil => simp [sortProcs]
    | cons a l ih => exact sortInsert_sjf_pairwise a _ ih
  exact h.imp (fun hab => sjfLess_false_iff.2 hab)

/-! ## The sorted copy of FCFS and Round Robin -/

theorem fcfsLess_false_iff {a b : Process} :
    fcfsLess b a = false ↔ (a.at_ < b.at_ ∨ (a.at_ = b.at_ ∧ a.pid ≤ b.pid)) := by
  constructor
  · exact fcfsLess_false
  · intro h
    unfold fcfsLess
    by_cases he : b.at_ = a.at_
    · simp [he]
      omega
    · simp [he]
      omega

theorem sorted_fcfs_unique {l1 : List Process} :
    ∀ {l2 : List Process}, (l1.map Process.pid).Nodup → l1.Perm l2 →
      l1.Pairwise (fun a b => fcfsLess b a = false) →
      l2.Pairwise (fun a b => fcfsLess b a = false) → l1 = l2 := by
  induction l1 with
  | nil =>
    intro l2 _ hp _ _
    exact (List.nil_perm.1 hp).symm
  | cons a t1 ih =>
    intro l2 hnd hp h1 h2
    cases l2 with
    | nil => exact absurd (List.perm_nil.1 hp) (List.cons_ne_nil _ _)
    | cons b t2 =>
      rw [List.map_cons, List.nodup_cons] at hnd
      have hab : a = b := by
        by_contra hne
        have ha : a ∈ t2 := by
          rcases List.mem_cons.1 (hp.subset (List.mem_cons_self a t1)) with h | h
          · exact absurd h hne
          · exact h
        have hb : b ∈ t1 := by
          rcases List.mem_cons.1 (hp.symm.subset (List.mem_cons_self b t2)) with h | h
          · exact absurd h.symm hne
          · exact h
        have e1 := fcfsLess_false ((List.pairwise_cons.1 h1).1 b hb)
        have e2 := fcfsLess_false ((List.pairwise_cons.1 h2).1 a ha)
        have hpid : a.pid ≠ b.pid := by
          intro h
          exact hnd.1 (List.mem_map.2 ⟨b, hb, h.symm⟩)
        omega
      subst hab
      rw [ih hnd.2 (List.Perm.cons_inv hp) (List.pairwise_cons.1 h1).2
        (List.pairwise_cons.1 h2).2]

/-- On a valid input the vector that `std::sort` leaves under the comparator of
`simulate_fcfs` and `simulate_rr` is the one that `sortProcs` computes: the
pids are distinct, so the comparator has no ties. -/
theorem sortedCopy_fcfs_eq {procs sorted : List Process} (hv : ValidInput procs)
    (h : SortedCopy fcfsLess procs sorted) : sorted = sortProcs fcfsLess procs := by
  have hnd : (procs.map Process.pid).Nodup := by
    rw [hv.2.1]
    exact pidList_nodup _
  refine sorted_fcfs_unique ((h.1.map Process.pid).nodup_iff.2 hnd)
    (h.1.trans (sortProcs_perm fcfsLess procs).symm) h.2 ?_
  exact (sortProcs_fcfs_pairwise procs).imp (fun hab => fcfsLess_false_iff.2 hab)

/-! ## SJF and FCFS without overflow: selection and order -/

theorem sjf_selects {procs : List Process} {s : SjfState} {l0 : List Process}
    (hv : ValidInput procs) (hinv : SjfInv l0 s) (hout : Outcome procs s.procs s.gantt) :
    ∀ seg ∈ s.gantt, seg.pid ≠ 0 →
      ∃ p ∈ orderByPid s.procs, p.pid = seg.pid ∧ p.at_ ≤ seg.start ∧
        ∀ q ∈ orderByPid s.procs, q.at_ ≤ seg.start → seg.start < q.ct → p.bt ≤ q.bt := by
  intro seg hseg hne
  obtain ⟨k, p, hk, _, hpid, hat, _, _, hmin⟩ := hinv.segs seg hseg hne
  refine ⟨p, (outcome_mem hv hout p).2 (List.mem_iff_getElem?.2 ⟨k, hk⟩), hpid, hat, ?_⟩
  intro q hq hqa hqc
  obtain ⟨j, hj⟩ := List.mem_iff_getElem?.1 ((outcome_mem hv hout q).1 hq)
  rcases hmin j q hj hqa with ⟨_, hct⟩ | hbt
  · omega
  · exact hbt

theorem fcfs_order (procs : List Process) (hv : ValidInput procs) :
    (sortProcs fcfsLess procs).Pairwise
        (fun a b => a.at_ < b.at_ ∨ (a.at_ = b.at_ ∧ a.pid < b.pid)) ∧
      (((fcfsLoopZ (sortProcs fcfsLess procs) 0 []).2.filter
          (fun s => decide (s.pid ≠ 0))).map Segment.pid =
        (sortProcs fcfsLess procs).map Process.pid) ∧
      (∀ b : Process, (sortProcs fcfsLess procs)[0]? = some b →
        ∀ pb ∈ orderByPid (fcfsLoopZ (sortProcs fcfsLess procs) 0 []).1,
        pb.pid = b.pid → pb.ct = max 0 b.at_ + b.bt) ∧
      (∀ (k : Nat) (a b : Process), (sortProcs fcfsLess procs)[k]? = some a →
        (sortProcs fcfsLess procs)[k + 1]? = some b →
        ∀ pa ∈ orderByPid (fcfsLoopZ (sortProcs fcfsLess procs) 0 []).1, pa.pid = a.pid →
        ∀ pb ∈ orderByPid (fcfsLoopZ (sortProcs fcfsLess procs) 0 []).1, pb.pid = b.pid →
          pb.ct = max pa.ct b.at_ + b.bt) := by
  have hperm := sortProcs_perm fcfsLess procs
  have hout := fcfs_outcome procs hv
  have hok := outcome_pidsOk hv hout
  have hs : StaticOk (sortProcs fcfsLess procs) := staticOk_of_valid (hperm.map _) hv
  have hkeys := fcfsLoopZ_keys (sortProcs fcfsLess procs) 0 []
  obtain ⟨c1, c2⟩ := fcfsLoopZ_ct (sortProcs fcfsLess procs) 0 []
  have hfind : ∀ (k : Nat) (a : Process), (sortProcs fcfsLess procs)[k]? = some a →
      ∀ pa ∈ orderByPid (fcfsLoopZ (sortProcs fcfsLess procs) 0 []).1, pa.pid = a.pid →
        (fcfsLoopZ (sortProcs fcfsLess procs) 0 []).1[k]? = some pa ∧ pa.at_ = a.at_ ∧
          pa.bt = a.bt := by
    intro k a ha pa hpa hpid
    have hpa' := (outcome_mem hv hout pa).1 hpa
    obtain ⟨r, hr, hrm, e1, e2, e3⟩ := keys_get hkeys.symm ha
    have : r = pa := hok.inj hrm hpa' (by omega)
    subst this
    exact ⟨hr, e2, e3⟩
  refine ⟨sortProcs_fcfs_strict ?_, ?_, ?_, ?_⟩
  · rw [hv.2.1]; exact pidList_nodup _
  · have := fcfsLoopZ_pids (sortProcs fcfsLess procs) 0 []
      (fun p hp => by have := hs.1.range hp; omega)
    simpa using this
  · intro b hb pb hpb hpid
    obtain ⟨h1, h2, h3⟩ := hfind 0 b hb pb hpb hpid
    rw [c1 pb h1, h2, h3]
  · intro k a b ha hb pa hpa hpida pb hpb hpidb
    obtain ⟨h1, _, _⟩ := hfind k a ha pa hpa hpida
    obtain ⟨h4, h5, h6⟩ := hfind (k + 1) b hb pb hpb hpidb
    rw [c2 k pa pb h1 h4, h5, h6]

/-! ## Round Robin, whatever the clock: slices and remaining work -/

theorem rrW_sum_nonneg {l0 : List Process} {quantum : Int} {s : RrState}
    (h : RrW l0 quantum s) : 0 ≤ (s.sorted.map Process.remaining).sum := by
  apply List.sum_nonneg
  intro x hx
  obtain ⟨p, hp, rfl⟩ := List.mem_map.1 hx
  obtain ⟨k, hk⟩ := List.mem_iff_getElem?.1 hp
  exact (h.per k p hk).1

theorem rrW_dequeue {l0 : List Process} {quantum : Int} (hq1 : 1 ≤ quantum) {s : RrState}
    (h : RrW l0 quantum s) (hc : s.finished < s.sorted.length) {idx : Nat} {rest : List Nat}
    (hq : s.q = idx :: rest) :
    0 < (s.sorted.getD idx Process.zero).remaining ∧
    1 ≤ min (s.sorted.getD idx Process.zero).remaining quantum ∧
    totalRemaining (rrStep quantum s) =
      totalRemaining s - min (s.sorted.getD idx Process.zero).remaining quantum := by
  rcases rrStep_descW s h hc with ⟨a, m, hj⟩ | ⟨idx2, qrest, p, p2, m, hrun⟩
  · have := hj.hq
    rw [hq] at this
    exact absurd this (List.cons_ne_nil _ _)
  · have h1 := hrun.hq
    rw [hq] at h1
    obtain ⟨rfl, rfl⟩ := List.cons.inj h1
    have hget := hrun.hget
    have hp : s.sorted.getD idx Process.zero = p := by
      rw [List.getD_eq_getElem?_getD, hget]; rfl
    rw [hp]
    have hpos : 0 < p.remaining := (h.per idx p hget).2.2.1 (by rw [hq]; simp)
    refine ⟨hpos, le_min (by omega) hq1, ?_⟩
    unfold totalRemaining
    rw [hrun.sorted, sum_remaining_set p2 hget, hrun.rem]
    ring

/-! ## Properties of the specification -/

/-- C1, as stated, fails: on the valid input P1 (arrival 0, burst 2147483647),
P2 (arrival 0, burst 1) the 32-bit clock of `simulate_fcfs` wraps when P2
completes: P2 gets completion time -2147483648, turnaround time -2147483648
and waiting time 2147483647, which is not `turnaround_time - burst_time`
= -2147483649. -/
theorem C1_overflow_counterexample :
    ValidInput overflowProcs ∧
    (simulate_fcfs overflowProcs).result.map (fun p => (p.pid, p.ct, p.tat, p.wt)) =
      [(1, 2147483647, 2147483647, 0), (2, -2147483648, -2147483648, 2147483647)] ∧
    ¬ (∀ p ∈ (simulate_fcfs overflowProcs).result,
        p.tat = p.ct - p.at_ ∧ p.wt = p.tat - p.bt) := by
  decide

/-- C1, amended.  For every valid input on which the clock cannot overflow
(`NoOverflow`), each of `simulate_fcfs`, `simulate_sjf` and `simulate_rr`
(quantum `>= 1`) produces a table that lists the input processes in input
order, and every process of it satisfies
`turnaround_time = completion_time - arrival_time` and
`waiting_time = turnaround_time - burst_time`.
For `simulate_sjf` the result is that of every vector `std::sort` may leave
(`SortedCopy`); `simulate_sjf` and `simulate_rr` return the same result for
every iteration budget from some bound on. -/
theorem C1_metric_identities (procs : List Process) (quantum : Int) (hv : ValidInput procs)
    (hb : NoOverflow procs) (hq : 1 ≤ quantum) :
    ((simulate_fcfs procs).result.map Process.key = procs.map Process.key ∧
      ∀ p ∈ (simulate_fcfs procs).result, p.tat = p.ct - p.at_ ∧ p.wt = p.tat - p.bt) ∧
    (∀ sorted, SortedCopy sjfLess procs sorted →
      ∃ fuel r, (∀ f, fuel ≤ f → simulate_sjf_from f sorted = some r) ∧
        (r.result.map Process.key = procs.map Process.key ∧
      ∀ p ∈ r.result, p.tat = p.ct - p.at_ ∧ p.wt = p.tat - p.bt)) ∧
    (∃ fuel r, (∀ f, fuel ≤ f → simulate_rr f procs quantum = some r) ∧
      (r.result.map Process.key = procs.map Process.key ∧
      ∀ p ∈ r.result, p.tat = p.ct - p.at_ ∧ p.wt = p.tat - p.bt)) := by
  refine ⟨?_, ?_, ?_⟩
  · rw [fcfs_eq procs hv hb]
    exact outcome_metrics hv (fcfs_outcome procs hv)
  · intro sorted hsc
    obtain ⟨fuel, s, hrun, hinv, hext, hdone, hn, hout⟩ := sjf_total_all hv hb hsc.1
    exact ⟨fuel, _, hrun, outcome_metrics hv hout⟩
  · obtain ⟨fuel, s, hrun, hinv, hext, hq0, hi, hout⟩ := rr_total_all procs hv hb quantum hq
    exact ⟨fuel, _, hrun, outcome_metrics hv hout⟩

theorem C1_metric_identities_witness :
    ValidInput sampleProcs ∧ NoOverflow sampleProcs ∧ (1 : Int) ≤ 2 ∧ SortedCopy sjfLess sampleProcs sampleProcs ∧
    ((simulate_fcfs sampleProcs).result.map Process.key = sampleProcs.map Process.key ∧
      ∀ p ∈ (simulate_fcfs sampleProcs).result, p.tat = p.ct - p.at_ ∧ p.wt = p.tat - p.bt) ∧
    (∀ sorted, SortedCopy sjfLess sampleProcs sorted →
      ∃ fuel r, (∀ f, fuel ≤ f → simulate_sjf_from f sorted = some r) ∧
        (r.result.map Process.key = sampleProcs.map Process.key ∧
      ∀ p ∈ r.result, p.tat = p.ct - p.at_ ∧ p.wt = p.tat - p.bt)) ∧
    (∃ fuel r, (∀ f, fuel ≤ f → simulate_rr f sampleProcs 2 = some r) ∧
      (r.result.map Process.key = sampleProcs.map Process.key ∧
      ∀ p ∈ r.result, p.tat = p.ct - p.at_ ∧ p.wt = p.tat - p.bt)) :=
  ⟨by decide, by decide, by decide, by decide,
    C1_metric_identities sampleProcs 2 (by decide) (by decide) (by decide)⟩

/-- C2, as stated, fails: on the valid input P1 (arrival 0, burst 2147483647),
P2 (arrival 0, burst 1) the 32-bit clock of `simulate_fcfs` wraps, and the
chart is P1 [0, 2147483647), P2 [2147483647, -2147483648): the segment of P2
has `start > end`. -/
theorem C2_overflow_counterexample :
    ValidInput overflowProcs ∧
    (simulate_fcfs overflowProcs).gantt = [⟨1, 0, 2147483647⟩, ⟨2, 2147483647, -2147483648⟩] ∧
    ¬ (∀ s ∈ (simulate_fcfs overflowProcs).gantt, s.start < s.end_) := by
  decide

/-- C2, amended.  For every valid input on which the clock cannot overflow
(`NoOverflow`), the chart returned by each of `simulate_fcfs`, `simulate_sjf`
and `simulate_rr` (quantum `>= 1`) is a contiguous partition of
`[0, end of last segment)`: it has a first segment, which starts at 0; every
segment starts where the previous one ends; every segment has `start < end`.
For `simulate_sjf` the result is that of every vector `std::sort` may leave
(`SortedCopy`); `simulate_sjf` and `simulate_rr` return the same result for
every iteration budget from some bound on. -/
theorem C2_contiguous_chart (procs : List Process) (quantum : Int) (hv : ValidInput procs)
    (hb : NoOverflow procs) (hq : 1 ≤ quantum) :
    ((∃ s, (simulate_fcfs procs).gantt.head? = some s ∧ s.start = 0) ∧
      (simulate_fcfs procs).gantt.Chain' (fun a b => b.start = a.end_) ∧ ∀ s ∈ (simulate_fcfs procs).gantt, s.start < s.end_) ∧
    (∀ sorted, SortedCopy sjfLess procs sorted →
      ∃ fuel r, (∀ f, fuel ≤ f → simulate_sjf_from f sorted = some r) ∧
        ((∃ s, r.gantt.head? = some s ∧ s.start = 0) ∧
      r.gantt.Chain' (fun a b => b.start = a.end_) ∧ ∀ s ∈ r.gantt, s.start < s.end_)) ∧
    (∃ fuel r, (∀ f, fuel ≤ f → simulate_rr f procs quantum = some r) ∧
      ((∃ s, r.gantt.head? = some s ∧ s.start = 0) ∧
      r.gantt.Chain' (fun a b => b.start = a.end_) ∧ ∀ s ∈ r.gantt, s.start < s.end_)) := by
  refine ⟨?_, ?_, ?_⟩
  · rw [fcfs_eq procs hv hb]
    exact Outcome.contiguous (fcfs_outcome procs hv)
  · intro sorted hsc
    obtain ⟨fuel, s, hrun, hinv, hext, hdone, hn, hout⟩ := sjf_total_all hv hb hsc.1
    exact ⟨fuel, _, hrun, Outcome.contiguous hout⟩
  · obtain ⟨fuel, s, hrun, hinv, hext, hq0, hi, hout⟩ := rr_total_all procs hv hb quantum hq
    exact ⟨fuel, _, hrun, Outcome.contiguous hout⟩

theorem C2_contiguous_chart_witness :
    ValidInput gapProcs ∧ NoOverflow gapProcs ∧ (1 : Int) ≤ 2 ∧ SortedCopy sjfLess gapProcs gapProcs ∧
    (simulate_fcfs gapProcs).gantt = [⟨0, 0, 1⟩, ⟨1, 1, 3⟩, ⟨0, 3, 5⟩, ⟨2, 5, 6⟩] ∧
    ((∃ s, (simulate_fcfs gapProcs).gantt.head? = some s ∧ s.start = 0) ∧
      (simulate_fcfs gapProcs).gantt.Chain' (fun a b => b.start = a.end_) ∧ ∀ s ∈ (simulate_fcfs gapProcs).gantt, s.start < s.end_) ∧
    (∀ sorted, SortedCopy sjfLess gapProcs sorted →
      ∃ fuel r, (∀ f, fuel ≤ f → simulate_sjf_from f sorted = some r) ∧
        ((∃ s, r.gantt.head? = some s ∧ s.start = 0) ∧
      r.gantt.Chain' (fun a b => b.start = a.end_) ∧ ∀ s ∈ r.gantt, s.start < s.end_)) ∧
    (∃ fuel r, (∀ f, fuel ≤ f → simulate_rr f gapProcs 2 = some r) ∧
      ((∃ s, r.gantt.head? = some s ∧ s.start = 0) ∧
      r.gantt.Chain' (fun a b => b.start = a.end_) ∧ ∀ s ∈ r.gantt, s.start < s.end_)) :=
  ⟨by decide, by decide, by decide, by decide, by decide,
    C2_contiguous_chart gapProcs 2 (by decide) (by decide) (by decide)⟩

/-- C3, as stated, fails: on the valid input P1 (arrival 0, burst 2147483647),
P2 (arrival 0, burst 1) the 32-bit clock of `simulate_fcfs` wraps, the only
segment of P2 is [2147483647, -2147483648), and `end - start` over the
segments of P2 is -4294967295, not its burst time 1. -/
theorem C3_overflow_counterexample :
    ValidInput overflowProcs ∧
    segTime 2 (simulate_fcfs overflowProcs).gantt = -4294967295 ∧
    ¬ (∀ p ∈ overflowProcs, segTime p.pid (simulate_fcfs overflowProcs).gantt = p.bt) := by
  decide

/-- C3, amended.  For every valid input on which the clock cannot overflow
(`NoOverflow`) and each of the three simulators (quantum `>= 1` for Round
Robin), for every process `p` of the input the sum of `end - start` over the
segments of the chart tagged with the pid of `p` equals the burst time of `p`.
For `simulate_sjf` the result is that of every vector `std::sort` may leave
(`SortedCopy`); `simulate_sjf` and `simulate_rr` return the same result for
every iteration budget from some bound on. -/
theorem C3_segment_time_is_burst (procs : List Process) (quantum : Int) (hv : ValidInput procs)
    (hb : NoOverflow procs) (hq : 1 ≤ quantum) :
    (∀ p ∈ procs, segTime p.pid (simulate_fcfs procs).gantt = p.bt) ∧
    (∀ sorted, SortedCopy sjfLess procs sorted →
      ∃ fuel r, (∀ f, fuel ≤ f → simulate_sjf_from f sorted = some r) ∧
        (∀ p ∈ procs, segTime p.pid r.gantt = p.bt)) ∧
    (∃ fuel r, (∀ f, fuel ≤ f → simulate_rr f procs quantum = some r) ∧
      (∀ p ∈ procs, segTime p.pid r.gantt = p.bt)) := by
  refine ⟨?_, ?_, ?_⟩
  · rw [fcfs_eq procs hv hb]
    exact outcome_segTime (fcfs_outcome procs hv)
  · intro sorted hsc
    obtain ⟨fuel, s, hrun, hinv, hext, hdone, hn, hout⟩ := sjf_total_all hv hb hsc.1
    exact ⟨fuel, _, hrun, outcome_segTime hout⟩
  · obtain ⟨fuel, s, hrun, hinv, hext, hq0, hi, hout⟩ := rr_total_all procs hv hb quantum hq
    exact ⟨fuel, _, hrun, outcome_segTime hout⟩

theorem C3_segment_time_is_burst_witness :
    ValidInput sampleProcs ∧ NoOverflow sampleProcs ∧ (1 : Int) ≤ 2 ∧ SortedCopy sjfLess sampleProcs sampleProcs ∧
    (∀ p ∈ sampleProcs, segTime p.pid (simulate_fcfs sampleProcs).gantt = p.bt) ∧
    (∀ sorted, SortedCopy sjfLess sampleProcs sorted →
      ∃ fuel r, (∀ f, fuel ≤ f → simulate_sjf_from f sorted = some r) ∧
        (∀ p ∈ sampleProcs, segTime p.pid r.gantt = p.bt)) ∧
    (∃ fuel r, (∀ f, fuel ≤ f → simulate_rr f sampleProcs 2 = some r) ∧
      (∀ p ∈ sampleProcs, segTime p.pid r.gantt = p.bt)) :=
  ⟨by decide, by decide, by decide, by decide,
    C3_segment_time_is_burst sampleProcs 2 (by decide) (by decide) (by decide)⟩

/-- C4, as stated, fails: on the valid input P1 (arrival 0, burst 2147483645),
P2 (arrival 0, burst 2147483646), P3 (arrival 1, burst 2147483646) the 32-bit
clock of `simulate_sjf` wraps when P2 completes, and the chart is
P1 [0, 2147483645), P2 [2147483645, -5), idle [-5, 1), P3 [1, 2147483647).
The segment of P3 starts at 1, when P1 has arrived (at 0) and has completion
time 2147483645 > 1, and P1 has a smaller burst time than P3. -/
theorem C4_overflow_counterexample :
    ValidInput overflowSjfProcs ∧ SentinelOk overflowSjfProcs ∧
    ∃ r, simulate_sjf 4 overflowSjfProcs = some r ∧
      r.gantt = [⟨1, 0, 2147483645⟩, ⟨2, 2147483645, -5⟩, ⟨0, -5, 1⟩, ⟨3, 1, 2147483647⟩] ∧
      ¬ (∀ seg ∈ r.gantt, seg.pid ≠ 0 →
          ∃ p ∈ r.result, p.pid = seg.pid ∧ p.at_ ≤ seg.start ∧
            ∀ q ∈ r.result, q.at_ ≤ seg.start → seg.start < q.ct → p.bt ≤ q.bt) := by
  have h : simulate_sjf 4 overflowSjfProcs =
      some ⟨[⟨1, 0, 2147483645, 2147483645, 2147483645, 0, 2147483645, true⟩,
              ⟨2, 0, 2147483646, -5, -5, 2147483645, 2147483646, true⟩,
              ⟨3, 1, 2147483646, 2147483647, 2147483646, 0, 2147483646, true⟩],
            [⟨1, 0, 2147483645⟩, ⟨2, 2147483645, -5⟩, ⟨0, -5, 1⟩, ⟨3, 1, 2147483647⟩]⟩ := by
    decide
  exact ⟨by decide, by decide, _, h, rfl, by decide⟩

/-- C4, amended.  For every valid input on which the clock cannot overflow
(`NoOverflow`), whatever vector `std::sort` leaves (`SortedCopy`),
`simulate_sjf` returns a chart in which each non-idle segment `[s, e)` belongs
to a process `p` of the table that has arrived (`p.at <= s`) and whose burst
time is minimal among the processes that have arrived by `s` and are not
complete at `s`: every process `q` with `q.at <= s` and `q.ct > s` has
`p.bt <= q.bt`. -/
theorem C4_sjf_selects_shortest (procs : List Process) (hv : ValidInput procs)
    (hb : NoOverflow procs) :
    ∀ sorted, SortedCopy sjfLess procs sorted →
      ∃ fuel r, (∀ f, fuel ≤ f → simulate_sjf_from f sorted = some r) ∧
        r.result.map Process.key = procs.map Process.key ∧
        ∀ seg ∈ r.gantt, seg.pid ≠ 0 →
          ∃ p ∈ r.result, p.pid = seg.pid ∧ p.at_ ≤ seg.start ∧
            ∀ q ∈ r.result, q.at_ ≤ seg.start → seg.start < q.ct → p.bt ≤ q.bt := by
  intro sorted hsc
  obtain ⟨fuel, s, hrun, hinv, hext, hdone, hn, hout⟩ := sjf_total_all hv hb hsc.1
  exact ⟨fuel, _, hrun, outcome_keys hv hout, sjf_selects hv hinv hout⟩

theorem C4_sjf_selects_shortest_witness :
    ValidInput sampleProcs ∧ NoOverflow sampleProcs ∧
    SortedCopy sjfLess sampleProcs sampleProcs ∧
    ∀ sorted, SortedCopy sjfLess sampleProcs sorted →
      ∃ fuel r, (∀ f, fuel ≤ f → simulate_sjf_from f sorted = some r) ∧
        r.result.map Process.key = sampleProcs.map Process.key ∧
        ∀ seg ∈ r.gantt, seg.pid ≠ 0 →
          ∃ p ∈ r.result, p.pid = seg.pid ∧ p.at_ ≤ seg.start ∧
            ∀ q ∈ r.result, q.at_ ≤ seg.start → seg.start < q.ct → p.bt ≤ q.bt :=
  ⟨by decide, by decide, by decide,
    C4_sjf_selects_shortest sampleProcs (by decide) (by decide)⟩

/-- C5, as stated, fails: on the valid input P1 (arrival 0, burst 2147483647),
P2 (arrival 0, burst 1), which is in `(arrival_time, pid)` order, the 32-bit
clock of `simulate_fcfs` wraps: the completion time of P2 is -2147483648, not
`max(completion time of P1, arrival of P2) + burst of P2` = 2147483648. -/
theorem C5_overflow_counterexample :
    ValidInput overflowProcs ∧ sortProcs fcfsLess overflowProcs = overflowProcs ∧
    ∃ p1 p2, (simulate_fcfs overflowProcs).result = [p1, p2] ∧ p1.pid = 1 ∧ p2.pid = 2 ∧
      p1.ct = 2147483647 ∧ p2.ct = -2147483648 ∧ p2.ct ≠ max p1.ct p2.at_ + p2.bt :=
  ⟨by decide, by decide, ⟨1, 0, 2147483647, 2147483647, 2147483647, 0, 2147483647, false⟩,
    ⟨2, 0, 1, -2147483648, -2147483648, 2147483647, 1, false⟩,
    by decide, by decide, by decide, by decide, by decide, by decide⟩

/-- C5, amended.  For every valid input on which the clock cannot overflow
(`NoOverflow`), `simulate_fcfs` runs the processes in ascending
`(arrival_time, pid)` order: with `sorted` the processes sorted by arrival
time then pid, the pids of the non-idle segments, read in chart order, are
the pids of `sorted` (each process once); the completion time of the first
process of `sorted` is `max(0, its arrival) + its burst`, and that of every
later one is `max(completion time of its predecessor, its arrival) + its
burst`. -/
theorem C5_fcfs_order (procs : List Process) (hv : ValidInput procs) (hb : NoOverflow procs) :
    ∃ sorted : List Process, sorted.Perm procs ∧
      sorted.Pairwise (fun a b => a.at_ < b.at_ ∨ (a.at_ = b.at_ ∧ a.pid < b.pid)) ∧
      ((simulate_fcfs procs).gantt.filter (fun s => decide (s.pid ≠ 0))).map Segment.pid =
        sorted.map Process.pid ∧
      (∀ b : Process, sorted[0]? = some b → ∀ pb ∈ (simulate_fcfs procs).result,
        pb.pid = b.pid → pb.ct = max 0 b.at_ + b.bt) ∧
      (∀ (k : Nat) (a b : Process), sorted[k]? = some a → sorted[k + 1]? = some b →
        ∀ pa ∈ (simulate_fcfs procs).result, pa.pid = a.pid →
        ∀ pb ∈ (simulate_fcfs procs).result, pb.pid = b.pid →
          pb.ct = max pa.ct b.at_ + b.bt) := by
  rw [fcfs_eq procs hv hb]
  obtain ⟨h1, h2, h3, h4⟩ := fcfs_order procs hv
  exact ⟨sortProcs fcfsLess procs, sortProcs_perm fcfsLess procs, h1, h2, h3, h4⟩

theorem C5_fcfs_order_witness :
    ValidInput sampleProcs ∧ NoOverflow sampleProcs ∧
    ∃ sorted : List Process, sorted.Perm sampleProcs ∧
      sorted.Pairwise (fun a b => a.at_ < b.at_ ∨ (a.at_ = b.at_ ∧ a.pid < b.pid)) ∧
      ((simulate_fcfs sampleProcs).gantt.filter (fun s => decide (s.pid ≠ 0))).map Segment.pid =
        sorted.map Process.pid ∧
      (∀ b : Process, sorted[0]? = some b → ∀ pb ∈ (simulate_fcfs sampleProcs).result,
        pb.pid = b.pid → pb.ct = max 0 b.at_ + b.bt) ∧
      (∀ (k : Nat) (a b : Process), sorted[k]? = some a → sorted[k + 1]? = some b →
        ∀ pa ∈ (simulate_fcfs sampleProcs).result, pa.pid = a.pid →
        ∀ pb ∈ (simulate_fcfs sampleProcs).result, pb.pid = b.pid →
          pb.ct = max pa.ct b.at_ + b.bt) :=
  ⟨by decide, by decide, C5_fcfs_order sampleProcs (by decide) (by decide)⟩

/-- C6. On the sample input (pids 1,2,3 with AT = 0,1,2 and BT = 5,3,8)
`simulate_fcfs` yields, in pid order, CT = 5,8,16, TAT = 5,7,14 and
WT = 0,4,6; the averages are 26/3 and 10/3, which round to 8.67 and 3.33 at
two decimals. -/
theorem C6_fcfs_sample :
    (simulate_fcfs sampleProcs).result.map Process.pid = [1, 2, 3] ∧
    (simulate_fcfs sampleProcs).result.map Process.ct = [5, 8, 16] ∧
    (simulate_fcfs sampleProcs).result.map Process.tat = [5, 7, 14] ∧
    (simulate_fcfs sampleProcs).result.map Process.wt = [0, 4, 6] ∧
    averageTAT (simulate_fcfs sampleProcs).result = 26 / 3 ∧
    averageWT (simulate_fcfs sampleProcs).result = 10 / 3 ∧
    roundTwo (averageTAT (simulate_fcfs sampleProcs).result) = 867 / 100 ∧
    roundTwo (averageWT (simulate_fcfs sampleProcs).result) = 333 / 100 := by
  have h1 : (simulate_fcfs sampleProcs).result.map Process.tat = [5, 7, 14] := by decide
  have h2 : (simulate_fcfs sampleProcs).result.map Process.wt = [0, 4, 6] := by decide
  have h3 : (simulate_fcfs sampleProcs).result.length = 3 := by decide
  have h4 : averageTAT (simulate_fcfs sampleProcs).result = 26 / 3 := by
    rw [averageTAT, h1, h3]; norm_num
  have h5 : averageWT (simulate_fcfs sampleProcs).result = 10 / 3 := by
    rw [averageWT, h2, h3]; norm_num
  refine ⟨by decide, by decide, h1, h2, h4, h5, ?_, ?_⟩
  · rw [h4, roundTwo, round_eq]
    have : ⌊(26 / 3 : ℚ) * 100 + 1 / 2⌋ = 867 := by
      rw [Int.floor_eq_iff]; constructor <;> norm_num
    rw [this]; norm_num
  · rw [h5, roundTwo, round_eq]
    have : ⌊(10 / 3 : ℚ) * 100 + 1 / 2⌋ = 333 := by
      rw [Int.floor_eq_iff]; constructor <;> norm_num
    rw [this]; norm_num

/-- C7. On the sample input `simulate_sjf` produces exactly the chart
P1 [0,5), P2 [5,8), P3 [8,16), with no idle segment, and in pid order
CT = 5,8,16, TAT = 5,7,14, WT = 0,4,6: the chart and the table columns of
`simulate_fcfs` on that input. -/
theorem C7_sjf_sample :
    ∃ r, (∀ f, 3 ≤ f → simulate_sjf f sampleProcs = some r) ∧
      r.gantt = [⟨1, 0, 5⟩, ⟨2, 5, 8⟩, ⟨3, 8, 16⟩] ∧
      (∀ seg ∈ r.gantt, seg.pid ≠ 0) ∧
      r.result.map Process.pid = [1, 2, 3] ∧
      r.result.map Process.ct = [5, 8, 16] ∧
      r.result.map Process.tat = [5, 7, 14] ∧
      r.result.map Process.wt = [0, 4, 6] ∧
      r.gantt = (simulate_fcfs sampleProcs).gantt ∧
      r.result.map (fun p => (p.pid, p.at_, p.bt, p.ct, p.tat, p.wt)) =
        (simulate_fcfs sampleProcs).result.map
          (fun p => (p.pid, p.at_, p.bt, p.ct, p.tat, p.wt)) := by
  have h : simulate_sjf 3 sampleProcs =
      some ⟨[⟨1, 0, 5, 5, 5, 0, 5, true⟩, ⟨2, 1, 3, 8, 7, 4, 3, true⟩,
              ⟨3, 2, 8, 16, 14, 6, 8, true⟩],
            [⟨1, 0, 5⟩, ⟨2, 5, 8⟩, ⟨3, 8, 16⟩]⟩ := by decide
  exact ⟨_, fun f hf => simulate_sjf_mono h f hf, rfl, by decide, by decide, by decide,
    by decide, by decide, by decide, by decide⟩

/-- C8. On the sample input with quantum 2, `simulate_rr` produces the chart
P1[0,2) P2[2,4) P3[4,6) P1[6,8) P2[8,9) P3[9,11) P1[11,12) P3[12,14) P3[14,16):
no idle segment, every slice of length at most 2, total length
`sum(BT) = 16`; every process ends with `remaining_time = 0`, and in pid order
CT = 12,9,16. -/
theorem C8_rr_sample :
    ∃ r, (∀ f, 9 ≤ f → simulate_rr f sampleProcs 2 = some r) ∧
      r.gantt = [⟨1, 0, 2⟩, ⟨2, 2, 4⟩, ⟨3, 4, 6⟩, ⟨1, 6, 8⟩, ⟨2, 8, 9⟩, ⟨3, 9, 11⟩,
        ⟨1, 11, 12⟩, ⟨3, 12, 14⟩, ⟨3, 14, 16⟩] ∧
      (∀ seg ∈ r.gantt, seg.pid ≠ 0 ∧ seg.end_ - seg.start ≤ 2) ∧
      (r.gantt.map (fun seg => seg.end_ - seg.start)).sum = 16 ∧
      (sampleProcs.map Process.bt).sum = 16 ∧
      r.result.map Process.pid = [1, 2, 3] ∧
      (∀ p ∈ r.result, p.remaining = 0) ∧
      r.result.map Process.ct = [12, 9, 16] := by
  have h : simulate_rr 9 sampleProcs 2 =
      some ⟨[⟨1, 0, 5, 12, 12, 7, 0, false⟩, ⟨2, 1, 3, 9, 8, 5, 0, false⟩,
              ⟨3, 2, 8, 16, 14, 6, 0, false⟩],
            [⟨1, 0, 2⟩, ⟨2, 2, 4⟩, ⟨3, 4, 6⟩, ⟨1, 6, 8⟩, ⟨2, 8, 9⟩, ⟨3, 9, 11⟩,
              ⟨1, 11, 12⟩, ⟨3, 12, 14⟩, ⟨3, 14, 16⟩]⟩ := by decide
  exact ⟨_, fun f hf => simulate_rr_mono h f hf, rfl, by decide, by decide, by decide,
    by decide, by decide, by decide⟩

/-- C9. For every valid input and every quantum `>= 1`, in the chart returned
by `simulate_rr` each process appears in exactly `ceil(burst_time / quantum)`
segments; segments are not merged: every non-idle segment is at most one
quantum long. -/
theorem C9_rr_segment_count (procs : List Process) (quantum : Int) (hv : ValidInput procs)
    (hq : 1 ≤ quantum) :
    ∃ fuel r, (∀ f, fuel ≤ f → simulate_rr f procs quantum = some r) ∧
      (∀ p ∈ procs, (segCount p.pid r.gantt : Int) = ⌈(p.bt : ℚ) / (quantum : ℚ)⌉) ∧
      ∀ seg ∈ r.gantt, seg.pid ≠ 0 → seg.end_ - seg.start ≤ quantum := by
  obtain ⟨fuel, s, hrun, hw, _, hq0, hi⟩ := rrW_total procs hv quantum hq
  have hperm : (s.sorted.map Process.key).Perm (procs.map Process.key) := by
    rw [hw.keys]
    exact rrSorted_keys procs
  refine ⟨fuel, _, hrun, ?_, ?_⟩
  · intro p hp
    obtain ⟨p', hp', e1, _, e3⟩ := keys_perm_mem hperm.symm hp
    obtain ⟨k, hk⟩ := List.mem_iff_getElem?.1 hp'
    obtain ⟨_, hcnt, _, _, hzero⟩ := hw.per k p' hk
    have hlt : k < s.i := by
      rw [hi]
      exact (List.getElem?_eq_some_iff.1 hk).1
    have h0 := hzero hlt (by rw [hq0]; simp)
    rw [h0] at hcnt
    simp only [Int.cast_zero, zero_div, Int.ceil_zero, add_zero] at hcnt
    show (segCount p.pid s.gantt : Int) = _
    rw [← e1, ← e3]
    exact hcnt
  · intro seg hseg hne
    exact (hw.segs seg hseg hne).2

theorem C9_rr_segment_count_witness :
    ValidInput sampleProcs ∧ (1 : Int) ≤ 2 ∧
    ∃ fuel r, (∀ f, fuel ≤ f → simulate_rr f sampleProcs 2 = some r) ∧
      (∀ p ∈ sampleProcs, (segCount p.pid r.gantt : Int) = ⌈(p.bt : ℚ) / ((2 : Int) : ℚ)⌉) ∧
      ∀ seg ∈ r.gantt, seg.pid ≠ 0 → seg.end_ - seg.start ≤ 2 :=
  ⟨by decide, by decide, C9_rr_segment_count sampleProcs 2 (by decide) (by decide)⟩

/-- C10, as stated, fails: on the valid input P1 (arrival 0, burst
2147483647), P2 (arrival 0, burst 10), P3 (arrival 5, burst 5) with quantum
2147483647 the 32-bit clock of `simulate_rr` wraps during the slice of P2, and
the chart is P1 [0, 2147483647), P2 [2147483647, -2147483639),
P3 [-2147483639, -2147483634): the segment of P3 starts before its arrival
time 5. -/
theorem C10_overflow_counterexample :
    ValidInput overflowRrProcs ∧ (1 : Int) ≤ 2147483647 ∧
    ∃ r, simulate_rr 3 overflowRrProcs 2147483647 = some r ∧
      r.gantt = [⟨1, 0, 2147483647⟩, ⟨2, 2147483647, -2147483639⟩,
        ⟨3, -2147483639, -2147483634⟩] ∧
      ¬ (∀ p ∈ overflowRrProcs, ∀ seg ∈ r.gantt, seg.pid = p.pid → p.at_ ≤ seg.start) := by
  have h : simulate_rr 3 overflowRrProcs 2147483647 =
      some ⟨[⟨1, 0, 2147483647, 2147483647, 2147483647, 0, 0, false⟩,
              ⟨2, 0, 10, -2147483639, -2147483639, 2147483647, 0, false⟩,
              ⟨3, 5, 5, -2147483634, -2147483639, -2147483644, 0, false⟩],
            [⟨1, 0, 2147483647⟩, ⟨2, 2147483647, -2147483639⟩,
              ⟨3, -2147483639, -2147483634⟩]⟩ := by
    decide
  exact ⟨by decide, by decide, _, h, rfl, by decide⟩

/-- C10, amended.  For every valid input on which the clock cannot overflow
(`NoOverflow`) and each of the three simulators (quantum `>= 1` for Round
Robin), no non-idle segment starts before its process has arrived: every
segment `[s, e)` tagged with the pid of a process `p` has `p.at <= s`.
For `simulate_sjf` the result is that of every vector `std::sort` may leave
(`SortedCopy`); `simulate_sjf` and `simulate_rr` return the same result for
every iteration budget from some bound on. -/
theorem C10_no_start_before_arrival (procs : List Process) (quantum : Int) (hv : ValidInput procs)
    (hb : NoOverflow procs) (hq : 1 ≤ quantum) :
    (∀ p ∈ procs, ∀ seg ∈ (simulate_fcfs procs).gantt, seg.pid = p.pid → p.at_ ≤ seg.start) ∧
    (∀ sorted, SortedCopy sjfLess procs sorted →
      ∃ fuel r, (∀ f, fuel ≤ f → simulate_sjf_from f sorted = some r) ∧
        (∀ p ∈ procs, ∀ seg ∈ r.gantt, seg.pid = p.pid → p.at_ ≤ seg.start)) ∧
    (∃ fuel r, (∀ f, fuel ≤ f → simulate_rr f procs quantum = some r) ∧
      (∀ p ∈ procs, ∀ seg ∈ r.gantt, seg.pid = p.pid → p.at_ ≤ seg.start)) := by
  refine ⟨?_, ?_, ?_⟩
  · rw [fcfs_eq procs hv hb]
    exact outcome_arrived hv (fcfs_outcome procs hv)
  · intro sorted hsc
    obtain ⟨fuel, s, hrun, hinv, hext, hdone, hn, hout⟩ := sjf_total_all hv hb hsc.1
    exact ⟨fuel, _, hrun, outcome_arrived hv hout⟩
  · obtain ⟨fuel, s, hrun, hinv, hext, hq0, hi, hout⟩ := rr_total_all procs hv hb quantum hq
    exact ⟨fuel, _, hrun, outcome_arrived hv hout⟩

theorem C10_no_start_before_arrival_witness :
    ValidInput sampleProcs ∧ NoOverflow sampleProcs ∧ (1 : Int) ≤ 2 ∧ SortedCopy sjfLess sampleProcs sampleProcs ∧
    (∀ p ∈ sampleProcs, ∀ seg ∈ (simulate_fcfs sampleProcs).gantt, seg.pid = p.pid → p.at_ ≤ seg.start) ∧
    (∀ sorted, SortedCopy sjfLess sampleProcs sorted →
      ∃ fuel r, (∀ f, fuel ≤ f → simulate_sjf_from f sorted = some r) ∧
        (∀ p ∈ sampleProcs, ∀ seg ∈ r.gantt, seg.pid = p.pid → p.at_ ≤ seg.start)) ∧
    (∃ fuel r, (∀ f, fuel ≤ f → simulate_rr f sampleProcs 2 = some r) ∧
      (∀ p ∈ sampleProcs, ∀ seg ∈ r.gantt, seg.pid = p.pid → p.at_ ≤ seg.start)) :=
  ⟨by decide, by decide, by decide, by decide,
    C10_no_start_before_arrival sampleProcs 2 (by decide) (by decide) (by decide)⟩

/-! ## Idle segments, whatever the clock does -/

theorem sjf_idle_W {procs sorted : List Process} (hv : ValidInput procs)
    (hp : sorted.Perm procs) {fuel : Nat} {r : SimResult}
    (h : simulate_sjf_from fuel sorted = some r) : IdleFollowed r.gantt := by
  obtain ⟨s, rfl, hw, hlen⟩ := sjf_partial_W hv hp h
  refine idleFollowed_of_chain hw.idle_chain ?_
  intro a ha h0
  have := (hw.idle_last a ha h0).1
  omega

theorem rr_idle_W {l0 : List Process} {quantum : Int} {s : RrState} (hw : RrW l0 quantum s)
    (hq0 : s.q = []) : IdleFollowed s.gantt :=
  idleFollowed_of_chain hw.idle_chain (fun a ha h0 => hw.idle_last a ha h0 hq0)

/-! ## Properties of the specification, continued -/

/-- C11. For every valid input and each of the three simulators (quantum `>= 1`
for Round Robin), every idle segment of the chart (pid 0) is immediately
followed by a non-idle segment: the chart never has two idle segments in a
row and never ends with an idle segment.  This holds whatever the 32-bit
clock does.  For `simulate_sjf` it holds of every result it returns, whatever
vector `std::sort` leaves (`SortedCopy`), and it returns one whenever no time
collides with the `INT_MAX` sentinels of its scans (`SentinelOk`);
`simulate_rr` returns the same result for every iteration budget from some
bound on. -/
theorem C11_idle_followed_by_run (procs : List Process) (quantum : Int) (hv : ValidInput procs)
    (hq : 1 ≤ quantum) :
    (∀ (i : Nat) (a : Segment), (simulate_fcfs procs).gantt[i]? = some a → a.pid = 0 →
        ∃ b, (simulate_fcfs procs).gantt[i + 1]? = some b ∧ b.pid ≠ 0) ∧
    (∀ sorted, SortedCopy sjfLess procs sorted →
      (∀ fuel r, simulate_sjf_from fuel sorted = some r →
        ∀ (i : Nat) (a : Segment), r.gantt[i]? = some a → a.pid = 0 →
        ∃ b, r.gantt[i + 1]? = some b ∧ b.pid ≠ 0) ∧
      (SentinelOk procs → ∃ fuel r, ∀ f, fuel ≤ f → simulate_sjf_from f sorted = some r)) ∧
    (∃ fuel r, (∀ f, fuel ≤ f → simulate_rr f procs quantum = some r) ∧
      ∀ (i : Nat) (a : Segment), r.gantt[i]? = some a → a.pid = 0 →
        ∃ b, r.gantt[i + 1]? = some b ∧ b.pid ≠ 0) := by
  refine ⟨fcfs_idle procs hv, ?_, ?_⟩
  · intro sorted hsc
    exact ⟨fun fuel r h => sjf_idle_W hv hsc.1 h, sjf_terminates_W hv hsc.1⟩
  · obtain ⟨fuel, s, hrun, hw, _, hq0, _⟩ := rrW_total procs hv quantum hq
    exact ⟨fuel, _, hrun, rr_idle_W hw hq0⟩

theorem C11_idle_followed_by_run_witness :
    ValidInput gapProcs ∧ (1 : Int) ≤ 2 ∧ SortedCopy sjfLess gapProcs gapProcs ∧
    SentinelOk gapProcs ∧
    (simulate_fcfs gapProcs).gantt = [⟨0, 0, 1⟩, ⟨1, 1, 3⟩, ⟨0, 3, 5⟩, ⟨2, 5, 6⟩] ∧
    (simulate_sjf_from 4 gapProcs).map SimResult.gantt = some [⟨0, 0, 1⟩, ⟨1, 1, 3⟩, ⟨0, 3, 5⟩, ⟨2, 5, 6⟩] ∧
    (simulate_rr 3 gapProcs 2).map SimResult.gantt = some [⟨0, 0, 1⟩, ⟨1, 1, 3⟩, ⟨0, 3, 5⟩, ⟨2, 5, 6⟩] ∧
    (∀ (i : Nat) (a : Segment), (simulate_fcfs gapProcs).gantt[i]? = some a → a.pid = 0 →
        ∃ b, (simulate_fcfs gapProcs).gantt[i + 1]? = some b ∧ b.pid ≠ 0) ∧
    (∀ sorted, SortedCopy sjfLess gapProcs sorted →
      (∀ fuel r, simulate_sjf_from fuel sorted = some r →
        ∀ (i : Nat) (a : Segment), r.gantt[i]? = some a → a.pid = 0 →
        ∃ b, r.gantt[i + 1]? = some b ∧ b.pid ≠ 0) ∧
      (SentinelOk gapProcs → ∃ fuel r, ∀ f, fuel ≤ f → simulate_sjf_from f sorted = some r)) ∧
    (∃ fuel r, (∀ f, fuel ≤ f → simulate_rr f gapProcs 2 = some r) ∧
      ∀ (i : Nat) (a : Segment), r.gantt[i]? = some a → a.pid = 0 →
        ∃ b, r.gantt[i + 1]? = some b ∧ b.pid ≠ 0) :=
  ⟨by decide, by decide, by decide, by decide, by decide, by decide, by decide,
    C11_idle_followed_by_run gapProcs 2 (by decide) (by decide)⟩

/-- C12, as stated, fails: on the valid input P1 (arrival 0, burst
2147483647), P2 (arrival 0, burst 1) the 32-bit clock of `simulate_fcfs` wraps
when P2 completes: P2 gets completion time -2147483648 and turnaround time
-2147483648, which is negative, and its completion time is below
`arrival_time + burst_time` = 1. -/
theorem C12_overflow_counterexample :
    ValidInput overflowProcs ∧
    (simulate_fcfs overflowProcs).result.map (fun p => (p.pid, p.ct, p.tat, p.wt)) =
      [(1, 2147483647, 2147483647, 0), (2, -2147483648, -2147483648, 2147483647)] ∧
    ¬ (∀ p ∈ (simulate_fcfs overflowProcs).result,
        0 ≤ p.tat ∧ 0 ≤ p.wt ∧ p.at_ + p.bt ≤ p.ct) := by
  decide

/-- C12, amended.  For every valid input on which the clock cannot overflow
(`NoOverflow`) and each of the three simulators (quantum `>= 1` for Round
Robin), every process of the table has turnaround time `>= 0` and waiting
time `>= 0`, and `completion_time >= arrival_time + burst_time`.
For `simulate_sjf` the result is that of every vector `std::sort` may leave
(`SortedCopy`); `simulate_sjf` and `simulate_rr` return the same result for
every iteration budget from some bound on. -/
theorem C12_nonneg_metrics (procs : List Process) (quantum : Int) (hv : ValidInput procs)
    (hb : NoOverflow procs) (hq : 1 ≤ quantum) :
    (∀ p ∈ (simulate_fcfs procs).result, 0 ≤ p.tat ∧ 0 ≤ p.wt ∧ p.at_ + p.bt ≤ p.ct) ∧
    (∀ sorted, SortedCopy sjfLess procs sorted →
      ∃ fuel r, (∀ f, fuel ≤ f → simulate_sjf_from f sorted = some r) ∧
        (∀ p ∈ r.result, 0 ≤ p.tat ∧ 0 ≤ p.wt ∧ p.at_ + p.bt ≤ p.ct)) ∧
    (∃ fuel r, (∀ f, fuel ≤ f → simulate_rr f procs quantum = some r) ∧
      (∀ p ∈ r.result, 0 ≤ p.tat ∧ 0 ≤ p.wt ∧ p.at_ + p.bt ≤ p.ct)) := by
  refine ⟨?_, ?_, ?_⟩
  · rw [fcfs_eq procs hv hb]
    exact out2_nonneg hv (fcfs_outcome procs hv) (fcfs_outcome2 procs hv)
  · intro sorted hsc
    obtain ⟨fuel, s, hrun, hinv, hext, hdone, hn, hout⟩ := sjf_total_all hv hb hsc.1
    exact ⟨fuel, _, hrun, out2_nonneg hv hout (sjf_outcome2 hv hsc.1 hinv hext hdone hn)⟩
  · obtain ⟨fuel, s, hrun, hinv, hext, hq0, hi, hout⟩ := rr_total_all procs hv hb quantum hq
    exact ⟨fuel, _, hrun, out2_nonneg hv hout (rr_outcome2 hinv hext hq0 hi)⟩

theorem C12_nonneg_metrics_witness :
    ValidInput sampleProcs ∧ NoOverflow sampleProcs ∧ (1 : Int) ≤ 2 ∧ SortedCopy sjfLess sampleProcs sampleProcs ∧
    (∀ p ∈ (simulate_fcfs sampleProcs).result, 0 ≤ p.tat ∧ 0 ≤ p.wt ∧ p.at_ + p.bt ≤ p.ct) ∧
    (∀ sorted, SortedCopy sjfLess sampleProcs sorted →
      ∃ fuel r, (∀ f, fuel ≤ f → simulate_sjf_from f sorted = some r) ∧
        (∀ p ∈ r.result, 0 ≤ p.tat ∧ 0 ≤ p.wt ∧ p.at_ + p.bt ≤ p.ct)) ∧
    (∃ fuel r, (∀ f, fuel ≤ f → simulate_rr f sampleProcs 2 = some r) ∧
      (∀ p ∈ r.result, 0 ≤ p.tat ∧ 0 ≤ p.wt ∧ p.at_ + p.bt ≤ p.ct)) :=
  ⟨by decide, by decide, by decide, by decide,
    C12_nonneg_metrics sampleProcs 2 (by decide) (by decide) (by decide)⟩

/-- C13, as stated, fails: on the valid input P1 (arrival 5, burst 3),
P2 (arrival 1, burst 3), P3 (arrival 0, burst 10) the SJF chart is
P3 [0,10), P2 [10,13), P1 [13,16).  At clock 10 both P1 and P2 have arrived,
are unfinished and share the minimum burst time 3; P1 comes first in the
input, yet P2 is selected. -/
theorem C13_input_order_counterexample :
    ValidInput tieProcs ∧ SentinelOk tieProcs ∧
    ∃ r, simulate_sjf 3 tieProcs = some r ∧
      r.gantt = [⟨3, 0, 10⟩, ⟨2, 10, 13⟩, ⟨1, 13, 16⟩] ∧
      ¬ TieBreakByInputOrder tieProcs r := by
  have h : simulate_sjf 3 tieProcs =
      some ⟨[⟨1, 5, 3, 16, 11, 8, 3, true⟩, ⟨2, 1, 3, 13, 12, 9, 3, true⟩,
              ⟨3, 0, 10, 10, 10, 0, 10, true⟩],
            [⟨3, 0, 10⟩, ⟨2, 10, 13⟩, ⟨1, 13, 16⟩]⟩ := by decide
  refine ⟨by decide, by decide, _, h, rfl, ?_⟩
  intro hno
  have := hno ⟨2, 10, 13⟩ (by simp) (by decide) 1 0 (mkProcess 2 1 3) (mkProcess 1 5 3)
    (by decide) (by decide) (by decide) (by decide) (by decide) (by decide)
  omega

/-- C13, amended.  In `simulate_sjf` on a valid input, whatever vector `sorted`
the call of `std::sort` by arrival time then burst time leaves (`SortedCopy`)
and at every state `s` that the main loop reaches: the working copy holds the
processes at the positions of `sorted`, and when the scan selects the index
`idx`, the process `p` at `idx` is unfinished and has arrived, the iteration
appends a segment of `p` to the chart, every unfinished process `q` that has
arrived has `p.bt <= q.bt`, and when `q` ties with `p` in burst time, `p`
comes first in the working copy (`idx <= j`) and has arrived no later than
`q`.  The position in the input and the pid play no part. -/
theorem C13_sjf_tie_break (procs sorted : List Process) (hv : ValidInput procs)
    (hsc : SortedCopy sjfLess procs sorted) (s : SjfState) (hr : SjfReach sorted s)
    (idx : Nat) (hscan : sjfScan s.time s.procs 0 none INT_MAX = some idx) :
    s.procs.map Process.key = sorted.map Process.key ∧
    ∃ p, s.procs[idx]? = some p ∧ p.done = false ∧ p.at_ ≤ s.time ∧
      (sjfStep s).gantt = s.gantt ++ [⟨p.pid, s.time, wrap (s.time + p.bt)⟩] ∧
      ∀ (j : Nat) (q : Process), s.procs[j]? = some q → q.done = false → q.at_ ≤ s.time →
        p.bt ≤ q.bt ∧ (q.bt = p.bt → idx ≤ j ∧ p.at_ ≤ q.at_) := by
  have hw := sjfReach_W hv hsc.1 hr
  have hkeys : s.procs.map Process.key = sorted.map Process.key :=
    hw.keys.trans (sjfInit_keys0 sorted)
  obtain ⟨p, hget, hrdy, _, hmin, hfirst⟩ := sjfScan_some hscan
  refine ⟨hkeys, p, hget, hrdy.1, hrdy.2, ?_, ?_⟩
  · rw [sjfStep_run hscan hget]
  · intro j q hj hqd hqa
    have hqr : Ready s.time q := ⟨hqd, hqa⟩
    refine ⟨hmin q (List.mem_iff_getElem?.2 ⟨j, hj⟩) hqr, ?_⟩
    intro hbt
    have hij : idx ≤ j := by
      by_contra hlt
      have := hfirst j q (by omega) hj hqr
      omega
    refine ⟨hij, ?_⟩
    rcases Nat.lt_or_eq_of_le hij with hlt | heq
    · obtain ⟨p0, hp0, _, _, ea, _⟩ := keys_get hkeys hget
      obtain ⟨q0, hq0, _, _, eb, _⟩ := keys_get hkeys hj
      obtain ⟨h1, rfl⟩ := List.getElem?_eq_some_iff.1 hp0
      obtain ⟨h2, rfl⟩ := List.getElem?_eq_some_iff.1 hq0
      have := sjfLess_false (List.pairwise_iff_getElem.1 hsc.2 idx j h1 h2 hlt)
      omega
    · subst heq
      rw [hget] at hj
      simp only [Option.some.injEq] at hj
      subst hj
      exact le_refl _

theorem C13_sjf_tie_break_witness :
    ValidInput tieProcs ∧ SortedCopy sjfLess tieProcs tieSorted ∧
    SjfReach tieSorted (sjfStep (sjfInit tieSorted)) ∧
    sjfScan (sjfStep (sjfInit tieSorted)).time (sjfStep (sjfInit tieSorted)).procs 0 none
      INT_MAX = some 1 ∧
    ((sjfStep (sjfInit tieSorted)).procs.map Process.key = tieSorted.map Process.key ∧
    ∃ p, (sjfStep (sjfInit tieSorted)).procs[1]? = some p ∧ p.done = false ∧
      p.at_ ≤ (sjfStep (sjfInit tieSorted)).time ∧
      (sjfStep (sjfStep (sjfInit tieSorted))).gantt = (sjfStep (sjfInit tieSorted)).gantt ++
        [⟨p.pid, (sjfStep (sjfInit tieSorted)).time,
          wrap ((sjfStep (sjfInit tieSorted)).time + p.bt)⟩] ∧
      ∀ (j : Nat) (q : Process), (sjfStep (sjfInit tieSorted)).procs[j]? = some q →
        q.done = false → q.at_ ≤ (sjfStep (sjfInit tieSorted)).time →
        p.bt ≤ q.bt ∧ (q.bt = p.bt → 1 ≤ j ∧ p.at_ ≤ q.at_)) :=
  ⟨by decide, by decide, SjfReach.step SjfReach.init (by decide), by decide,
    C13_sjf_tie_break tieProcs tieSorted (by decide) (by decide) (sjfStep (sjfInit tieSorted))
      (SjfReach.step SjfReach.init (by decide)) 1 (by decide)⟩

/-- C14.  On valid input with a quantum `>= 1`, `simulate_rr` terminates
(every large enough iteration budget gives the same result) and its chart has
at most `sum of burst times` non-idle segments.  Along the run, the total
remaining work stays between 0 and the sum of the burst times, and at every
iteration of the main loop that dequeues an index the dequeued process has
`remaining > 0`, the slice `exec = min(remaining, quantum)` is at least 1, and
the total remaining work decreases by exactly `exec`, so strictly. -/
theorem C14_rr_terminates (procs : List Process) (quantum : Int) (hv : ValidInput procs)
    (hq : 1 ≤ quantum) :
    (∃ fuel r, (∀ f, fuel ≤ f → simulate_rr f procs quantum = some r) ∧
      (nonIdleCount r.gantt : Int) ≤ (procs.map Process.bt).sum) ∧
    ∀ s, RrReach procs quantum s →
      0 ≤ totalRemaining s ∧ totalRemaining s ≤ (procs.map Process.bt).sum ∧
      (s.finished < procs.length → ∀ idx rest, s.q = idx :: rest →
        0 < (s.sorted.getD idx Process.zero).remaining ∧
        1 ≤ min (s.sorted.getD idx Process.zero).remaining quantum ∧
        totalRemaining (rrStep quantum s) =
          totalRemaining s - min (s.sorted.getD idx Process.zero).remaining quantum ∧
        totalRemaining (rrStep quantum s) < totalRemaining s) := by
  constructor
  · obtain ⟨fuel, s, h1, hw, _, _, _⟩ := rrW_total procs hv quantum hq
    refine ⟨fuel, _, h1, ?_⟩
    have h0 := rrW_sum_nonneg hw
    have h2 := hw.count
    rw [rrSorted_bt_sum] at h2
    show (nonIdleCount s.gantt : Int) ≤ _
    omega
  · intro s hr
    obtain ⟨hw, _⟩ := rrReach_W hv hq hr
    have h0 := rrW_sum_nonneg hw
    have h1 := hw.count
    rw [rrSorted_bt_sum] at h1
    have hn : (0 : Int) ≤ (nonIdleCount s.gantt : Int) := Int.natCast_nonneg _
    refine ⟨h0, by unfold totalRemaining; omega, ?_⟩
    intro hc idx rest hqe
    have hc2 : s.finished < s.sorted.length := by
      rw [keys_length hw.keys, rrSorted_length]
      exact hc
    obtain ⟨a, b, c⟩ := rrW_dequeue hq hw hc2 hqe
    exact ⟨a, b, c, by omega⟩

theorem C14_rr_terminates_witness :
    ValidInput sampleProcs ∧ (1 : Int) ≤ 2 ∧
    (∃ fuel r, (∀ f, fuel ≤ f → simulate_rr f sampleProcs 2 = some r) ∧
      (nonIdleCount r.gantt : Int) ≤ (sampleProcs.map Process.bt).sum) ∧
    ∀ s, RrReach sampleProcs 2 s →
      0 ≤ totalRemaining s ∧ totalRemaining s ≤ (sampleProcs.map Process.bt).sum ∧
      (s.finished < sampleProcs.length → ∀ idx rest, s.q = idx :: rest →
        0 < (s.sorted.getD idx Process.zero).remaining ∧
        1 ≤ min (s.sorted.getD idx Process.zero).remaining 2 ∧
        totalRemaining (rrStep 2 s) =
          totalRemaining s - min (s.sorted.getD idx Process.zero).remaining 2 ∧
        totalRemaining (rrStep 2 s) < totalRemaining s) :=
  ⟨by decide, by decide, (C14_rr_terminates sampleProcs 2 (by decide) (by decide)).1,
    (C14_rr_terminates sampleProcs 2 (by decide) (by decide)).2⟩

/-- C15, as stated, fails: on the empty process list no simulator reports a
precondition violation.  `simulate_fcfs`, `simulate_sjf` and `simulate_rr`
(here with quantum 2) each return normally, without running a single loop
iteration, an empty table and an empty chart. -/
theorem C15_empty_counterexample :
    simulate_fcfs [] = ⟨[], []⟩ ∧ simulate_sjf 0 [] = some ⟨[], []⟩ ∧
    simulate_rr 0 [] 2 = some ⟨[], []⟩ := by
  decide

/-- C15, amended.  Given an empty process list, each simulator returns
normally with an empty table and an empty chart: `simulate_fcfs`, and, for
every quantum and every iteration budget, `simulate_sjf` and `simulate_rr`. -/
theorem C15_empty_input (fuel : Nat) (quantum : Int) :
    simulate_fcfs [] = ⟨[], []⟩ ∧ simulate_sjf fuel [] = some ⟨[], []⟩ ∧
    simulate_rr fuel [] quantum = some ⟨[], []⟩ := by
  have h1 : simulate_fcfs [] = ⟨[], []⟩ := by decide
  have h2 : simulate_sjf fuel [] = some ⟨[], []⟩ := by
    cases fuel <;> rfl
  have h3 : simulate_rr fuel [] quantum = some ⟨[], []⟩ := by
    cases fuel <;> rfl
  exact ⟨h1, h2, h3⟩

/-- C16, as stated, fails: on the valid input P1 (arrival 0, burst
2147483647), P2 (arrival 0, burst 1) the 32-bit clock of `simulate_fcfs` wraps,
and the one segment of P2, [2147483647, -2147483648), has length
-4294967295, not its burst time 1. -/
theorem C16_overflow_counterexample :
    ValidInput overflowProcs ∧
    (simulate_fcfs overflowProcs).gantt = [⟨1, 0, 2147483647⟩, ⟨2, 2147483647, -2147483648⟩] ∧
    ¬ (∀ p ∈ overflowProcs, ∀ seg ∈ (simulate_fcfs overflowProcs).gantt,
        seg.pid = p.pid → seg.end_ - seg.start = p.bt) := by
  decide

/-- C16, amended.  For every valid input on which the clock cannot overflow
(`NoOverflow`), `simulate_fcfs` and `simulate_sjf` are non-preemptive: each
process of the input has exactly one segment in the chart, its length is the
burst time of the process, the chart has exactly N non-idle segments and at
most N idle segments.  For `simulate_sjf` the result is that of every vector
`std::sort` may leave (`SortedCopy`), the same for every iteration budget from
some bound on. -/
theorem C16_non_preemptive (procs : List Process) (hv : ValidInput procs)
    (hb : NoOverflow procs) :
    ((∀ p ∈ procs, segCount p.pid (simulate_fcfs procs).gantt = 1 ∧
        (∃ seg ∈ (simulate_fcfs procs).gantt, seg.pid = p.pid ∧ seg.end_ - seg.start = p.bt) ∧
        ∀ seg ∈ (simulate_fcfs procs).gantt, seg.pid = p.pid → seg.end_ - seg.start = p.bt) ∧
      nonIdleCount (simulate_fcfs procs).gantt = procs.length ∧ segCount 0 (simulate_fcfs procs).gantt ≤ procs.length) ∧
    (∀ sorted, SortedCopy sjfLess procs sorted →
      ∃ fuel r, (∀ f, fuel ≤ f → simulate_sjf_from f sorted = some r) ∧
        ((∀ p ∈ procs, segCount p.pid r.gantt = 1 ∧
        (∃ seg ∈ r.gantt, seg.pid = p.pid ∧ seg.end_ - seg.start = p.bt) ∧
        ∀ seg ∈ r.gantt, seg.pid = p.pid → seg.end_ - seg.start = p.bt) ∧
      nonIdleCount r.gantt = procs.length ∧ segCount 0 r.gantt ≤ procs.length)) := by
  refine ⟨?_, ?_⟩
  · rw [fcfs_eq procs hv hb]
    exact fcfs_nonpreemptive procs hv
  · intro sorted hsc
    obtain ⟨fuel, s, hrun, hinv, hext, hdone, hn, hout⟩ := sjf_total_all hv hb hsc.1
    exact ⟨fuel, _, hrun, sjf_nonpreemptive hinv hext hdone hn hout⟩

theorem C16_non_preemptive_witness :
    ValidInput gapProcs ∧ NoOverflow gapProcs ∧ SortedCopy sjfLess gapProcs gapProcs ∧
    (simulate_fcfs gapProcs).gantt = [⟨0, 0, 1⟩, ⟨1, 1, 3⟩, ⟨0, 3, 5⟩, ⟨2, 5, 6⟩] ∧
    ((∀ p ∈ gapProcs, segCount p.pid (simulate_fcfs gapProcs).gantt = 1 ∧
        (∃ seg ∈ (simulate_fcfs gapProcs).gantt, seg.pid = p.pid ∧ seg.end_ - seg.start = p.bt) ∧
        ∀ seg ∈ (simulate_fcfs gapProcs).gantt, seg.pid = p.pid → seg.end_ - seg.start = p.bt) ∧
      nonIdleCount (simulate_fcfs gapProcs).gantt = gapProcs.length ∧ segCount 0 (simulate_fcfs gapProcs).gantt ≤ gapProcs.length) ∧
    (∀ sorted, SortedCopy sjfLess gapProcs sorted →
      ∃ fuel r, (∀ f, fuel ≤ f → simulate_sjf_from f sorted = some r) ∧
        ((∀ p ∈ gapProcs, segCount p.pid r.gantt = 1 ∧
        (∃ seg ∈ r.gantt, seg.pid = p.pid ∧ seg.end_ - seg.start = p.bt) ∧
        ∀ seg ∈ r.gantt, seg.pid = p.pid → seg.end_ - seg.start = p.bt) ∧
      nonIdleCount r.gantt = gapProcs.length ∧ segCount 0 r.gantt ≤ gapProcs.length)) :=
  ⟨by decide, by decide, by decide, by decide, C16_non_preemptive gapProcs (by decide) (by decide)⟩

/-- C17.  In `simulate_rr`, for every valid input and quantum `>= 1`, whatever
the 32-bit clock does: let `a = [s, e)` be a segment of a process `p` that
leaves `p` unfinished, so that `p` has a later segment `b`, and let `q` be
another process that arrives during `a` or exactly at its end
(`s < q.arrival_time <= e`).  Then `q` has a segment before `b`: the first
segment of `q` precedes every later segment of `p`, in particular the next
one. -/
theorem C17_rr_new_arrivals_first (procs : List Process) (quantum : Int)
    (hv : ValidInput procs) (hq : 1 ≤ quantum) :
    ∃ fuel r, (∀ f, fuel ≤ f → simulate_rr f procs quantum = some r) ∧
      ∀ (i j : Nat) (a b : Segment), r.gantt[i]? = some a → r.gantt[j]? = some b → i < j →
        ∀ p ∈ procs, a.pid = p.pid → b.pid = p.pid →
          ∀ q ∈ procs, q.pid ≠ p.pid → a.start < q.at_ → q.at_ ≤ a.end_ →
            ∃ k c, k < j ∧ r.gantt[k]? = some c ∧ c.pid = q.pid := by
  obtain ⟨fuel, s, hrun, hw, hpair, _, _⟩ := rrW_total procs hv quantum hq
  have hperm : (s.sorted.map Process.key).Perm (procs.map Process.key) := by
    rw [hw.keys]
    exact rrSorted_keys procs
  refine ⟨fuel, _, hrun, ?_⟩
  intro i j a b hi hj hij p hp hap hbp q hqm hne hlo hhi
  obtain ⟨p', hp', e1, _, _⟩ := keys_perm_mem hperm.symm hp
  obtain ⟨q', hq', e2, e3, _⟩ := keys_perm_mem hperm.symm hqm
  obtain ⟨kp, hkp⟩ := List.mem_iff_getElem?.1 hp'
  obtain ⟨kr, hkr⟩ := List.mem_iff_getElem?.1 hq'
  have hs : StaticOk (rrSorted procs) := staticOk_of_valid (rrSorted_keys procs) hv
  have hp0 : a.pid ≠ 0 := by
    have := keys_static hw.keys hs hkp
    omega
  have hk : kr ≠ kp := by
    intro h
    subst h
    rw [hkp] at hkr
    simp only [Option.some.injEq] at hkr
    subst hkr
    omega
  rcases hpair.pair i a hi hp0 kp p' kr q' hkp (by omega) hkr hk (by omega) (by omega) with
    ⟨k, c, hkc, hc, hno⟩ | ⟨hno, _⟩
  · refine ⟨k, c, ?_, hkc, by omega⟩
    by_contra hjk
    exact hno j b hij (by omega) hj (by omega)
  · exact absurd (by omega : b.pid = a.pid) (hno j b hij hj)

theorem C17_rr_new_arrivals_first_witness :
    ValidInput sampleProcs ∧ (1 : Int) ≤ 2 ∧
    ∃ fuel r, (∀ f, fuel ≤ f → simulate_rr f sampleProcs 2 = some r) ∧
      ∀ (i j : Nat) (a b : Segment), r.gantt[i]? = some a → r.gantt[j]? = some b → i < j →
        ∀ p ∈ sampleProcs, a.pid = p.pid → b.pid = p.pid →
          ∀ q ∈ sampleProcs, q.pid ≠ p.pid → a.start < q.at_ → q.at_ ≤ a.end_ →
            ∃ k c, k < j ∧ r.gantt[k]? = some c ∧ c.pid = q.pid :=
  ⟨by decide, by decide, C17_rr_new_arrivals_first sampleProcs 2 (by decide) (by decide)⟩

/-- C18, as stated, fails: on the valid input P1 (arrival 0, burst
2147483647), P2 (arrival 0, burst 1) the 32-bit clock of `simulate_fcfs` wraps:
the final segment of the chart, that of P2, ends at -2147483648, while P1 has
completion time 2147483647, so the end of the final segment is not the
maximum completion time. -/
theorem C18_overflow_counterexample :
    ValidInput overflowProcs ∧
    (simulate_fcfs overflowProcs).gantt.getLast? = some ⟨2, 2147483647, -2147483648⟩ ∧
    ∃ p ∈ (simulate_fcfs overflowProcs).result, p.pid = 1 ∧ p.ct = 2147483647 ∧
      ¬ p.ct ≤ (-2147483648 : Int) := by
  decide

/-- C18, amended.  For every valid input on which the clock cannot overflow
(`NoOverflow`) and each of the three simulators (quantum `>= 1` for Round
Robin), the completion time of each process of the table is the end of the
last segment of the chart tagged with its pid, and the end of the final
segment of the chart is the maximum completion time: no completion time
exceeds it and some process completes at it.
For `simulate_sjf` the result is that of every vector `std::sort` may leave
(`SortedCopy`); `simulate_sjf` and `simulate_rr` return the same result for
every iteration budget from some bound on. -/
theorem C18_completion_is_last_end (procs : List Process) (quantum : Int) (hv : ValidInput procs)
    (hb : NoOverflow procs) (hq : 1 ≤ quantum) :
    ((∀ p ∈ (simulate_fcfs procs).result, lastEnd p.pid (simulate_fcfs procs).gantt = some p.ct) ∧
      ∃ last, (simulate_fcfs procs).gantt.getLast? = some last ∧ (∀ p ∈ (simulate_fcfs procs).result, p.ct ≤ last.end_) ∧
        ∃ p ∈ (simulate_fcfs procs).result, p.ct = last.end_) ∧
    (∀ sorted, SortedCopy sjfLess procs sorted →
      ∃ fuel r, (∀ f, fuel ≤ f → simulate_sjf_from f sorted = some r) ∧
        ((∀ p ∈ r.result, lastEnd p.pid r.gantt = some p.ct) ∧
      ∃ last, r.gantt.getLast? = some last ∧ (∀ p ∈ r.result, p.ct ≤ last.end_) ∧
        ∃ p ∈ r.result, p.ct = last.end_)) ∧
    (∃ fuel r, (∀ f, fuel ≤ f → simulate_rr f procs quantum = some r) ∧
      ((∀ p ∈ r.result, lastEnd p.pid r.gantt = some p.ct) ∧
      ∃ last, r.gantt.getLast? = some last ∧ (∀ p ∈ r.result, p.ct ≤ last.end_) ∧
        ∃ p ∈ r.result, p.ct = last.end_)) := by
  refine ⟨?_, ?_, ?_⟩
  · rw [fcfs_eq procs hv hb]
    exact out2_last hv (fcfs_outcome procs hv) (fcfs_outcome2 procs hv)
  · intro sorted hsc
    obtain ⟨fuel, s, hrun, hinv, hext, hdone, hn, hout⟩ := sjf_total_all hv hb hsc.1
    exact ⟨fuel, _, hrun, out2_last hv hout (sjf_outcome2 hv hsc.1 hinv hext hdone hn)⟩
  · obtain ⟨fuel, s, hrun, hinv, hext, hq0, hi, hout⟩ := rr_total_all procs hv hb quantum hq
    exact ⟨fuel, _, hrun, out2_last hv hout (rr_outcome2 hinv hext hq0 hi)⟩

theorem C18_completion_is_last_end_witness :
    ValidInput gapProcs ∧ NoOverflow gapProcs ∧ (1 : Int) ≤ 2 ∧ SortedCopy sjfLess gapProcs gapProcs ∧
    (simulate_fcfs gapProcs).gantt = [⟨0, 0, 1⟩, ⟨1, 1, 3⟩, ⟨0, 3, 5⟩, ⟨2, 5, 6⟩] ∧
    ((∀ p ∈ (simulate_fcfs gapProcs).result, lastEnd p.pid (simulate_fcfs gapProcs).gantt = some p.ct) ∧
      ∃ last, (simulate_fcfs gapProcs).gantt.getLast? = some last ∧ (∀ p ∈ (simulate_fcfs gapProcs).result, p.ct ≤ last.end_) ∧
        ∃ p ∈ (simulate_fcfs gapProcs).result, p.ct = last.end_) ∧
    (∀ sorted, SortedCopy sjfLess gapProcs sorted →
      ∃ fuel r, (∀ f, fuel ≤ f → simulate_sjf_from f sorted = some r) ∧
        ((∀ p ∈ r.result, lastEnd p.pid r.gantt = some p.ct) ∧
      ∃ last, r.gantt.getLast? = some last ∧ (∀ p ∈ r.result, p.ct ≤ last.end_) ∧
        ∃ p ∈ r.result, p.ct = last.end_)) ∧
    (∃ fuel r, (∀ f, fuel ≤ f → simulate_rr f gapProcs 2 = some r) ∧
      ((∀ p ∈ r.result, lastEnd p.pid r.gantt = some p.ct) ∧
      ∃ last, r.gantt.getLast? = some last ∧ (∀ p ∈ r.result, p.ct ≤ last.end_) ∧
        ∃ p ∈ r.result, p.ct = last.end_)) :=
  ⟨by decide, by decide, by decide, by decide, by decide,
    C18_completion_is_last_end gapProcs 2 (by decide) (by decide) (by decide)⟩

/-- C19, as stated, fails: on the valid input P1 (arrival 0, burst
2147483647), P2 (arrival 1, burst 5), P3 (arrival 2, burst 5) with quantum
2147483647, which is at least every burst time, the 32-bit clock wraps during
the segment of P2.  `simulate_fcfs` then finds the clock before the arrival of
P3 and inserts an idle segment: P1 [0, 2147483647), P2 [2147483647,
-2147483644), idle [-2147483644, 2), P3 [2, 7).  `simulate_rr` has enqueued P3
before the wrap and runs it at once: P1 [0, 2147483647), P2 [2147483647,
-2147483644), P3 [-2147483644, -2147483639). -/
theorem C19_overflow_counterexample :
    ValidInput overflowLateProcs ∧ (∀ p ∈ overflowLateProcs, p.bt ≤ 2147483647) ∧
    (simulate_fcfs overflowLateProcs).gantt = [⟨1, 0, 2147483647⟩,
      ⟨2, 2147483647, -2147483644⟩, ⟨0, -2147483644, 2⟩, ⟨3, 2, 7⟩] ∧
    ∃ r, simulate_rr 3 overflowLateProcs 2147483647 = some r ∧
      r.gantt = [⟨1, 0, 2147483647⟩, ⟨2, 2147483647, -2147483644⟩,
        ⟨3, -2147483644, -2147483639⟩] ∧
      r.gantt ≠ (simulate_fcfs overflowLateProcs).gantt := by
  have h : simulate_rr 3 overflowLateProcs 2147483647 =
      some ⟨[⟨1, 0, 2147483647, 2147483647, 2147483647, 0, 0, false⟩,
              ⟨2, 1, 5, -2147483644, -2147483645, 2147483646, 0, false⟩,
              ⟨3, 2, 5, -2147483639, -2147483641, -2147483646, 0, false⟩],
            [⟨1, 0, 2147483647⟩, ⟨2, 2147483647, -2147483644⟩,
              ⟨3, -2147483644, -2147483639⟩]⟩ := by
    decide
  exact ⟨by decide, by decide, by decide, _, h, rfl, by decide⟩

/-- C19, amended.  For every valid input on which the clock cannot overflow
(`NoOverflow`) and every quantum that is at least every burst time,
`simulate_rr` terminates and returns exactly the chart of `simulate_fcfs` on
that input, and its table agrees with the table of `simulate_fcfs` in every
column that is shown: pid, arrival, burst, completion, turnaround and waiting
time. -/
theorem C19_rr_large_quantum_is_fcfs (procs : List Process) (quantum : Int)
    (hv : ValidInput procs) (hb : NoOverflow procs) (hq : ∀ p ∈ procs, p.bt ≤ quantum) :
    ∃ fuel r, (∀ f, fuel ≤ f → simulate_rr f procs quantum = some r) ∧
      r.gantt = (simulate_fcfs procs).gantt ∧
      r.result.map Process.columns = (simulate_fcfs procs).result.map Process.columns := by
  obtain ⟨fuel, s, h1, hpids, hchart, htable⟩ := rr_total_fcfs procs hv hb quantum hq
  have hrem := fcfsLoopZ_remaining (sortProcs fcfsLess procs) 0 []
  rw [fcfs_eq procs hv hb]
  refine ⟨fuel, _, h1, ?_, ?_⟩
  · show s.gantt = (fcfsLoopZ (sortProcs fcfsLess procs) 0 []).2
    rw [hchart]
    exact hrem.1
  · show (orderByPid s.sorted).map Process.columns =
      (orderByPid (fcfsLoopZ (sortProcs fcfsLess procs) 0 []).1).map Process.columns
    refine orderByPid_columns hpids (outcome_pidsOk hv (fcfs_outcome procs hv)) ?_
    rw [htable]
    exact hrem.2

theorem C19_rr_large_quantum_is_fcfs_witness :
    ValidInput gapProcs ∧ NoOverflow gapProcs ∧ (∀ p ∈ gapProcs, p.bt ≤ 2) ∧
    (simulate_fcfs gapProcs).gantt = [⟨0, 0, 1⟩, ⟨1, 1, 3⟩, ⟨0, 3, 5⟩, ⟨2, 5, 6⟩] ∧
    ∃ fuel r, (∀ f, fuel ≤ f → simulate_rr f gapProcs 2 = some r) ∧
      r.gantt = (simulate_fcfs gapProcs).gantt ∧
      r.result.map Process.columns = (simulate_fcfs gapProcs).result.map Process.columns :=
  ⟨by decide, by decide, by decide, by decide,
    C19_rr_large_quantum_is_fcfs gapProcs 2 (by decide) (by decide) (by decide)⟩

/-- C20, as stated, fails: on the valid input P1 (arrival 0, burst
2147483647), P2 (arrival 1, burst 5), P3 (arrival 2, burst 5) the 32-bit clock
of `simulate_fcfs` wraps during the segment of P2, and the chart has the idle
segment [-2147483644, 2); P1 has arrival time 0 < 2 and completion time
2147483647 > -2147483644. -/
theorem C20_overflow_counterexample :
    ValidInput overflowLateProcs ∧
    (simulate_fcfs overflowLateProcs).gantt = [⟨1, 0, 2147483647⟩,
      ⟨2, 2147483647, -2147483644⟩, ⟨0, -2147483644, 2⟩, ⟨3, 2, 7⟩] ∧
    ¬ (∀ seg ∈ (simulate_fcfs overflowLateProcs).gantt, seg.pid = 0 →
        ∀ p ∈ (simulate_fcfs overflowLateProcs).result,
          p.ct ≤ seg.start ∨ seg.end_ ≤ p.at_) := by
  decide

/-- C20, amended.  For every valid input on which the clock cannot overflow
(`NoOverflow`), all three schedules are work-conserving (quantum `>= 1` for
Round Robin): for every idle segment `[s, e)` of the chart, every process of
the table has `completion_time <= s` or `arrival_time >= e`.
For `simulate_sjf` the result is that of every vector `std::sort` may leave
(`SortedCopy`); `simulate_sjf` and `simulate_rr` return the same result for
every iteration budget from some bound on. -/
theorem C20_work_conserving (procs : List Process) (quantum : Int) (hv : ValidInput procs)
    (hb : NoOverflow procs) (hq : 1 ≤ quantum) :
    (∀ seg ∈ (simulate_fcfs procs).gantt, seg.pid = 0 → ∀ p ∈ (simulate_fcfs procs).result,
        p.ct ≤ seg.start ∨ seg.end_ ≤ p.at_) ∧
    (∀ sorted, SortedCopy sjfLess procs sorted →
      ∃ fuel r, (∀ f, fuel ≤ f → simulate_sjf_from f sorted = some r) ∧
        (∀ seg ∈ r.gantt, seg.pid = 0 → ∀ p ∈ r.result,
        p.ct ≤ seg.start ∨ seg.end_ ≤ p.at_)) ∧
    (∃ fuel r, (∀ f, fuel ≤ f → simulate_rr f procs quantum = some r) ∧
      (∀ seg ∈ r.gantt, seg.pid = 0 → ∀ p ∈ r.result,
        p.ct ≤ seg.start ∨ seg.end_ ≤ p.at_)) := by
  refine ⟨?_, ?_, ?_⟩
  · rw [fcfs_eq procs hv hb]
    exact out2_work hv (fcfs_outcome procs hv) (fcfs_outcome2 procs hv)
  · intro sorted hsc
    obtain ⟨fuel, s, hrun, hinv, hext, hdone, hn, hout⟩ := sjf_total_all hv hb hsc.1
    exact ⟨fuel, _, hrun, out2_work hv hout (sjf_outcome2 hv hsc.1 hinv hext hdone hn)⟩
  · obtain ⟨fuel, s, hrun, hinv, hext, hq0, hi, hout⟩ := rr_total_all procs hv hb quantum hq
    exact ⟨fuel, _, hrun, out2_work hv hout (rr_outcome2 hinv hext hq0 hi)⟩

theorem C20_work_conserving_witness :
    ValidInput gapProcs ∧ NoOverflow gapProcs ∧ (1 : Int) ≤ 2 ∧ SortedCopy sjfLess gapProcs gapProcs ∧
    (simulate_fcfs gapProcs).gantt = [⟨0, 0, 1⟩, ⟨1, 1, 3⟩, ⟨0, 3, 5⟩, ⟨2, 5, 6⟩] ∧
    (∀ seg ∈ (simulate_fcfs gapProcs).gantt, seg.pid = 0 → ∀ p ∈ (simulate_fcfs gapProcs).result,
        p.ct ≤ seg.start ∨ seg.end_ ≤ p.at_) ∧
    (∀ sorted, SortedCopy sjfLess gapProcs sorted →
      ∃ fuel r, (∀ f, fuel ≤ f → simulate_sjf_from f sorted = some r) ∧
        (∀ seg ∈ r.gantt, seg.pid = 0 → ∀ p ∈ r.result,
        p.ct ≤ seg.start ∨ seg.end_ ≤ p.at_)) ∧
    (∃ fuel r, (∀ f, fuel ≤ f → simulate_rr f gapProcs 2 = some r) ∧
      (∀ seg ∈ r.gantt, seg.pid = 0 → ∀ p ∈ r.result,
        p.ct ≤ seg.start ∨ seg.end_ ≤ p.at_)) :=
  ⟨by decide, by decide, by decide, by decide, by decide,
    C20_work_conserving gapProcs 2 (by decide) (by decide) (by decide)⟩

end Scheduler
